import Mathlib

set_option maxRecDepth 8000

/-!
Shallow embedding of the blame parsers of src/lib/git/repo/base.py
(methods Repo.blame_incremental, lines 672-732, and Repo.blame, lines
734-840, of the vendored git library), together with renderers for
well-formed porcelain blame streams and proofs about the parsers.

Bytes are modelled as natural numbers (0..255), Python byte strings as
List Nat, Python text strings as List Char.  The plugin runs on Sublime
Text 3's Python 3.3, so a StopIteration raised by next() inside the
blame_incremental generator terminates the generator cleanly
(pre-PEP-479 semantics), exactly as the comment on line 691 of the
source assumes; the embedding of the generator is the standard
state-machine transform of the while/next loop, one input line per
step, with an absorbing error state for raised exceptions.
-/

/-- ASCII whitespace bytes, the set stripped by bytes.rstrip() and split
on by bytes.split() (space, tab, newline, carriage return, vertical tab,
form feed). -/
def isWsByte (b : Nat) : Bool :=
  b == 32 || b == 9 || b == 10 || b == 13 || b == 11 || b == 12

def notWsB (b : Nat) : Bool := !(isWsByte b)

/-- bytes.rstrip() with no argument: drop trailing ASCII whitespace. -/
def pyRstripB (l : List Nat) : List Nat :=
  (l.reverse.dropWhile isWsByte).reverse

/-- bytes.lstrip(x): drop all leading occurrences of the byte x. -/
def lstripB (x : Nat) (l : List Nat) : List Nat := l.dropWhile (· == x)

/-- bytes.rstrip(x): drop all trailing occurrences of the byte x. -/
def rstripB (x : Nat) (l : List Nat) : List Nat :=
  (l.reverse.dropWhile (· == x)).reverse

/-- data.split(b'\n'): split on byte 10, keeping empty pieces
(there is always at least one piece). -/
def splitNl : List Nat → List (List Nat)
  | [] => [[]]
  | b :: t =>
    if b == 10 then [] :: splitNl t
    else
      match splitNl t with
      | h :: r => (b :: h) :: r
      | [] => [[b]]

/-- The line stream of blame_incremental (line 689):
(line for line in data.split(b'\n') if line). -/
def incStream (data : List Nat) : List (List Nat) :=
  (splitNl data).filter (· ≠ [])

/-- Helper for bytes.splitlines(keepends=True): accumulate the current
line and cut after \r\n, \r or \n, keeping the line ending. -/
def splitKEAux : List Nat → List Nat → List (List Nat)
  | acc, [] => if acc = [] then [] else [acc]
  | acc, b :: t =>
    if b = 13 then
      if t.headD 0 = 10 then (acc ++ [13, 10]) :: splitKEAux [] t.tail
      else (acc ++ [13]) :: splitKEAux [] t
    else if b = 10 then (acc ++ [10]) :: splitKEAux [] t
    else splitKEAux (acc ++ [b]) t
termination_by _ l => l.length
decreasing_by
  · simp only [List.length_cons]
    have : t.tail.length ≤ t.length := by
      cases t <;> simp
    omega
  · simp
  · simp
  · simp

/-- data.splitlines(keepends=True) for bytes (line 752). -/
def splitlinesKE (l : List Nat) : List (List Nat) := splitKEAux [] l

/-- bytes.split() with no argument: split on runs of ASCII whitespace,
discarding empty tokens (line 692). -/
def pySplitWs : List Nat → List (List Nat)
  | [] => []
  | b :: t =>
    if isWsByte b then pySplitWs t
    else (b :: t.takeWhile notWsB) :: pySplitWs (t.dropWhile notWsB)
termination_by l => l.length
decreasing_by
  · simp
  · have h : ∀ (l : List Nat), (l.dropWhile notWsB).length ≤ l.length := by
      intro l
      induction l with
      | nil => simp [List.dropWhile]
      | cons x xs ih =>
        simp only [List.dropWhile]
        split
        · exact Nat.le_trans ih (Nat.le_succ _)
        · exact Nat.le_refl _
    simp only [List.length_cons]
    exact Nat.lt_succ_of_le (h t)

/-- bytes.split(sep, 1) where sep is a single byte: `some (a, b)` when a
separator occurs (first split), `none` when the result would be a single
piece (so that unpacking `tag, value = ...` raises ValueError). -/
def pySplit1B (sep : Nat) : List Nat → Option (List Nat × List Nat)
  | [] => none
  | b :: t =>
    if b == sep then some ([], t)
    else
      match pySplit1B sep t with
      | none => none
      | some (x, y) => some (b :: x, y)

/-- Decimal digit accumulator for int() parsing. -/
def digitsValAux (acc : Nat) : List Nat → Option Nat
  | [] => some acc
  | d :: t => if 48 ≤ d ∧ d ≤ 57 then digitsValAux (acc * 10 + (d - 48)) t else none

def digitsVal (l : List Nat) : Option Nat :=
  if l = [] then none else digitsValAux 0 l

/-- int() applied to a whitespace-free byte token under Python 3.3:
optional sign followed by one or more decimal digits; anything else
raises ValueError (modelled as none). -/
def pyIntBytes (l : List Nat) : Option Int :=
  if l.headD 0 == 43 then (digitsVal l.tail).map Int.ofNat
  else if l.headD 0 == 45 then (digitsVal l.tail).map (fun v => -(v : Int))
  else (digitsVal l).map Int.ofNat

/-- int() applied to a text token (full mode, line 797). -/
def pyIntChars (s : List Char) : Option Int := pyIntBytes (s.map Char.toNat)

/-- Value of one hexadecimal digit byte. -/
def hexVal (b : Nat) : Option Nat :=
  if 48 ≤ b ∧ b ≤ 57 then some (b - 48)
  else if 97 ≤ b ∧ b ≤ 102 then some (b - 87)
  else if 65 ≤ b ∧ b ≤ 70 then some (b - 55)
  else none

/-- hex_to_bin: decode a hex token to its binary bytes; none models the
binascii error (a ValueError) on odd length or a non-hex digit. -/
def hexToBin : List Nat → Option (List Nat)
  | [] => some []
  | [_] => none
  | a :: b :: t =>
    match hexVal a, hexVal b, hexToBin t with
    | some x, some y, some r => some ((x * 16 + y) :: r)
    | _, _, _ => none

/-- hex_to_bin applied to a text sha (full mode, line 815). -/
def hexToBinC (s : List Char) : Option (List Nat) := hexToBin (s.map Char.toNat)

/-- Continuation byte test for UTF-8 decoding. -/
def contB (b : Nat) : Bool := 128 ≤ b && b ≤ 191

/-- One-byte-at-a-time strict UTF-8 decoder.  The state carries the
partial code point, the number of continuation bytes still expected and
the admissible range of the next byte (the first continuation byte of
a sequence has a lead-dependent range, later ones are 128..191). -/
def utf8Aux : Option (Nat × Nat × Nat × Nat) → List Nat → Option (List Char)
  | none, [] => some []
  | some _, [] => none
  | none, b :: t =>
    if b ≤ 127 then (utf8Aux none t).map (Char.ofNat b :: ·)
    else if 194 ≤ b && b ≤ 223 then utf8Aux (some (b - 192, 1, 128, 191)) t
    else if b == 224 then utf8Aux (some (b - 224, 2, 160, 191)) t
    else if (225 ≤ b && b ≤ 236) || b == 238 || b == 239 then
      utf8Aux (some (b - 224, 2, 128, 191)) t
    else if b == 237 then utf8Aux (some (b - 224, 2, 128, 159)) t
    else if b == 240 then utf8Aux (some (b - 240, 3, 144, 191)) t
    else if 241 ≤ b && b ≤ 243 then utf8Aux (some (b - 240, 3, 128, 191)) t
    else if b == 244 then utf8Aux (some (b - 240, 3, 128, 143)) t
    else none
  | some (cp, need, lo, hi), b :: t =>
    if lo ≤ b && b ≤ hi then
      if need == 1 then (utf8Aux none t).map (Char.ofNat (cp * 64 + (b - 128)) :: ·)
      else utf8Aux (some (cp * 64 + (b - 128), need - 1, 128, 191)) t
    else none

/-- Strict UTF-8 decoding of a byte string (bytes.decode(defenc), where
defenc is utf-8); none models UnicodeDecodeError. -/
def utf8Decode (l : List Nat) : Option (List Char) := utf8Aux none l

/-- Helper for safeDecode: same state machine, but an offending or
truncated sequence yields a replacement character. -/
def safeAux : Option (Nat × Nat × Nat × Nat) → List Nat → List Char
  | none, [] => []
  | some _, [] => [Char.ofNat 65533]
  | none, b :: t =>
    if b ≤ 127 then Char.ofNat b :: safeAux none t
    else if 194 ≤ b && b ≤ 223 then safeAux (some (b - 192, 1, 128, 191)) t
    else if b == 224 then safeAux (some (b - 224, 2, 160, 191)) t
    else if (225 ≤ b && b ≤ 236) || b == 238 || b == 239 then
      safeAux (some (b - 224, 2, 128, 191)) t
    else if b == 237 then safeAux (some (b - 224, 2, 128, 159)) t
    else if b == 240 then safeAux (some (b - 240, 3, 144, 191)) t
    else if 241 ≤ b && b ≤ 243 then safeAux (some (b - 240, 3, 128, 191)) t
    else if b == 244 then safeAux (some (b - 240, 3, 128, 143)) t
    else Char.ofNat 65533 :: safeAux none t
  | some (cp, need, lo, hi), b :: t =>
    if lo ≤ b && b ≤ hi then
      if need == 1 then Char.ofNat (cp * 64 + (b - 128)) :: safeAux none t
      else safeAux (some (cp * 64 + (b - 128), need - 1, 128, 191)) t
    else Char.ofNat 65533 :: safeAux none t

/-- Modelled from the spec: safe_decode (from the vendored library\'s
compat module, not under src/) decodes bytes to text and never raises;
undecodable byte sequences become replacement characters, per the
spec\'s requirement that metadata decoding is total.  On the ASCII data
the parser contracts promise it is the plain decoding; the exact
replacement granularity on malformed data is not observable by any
parser contract. -/
def safeDecode (l : List Nat) : List Char := safeAux none l

/-- View a byte string of ASCII bytes as the text it decodes to. -/
def asStr (l : List Nat) : List Char := l.map Char.ofNat

def isWsChar (c : Char) : Bool := isWsByte c.toNat

def notWsC (c : Char) : Bool := !(isWsChar c)

/-- re.compile(r'\s+').split(line, 1) (line 763) on the ASCII-whitespace
subset relevant to the porcelain protocol: split at the first run of
whitespace, at most once. -/
def reSplitWs1 (s : List Char) : List (List Char) :=
  let before := s.takeWhile notWsC
  let rest := s.drop before.length
  if rest = [] then [s] else [before, rest.dropWhile isWsChar]

/-- str.split(" ") with an explicit single-space separator (line 773):
empty pieces are kept. -/
def splitSpace : List Char → List (List Char)
  | [] => [[]]
  | c :: t =>
    if c == ' ' then [] :: splitSpace t
    else
      match splitSpace t with
      | h :: r => (c :: h) :: r
      | [] => [[c]]

/-- str.startswith on character lists (first argument the needle). -/
def startsW : List Char → List Char → Bool
  | [], _ => true
  | _ :: _, [] => false
  | p :: ps, c :: cs => p == c && startsW ps cs

/-- str.endswith on character lists (first argument the needle). -/
def endsW (p s : List Char) : Bool := startsW p.reverse s.reverse

def isHexDigitC (c : Char) : Bool := (hexVal c.toNat).isSome

/-- re.compile('^[0-9A-Fa-f]\x7b40\x7d$').search(firstpart) (line 768):
the token is exactly forty hex digits. -/
def isHex40 (s : List Char) : Bool := s.length == 40 && s.all isHexDigitC

/-- Association-list lookup, the membership/getitem of a Python dict. -/
def lookupKey {α β : Type} [DecidableEq α] : List (α × β) → α → Option β
  | [], _ => none
  | (k, v) :: t, x => if x = k then some v else lookupKey t x

/-- Python dict assignment d[k] = v: overwrite in place when the key is
present, append otherwise. -/
def dictInsert {α β : Type} [DecidableEq α] (l : List (α × β)) (k : α) (v : β) :
    List (α × β) :=
  if (lookupKey l k).isSome then l.map (fun p => if p.1 = k then (k, v) else p)
  else l ++ [(k, v)]

-- Protocol tag constants (byte and text forms).

def authorC : List Char := ['a', 'u', 't', 'h', 'o', 'r']
def committerC : List Char := ['c', 'o', 'm', 'm', 'i', 't', 't', 'e', 'r']
def filenameC : List Char := ['f', 'i', 'l', 'e', 'n', 'a', 'm', 'e']
def summaryC : List Char := ['s', 'u', 'm', 'm', 'a', 'r', 'y']
def mailSufC : List Char := ['-', 'm', 'a', 'i', 'l']
def timeSufC : List Char := ['-', 't', 'i', 'm', 'e']
def authorB : List Nat := authorC.map Char.toNat
def committerB : List Nat := committerC.map Char.toNat
def filenameB : List Nat := filenameC.map Char.toNat
def summaryB : List Nat := summaryC.map Char.toNat
def authorMailB : List Nat := authorB ++ [45, 109, 97, 105, 108]
def authorTimeB : List Nat := authorB ++ [45, 116, 105, 109, 101]
def authorTzB : List Nat := authorB ++ [45, 116, 122]
def committerMailB : List Nat := committerB ++ [45, 109, 97, 105, 108]
def committerTimeB : List Nat := committerB ++ [45, 116, 105, 109, 101]
def committerTzB : List Nat := committerB ++ [45, 116, 122]
def boundaryB : List Nat := [98, 111, 117, 110, 100, 97, 114, 121]

-- ## Data model

inductive PyErr
  | valueError
  | assertionError
  | keyError
  | typeError
  | indexError
deriving DecidableEq, Repr

structure Actor where
  name : List Char
  email : List Char
deriving DecidableEq, Repr

/-- The commit record constructed by both parsers (lines 714-720 and
815-820): binary sha, author, authored date, committer, committed date.
Committer/author timezone offsets are discarded by the source. -/
structure Commit where
  binsha : List Nat
  author : Actor
  authored_date : Int
  committer : Actor
  committed_date : Int
deriving DecidableEq, Repr

/-- Python range(start, stop) with step 1. -/
structure PyRange where
  start : Int
  stop : Int
deriving DecidableEq, Repr

/-- len(range(start, stop)). -/
def rangeLen (r : PyRange) : Nat := (r.stop - r.start).toNat

def rangeOf (start : Int) (num : Int) : PyRange := ⟨start, start + num⟩

/-- BlameEntry = namedtuple('BlameEntry', ['commit', 'linenos',
'orig_path', 'orig_linenos']) (line 71). -/
structure BlameEntry where
  commit : Commit
  linenos : PyRange
  orig_path : List Char
  orig_linenos : PyRange
deriving DecidableEq, Repr

-- ## Incremental parser (blame_incremental, lines 672-732)

/-- Control position of the blame_incremental loop between input lines:
about to read a header (line 691), about to read the single filename
line of an already-cached commit (line 724), or inside the metadata
loop of a new commit (lines 700-712) carrying the pending header
fields and the properties collected so far. -/
inductive IncMode
  | head
  | fnOnly (hexsha : List Nat) (orig lineno num : Int)
  | meta (hexsha : List Nat) (orig lineno num : Int) (props : List (List Nat × List Nat))
deriving DecidableEq, Repr

/-- Generator state of blame_incremental: the entries yielded so far (in
order), the commit cache, and how the generator has ended, if it has.
`err = some e` means the generator raised e; `err = none` with the fold
finished means the stream was exhausted, which under the plugin's
Python 3.3 terminates the generator cleanly wherever the next() call
was (pre-PEP-479), as the comment on line 691 assumes.  `keys` records
the header sha of each yielded entry and `log` the shas for which a
Commit was constructed; both are specification-only observations. -/
structure IncAcc where
  mode : IncMode
  commits : List (List Nat × Commit)
  entries : List BlameEntry
  keys : List (List Nat)
  log : List (List Nat)
  err : Option PyErr
deriving DecidableEq, Repr

/-- Commit construction for blame_incremental (lines 714-720), in the
source's evaluation order: hex_to_bin(hexsha), then the author
property lookups and int conversion, then the committer ones.  A
missing property is a KeyError, a bad int or hex digest a ValueError. -/
def mkIncCommit (hexsha : List Nat) (props : List (List Nat × List Nat)) :
    Except PyErr Commit :=
  match hexToBin hexsha with
  | none => .error .valueError
  | some bin =>
    match lookupKey props authorB with
    | none => .error .keyError
    | some au =>
      match lookupKey props authorMailB with
      | none => .error .keyError
      | some am =>
        match lookupKey props authorTimeB with
        | none => .error .keyError
        | some ats =>
          match pyIntBytes ats with
          | none => .error .valueError
          | some atv =>
            match lookupKey props committerB with
            | none => .error .keyError
            | some co =>
              match lookupKey props committerMailB with
              | none => .error .keyError
              | some cm =>
                match lookupKey props committerTimeB with
                | none => .error .keyError
                | some cts =>
                  match pyIntBytes cts with
                  | none => .error .valueError
                  | some ctv =>
                    .ok { binsha := bin
                        , author := ⟨safeDecode au, safeDecode (rstripB 62 (lstripB 60 am))⟩
                        , authored_date := atv
                        , committer := ⟨safeDecode co, safeDecode (rstripB 62 (lstripB 60 cm))⟩
                        , committed_date := ctv }

/-- One input line of the blame_incremental loop.  In `head` mode the
line is the header: it must split into exactly four tokens (line 692,
a ValueError otherwise) whose last three must parse as ints (lines
693-695, in the source's order lineno, num_lines, orig_lineno); a
cached sha moves to `fnOnly`, a new one to `meta`.  In `fnOnly` mode
the line must be a filename tag line (lines 724-727): a tag mismatch
is the AssertionError of line 726.  In `meta` mode boundary lines are
skipped (line 702), tag/value lines are collected (lines 707-708), and
the filename tag constructs and caches the Commit and yields the entry
(lines 709-732).  A raised error is absorbing: the generator is dead. -/
def incStep (a : IncAcc) (line : List Nat) : IncAcc :=
  if a.err.isSome then a
  else
    match a.mode with
    | .head =>
      match pySplitWs line with
      | [hexsha, origS, linoS, numS] =>
        match pyIntBytes linoS with
        | none => { a with err := some .valueError }
        | some lineno =>
          match pyIntBytes numS with
          | none => { a with err := some .valueError }
          | some num =>
            match pyIntBytes origS with
            | none => { a with err := some .valueError }
            | some orig =>
              if (lookupKey a.commits hexsha).isSome then
                { a with mode := .fnOnly hexsha orig lineno num }
              else
                { a with mode := .meta hexsha orig lineno num [] }
      | _ => { a with err := some .valueError }
    | .fnOnly hexsha orig lineno num =>
      match pySplit1B 32 line with
      | none => { a with err := some .valueError }
      | some (tag, value) =>
        if tag = filenameB then
          match lookupKey a.commits hexsha with
          | some c =>
            { a with mode := .head
                   , entries := a.entries ++
                       [⟨c, rangeOf lineno num, safeDecode value, rangeOf orig num⟩]
                   , keys := a.keys ++ [hexsha] }
          | none => { a with err := some .keyError }
        else { a with err := some .assertionError }
    | .meta hexsha orig lineno num props =>
      if line = boundaryB then a
      else
        match pySplit1B 32 line with
        | none => { a with err := some .valueError }
        | some (tag, value) =>
          let props2 := dictInsert props tag value
          if tag = filenameB then
            match mkIncCommit hexsha props2 with
            | .error e => { a with err := some e }
            | .ok c =>
              { a with mode := .head
                     , commits := dictInsert a.commits hexsha c
                     , entries := a.entries ++
                         [⟨c, rangeOf lineno num, safeDecode value, rangeOf orig num⟩]
                     , keys := a.keys ++ [hexsha]
                     , log := a.log ++ [hexsha] }
          else { a with mode := .meta hexsha orig lineno num props2 }

def incInit : IncAcc := ⟨.head, [], [], [], [], none⟩

/-- blame_incremental applied to the raw bytes the git command produced
for the file at the revision (line 686 fetches them; lines 689-732
parse them). -/
def blame_incremental (data : List Nat) : IncAcc :=
  (incStream data).foldl incStep incInit

-- ## Full parser (blame, lines 746-840)

/-- A line held in a full-mode group: decoded text, or the raw bytes of
a line that failed to decode (binary content, lines 755-757). -/
inductive BLine
  | text (s : List Char)
  | binary (b : List Nat)
deriving DecidableEq, Repr

/-- The `info` dict of the full parser.  It always carries 'id'; the
remaining keys are present when the corresponding tag line has been
seen since the last reset.  `info = none` models info = None. -/
structure FullInfo where
  id : List Char
  author : Option (List Char) := none
  author_email : Option (List Char) := none
  author_date : Option Int := none
  committer : Option (List Char) := none
  committer_email : Option (List Char) := none
  committer_date : Option Int := none
  filename : Option (List Char) := none
  summary : Option (List Char) := none
deriving DecidableEq, Repr

/-- One element of the blames list: [commit-or-None, lines].  `gKey` is
a specification-only observation recording the info['id'] under which
the commit slot was last assigned at line 833 (none if never). -/
structure FullGroup where
  commit : Option Commit
  lines : List BLine
  gKey : Option (List Char)
deriving DecidableEq, Repr

structure FullState where
  commits : List (List Char × Commit)
  blames : List FullGroup
  info : Option FullInfo
  log : List (List Char)
deriving DecidableEq, Repr

/-- Modelled from the spec: Actor._from_string (vendored library utils,
not under src/) splits "Name <email>" into name and email, the email
stored without the surrounding angle brackets (spec section 3); with no
angle-bracketed part the whole string is the name and the email is
empty. -/
def actorFromString (s : List Char) : Actor :=
  match splitAngle s with
  | none => ⟨s, []⟩
  | some (before, after) =>
    ⟨(before.reverse.dropWhile (· == ' ')).reverse, after.takeWhile (· ≠ '>')⟩
where
  splitAngle : List Char → Option (List Char × List Char)
    | [] => none
    | c :: t =>
      if c == '<' then some ([], t)
      else
        match splitAngle t with
        | none => none
        | some (x, y) => some (c :: x, y)

/-- Commit construction for the full parser (lines 815-820), in the
source's evaluation order: hex_to_bin(sha) first (ValueError on bad
hex), then each info[...] access (KeyError when the metadata line was
never seen). -/
def mkFullCommit (i : FullInfo) : Except PyErr Commit :=
  match hexToBinC i.id with
  | none => .error .valueError
  | some bin =>
    match i.author with
    | none => .error .keyError
    | some au =>
      match i.author_email with
      | none => .error .keyError
      | some am =>
        match i.author_date with
        | none => .error .keyError
        | some ad =>
          match i.committer with
          | none => .error .keyError
          | some co =>
            match i.committer_email with
            | none => .error .keyError
            | some cm =>
              match i.committer_date with
              | none => .error .keyError
              | some cd =>
                .ok { binsha := bin
                    , author := actorFromString (au ++ ' ' :: am)
                    , authored_date := ad
                    , committer := actorFromString (co ++ ' ' :: cm)
                    , committed_date := cd }

/-- The commit used when a block is finalized (lines 812-821): the
cached instance if present, otherwise a freshly constructed one that is
inserted into the cache; also returns the updated cache and
construction log. -/
def resolveCommitFull (s : FullState) (i : FullInfo) :
    Except PyErr (Commit × List (List Char × Commit) × List (List Char)) :=
  match lookupKey s.commits i.id with
  | some c => .ok (c, s.commits, s.log)
  | none =>
    match mkFullCommit i with
    | .error e => .error e
    | .ok c => .ok (c, dictInsert s.commits i.id c, s.log ++ [i.id])

/-- The line value appended at lines 823-834: the tab is stripped from
a decoded text line, a binary line is kept as is. -/
def outLineOf (lineVal : BLine) (isBin : Bool) : BLine :=
  if isBin then lineVal
  else
    match lineVal with
    | .text cs => .text (if cs ≠ [] ∧ cs.headD ' ' = Char.ofNat 9 then cs.tail else cs)
    | .binary bb => .binary bb

/-- The firstpart == '' branch of the full parser (lines 810-836):
finalize the pending block, appending the (tab-stripped text or raw
binary) line to the last group and resetting info to its id.  With no
pending info the line is skipped; with an empty blames list the
blames[-1] access is an IndexError. -/
def fullFinalize (s : FullState) (lineVal : BLine) (isBin : Bool) :
    Except PyErr FullState :=
  match s.info with
  | none => .ok s
  | some i =>
    match resolveCommitFull s i with
    | .error e => .error e
    | .ok (c, commits2, log2) =>
      let outLine := outLineOf lineVal isBin
      match s.blames.getLast? with
      | none => .error .indexError
      | some g =>
        .ok { commits := commits2
            , blames := s.blames.dropLast ++
                [{ commit := some c, lines := g.lines ++ [outLine], gKey := some i.id }]
            , info := some { id := i.id }
            , log := log2 }

/-- The text-line dispatch of the full parser once the line has been
rstripped and decoded (lines 763-838): hexsha header, author/committer
metadata, filename, summary, or the empty-firstpart finalize branch. -/
def fullStepText (s : FullState) (cs : List Char) : Except PyErr FullState :=
    let parts := reSplitWs1 cs
    let firstpart := parts.headD []
    if isHex40 firstpart then
      let digits := splitSpace (parts.getLastD [])
      if digits.length = 3 then
        .ok { s with info := some { id := firstpart }
                   , blames := s.blames ++ [⟨none, [], none⟩] }
      else
        match s.info with
        | none => .error .typeError
        | some i =>
          if i.id ≠ firstpart then
            .ok { s with info := some { id := firstpart }
                       , blames := s.blames ++ [⟨lookupKey s.commits firstpart, [], none⟩] }
          else .ok s
    else if startsW authorC firstpart || startsW committerC firstpart then
      let role := if startsW authorC firstpart then authorC else committerC
      match s.info with
      | none =>
        if endsW mailSufC firstpart then .error .typeError
        else if endsW timeSufC firstpart then
          match pyIntChars (parts.getLastD []) with
          | none => .error .valueError
          | some _ => .error .typeError
        else if role = firstpart then .error .typeError
        else .ok s
      | some i =>
        if endsW mailSufC firstpart then
          if role = authorC then .ok { s with info := some { i with author_email := some (parts.getLastD []) } }
          else .ok { s with info := some { i with committer_email := some (parts.getLastD []) } }
        else if endsW timeSufC firstpart then
          match pyIntChars (parts.getLastD []) with
          | none => .error .valueError
          | some tv =>
            if role = authorC then .ok { s with info := some { i with author_date := some tv } }
            else .ok { s with info := some { i with committer_date := some tv } }
        else if role = firstpart then
          if role = authorC then .ok { s with info := some { i with author := some (parts.getLastD []) } }
          else .ok { s with info := some { i with committer := some (parts.getLastD []) } }
        else .ok s
    else if startsW filenameC firstpart then
      match s.info with
      | none => .error .typeError
      | some i => .ok { s with info := some { i with filename := some (parts.getLastD []) } }
    else if startsW summaryC firstpart then
      match s.info with
      | none => .error .typeError
      | some i => .ok { s with info := some { i with summary := some (parts.getLastD []) } }
    else if firstpart = [] then fullFinalize s (.text cs) false
    else .ok s

/-- One line of the full parser's loop body (lines 752-839).  The raw
line (with its ending, keepends=True) is rstripped and decoded; on
decode failure firstpart is '' and the raw line is kept as binary
content (lines 753-757), which sends it to the finalize branch. -/
def fullStep (s : FullState) (raw : List Nat) : Except PyErr FullState :=
  match utf8Decode (pyRstripB raw) with
  | none => fullFinalize s (.binary raw) true
  | some cs => fullStepText s cs

instance {ε α : Type} [DecidableEq ε] [DecidableEq α] : DecidableEq (Except ε α)
  | .error a, .error b =>
    match decEq a b with
    | isTrue h => isTrue (by rw [h])
    | isFalse h => isFalse (fun hh => h (Except.error.inj hh))
  | .error _, .ok _ => isFalse (fun h => Except.noConfusion h)
  | .ok _, .error _ => isFalse (fun h => Except.noConfusion h)
  | .ok a, .ok b =>
    match decEq a b with
    | isTrue h => isTrue (by rw [h])
    | isFalse h => isFalse (fun hh => h (Except.ok.inj hh))

def fullFold (s : FullState) : List (List Nat) → Except PyErr FullState
  | [] => .ok s
  | l :: ls =>
    match fullStep s l with
    | .error e => .error e
    | .ok s2 => fullFold s2 ls

def fullInit : FullState := ⟨[], [], none, []⟩

/-- The non-incremental body of blame (lines 746-840) applied to the
raw bytes the git command produced. -/
def blameFull (data : List Nat) : Except PyErr FullState :=
  fullFold fullInit (splitlinesKE data)

-- ## Dispatch (blame, lines 743-744)

/-- The raw porcelain streams the command invocation adapter returns for
one revision and file: with content lines (full mode) and with
incremental=True (no content lines). -/
structure GitData where
  fullData : List Nat
  incData : List Nat
deriving DecidableEq, Repr

inductive BlameRet
  | groups (r : Except PyErr FullState)
  | stream (r : IncAcc)
deriving Repr

/-- Repo.blame: with incremental truthy it returns
blame_incremental(rev, file) (lines 743-744); otherwise the batch
parse of lines 746-840. -/
def blame (g : GitData) (incremental : Bool) : BlameRet :=
  if incremental then .stream (blame_incremental g.incData)
  else .groups (blameFull g.fullData)

-- ## Well-formed porcelain streams: abstract blocks and renderers

/-- Commit metadata of one porcelain entry, in abstract form.  The mail
fields carry the address without the angle brackets the tool wraps it
in. -/
structure Meta where
  author : List Nat
  authorMail : List Nat
  authorTime : Nat
  committer : List Nat
  committerMail : List Nat
  committerTime : Nat
  summary : List Nat
deriving DecidableEq, Repr

/-- One blame block (group): `size` consecutive final lines starting at
`final`, mapped from original lines starting at `orig`, attributed to
`sha`.  `contents` are the content lines (full mode only). -/
structure Block where
  sha : List Nat
  orig : Nat
  final : Nat
  size : Nat
  meta : Meta
  filename : List Nat
  contents : List (List Nat)
deriving DecidableEq, Repr

def tagLineB (tag value : List Nat) : List Nat := tag ++ 32 :: value

/-- Decimal digits of a natural number, as ASCII bytes. -/
def natToDec (n : Nat) : List Nat :=
  if n < 10 then [48 + n] else natToDec (n / 10) ++ [48 + n % 10]
decreasing_by exact Nat.div_lt_self (by omega) (by omega)

/-- Join lines with a terminating newline after each. -/
def joinNl (ls : List (List Nat)) : List Nat :=
  ls.foldr (fun l acc => l ++ 10 :: acc) []

/-- The four-field header line of a block: sha, orig, final, size. -/
def hdr4 (b : Block) : List Nat :=
  b.sha ++ 32 :: (natToDec b.orig ++ 32 :: (natToDec b.final ++ 32 :: natToDec b.size))

/-- The three-field continuation header for the k-th line of a block
(full mode): sha, orig+k, final+k. -/
def hdr3 (b : Block) (k : Nat) : List Nat :=
  b.sha ++ 32 :: (natToDec (b.orig + k) ++ 32 :: natToDec (b.final + k))

def fnLineOf (b : Block) : List Nat := tagLineB filenameB b.filename

/-- The metadata lines of a block's first appearance, ending with the
filename line that terminates the entry. -/
def metaLines (b : Block) : List (List Nat) :=
  [ tagLineB authorB b.meta.author
  , tagLineB authorMailB (60 :: (b.meta.authorMail ++ [62]))
  , tagLineB authorTimeB (natToDec b.meta.authorTime)
  , tagLineB authorTzB [45, 48, 55, 48, 48]
  , tagLineB committerB b.meta.committer
  , tagLineB committerMailB (60 :: (b.meta.committerMail ++ [62]))
  , tagLineB committerTimeB (natToDec b.meta.committerTime)
  , tagLineB committerTzB [45, 48, 55, 48, 48]
  , tagLineB summaryB b.meta.summary
  , fnLineOf b ]

/-- The lines of one block in incremental output: header, then the full
metadata on the sha's first appearance or just the filename line on a
repeat. -/
def incBlockLines (seen : Bool) (b : Block) : List (List Nat) :=
  hdr4 b :: (if seen then [fnLineOf b] else metaLines b)

def renderIncAux : List (List Nat) → List Block → List (List Nat)
  | _, [] => []
  | seen, b :: bs =>
    incBlockLines (decide (b.sha ∈ seen)) b ++ renderIncAux (b.sha :: seen) bs

/-- A well-formed incremental-mode stream for the given blocks. -/
def renderInc (bs : List Block) : List Nat := joinNl (renderIncAux [] bs)

def contLine (c : List Nat) : List Nat := 9 :: c

/-- Continuation headers and content lines for the k-th and following
lines of a block (full mode). -/
def contSeq (b : Block) : Nat → List (List Nat) → List (List Nat)
  | _, [] => []
  | k, c :: cs => hdr3 b k :: contLine c :: contSeq b (k + 1) cs

/-- The lines of one block in full-mode output: header, metadata or
filename line, first content line, then alternating continuation
headers and content lines. -/
def fullBlockLines (seen : Bool) (b : Block) : List (List Nat) :=
  (hdr4 b :: (if seen then [fnLineOf b] else metaLines b)) ++
    (match b.contents with
     | [] => []
     | c :: cs => contLine c :: contSeq b 1 cs)

def renderFullAux : List (List Nat) → List Block → List (List Nat)
  | _, [] => []
  | seen, b :: bs =>
    fullBlockLines (decide (b.sha ∈ seen)) b ++ renderFullAux (b.sha :: seen) bs

/-- A well-formed full-mode stream for the given blocks. -/
def renderFull (bs : List Block) : List Nat := joinNl (renderFullAux [] bs)

-- Well-formedness of the abstract fields.

/-- A printable-ASCII token that survives rstrip and whitespace
splitting intact: nonempty, bytes 32..126, no leading or trailing
space. -/
def softTok (l : List Nat) : Bool :=
  !l.isEmpty && l.all (fun b => decide (32 ≤ b) && decide (b ≤ 126)) &&
    (l.headD 0 != 32) && (l.getLastD 0 != 32)

/-- A printable-ASCII token with no spaces at all. -/
def hardTok (l : List Nat) : Bool :=
  !l.isEmpty && l.all (fun b => decide (33 ≤ b) && decide (b ≤ 126))

/-- A mail address token: no spaces and no angle brackets, so the
tool's wrapping and the parser's stripping cancel. -/
def mailTok (l : List Nat) : Bool :=
  hardTok l && l.all (fun b => b != 60 && b != 62)

/-- An author/committer name: printable, no angle bracket. -/
def nameTok (l : List Nat) : Bool := softTok l && l.all (fun b => b != 60)

def shaTok (l : List Nat) : Bool := (l.length == 40) && l.all (fun b => (hexVal b).isSome)

/-- A content line body: printable ASCII (possibly empty) with no
trailing space, so rstrip leaves it intact. -/
def contentOk (c : List Nat) : Bool :=
  c.all (fun b => decide (32 ≤ b) && decide (b ≤ 126)) && (c.getLastD 0 != 32)

def metaOk (m : Meta) : Bool :=
  nameTok m.author && mailTok m.authorMail && nameTok m.committer &&
    mailTok m.committerMail && softTok m.summary

def blockOk (b : Block) : Bool :=
  shaTok b.sha && metaOk b.meta && softTok b.filename &&
    (b.contents.length == b.size) && b.contents.all contentOk && decide (0 < b.size)

-- ## Expected parse results of well-formed streams

/-- The commit blame_incremental builds for a block's first appearance
(lines 714-720), on well-formed fields. -/
def incCommitOf (b : Block) : Commit :=
  { binsha := (hexToBin b.sha).getD []
  , author := ⟨asStr b.meta.author, asStr b.meta.authorMail⟩
  , authored_date := (b.meta.authorTime : Int)
  , committer := ⟨asStr b.meta.committer, asStr b.meta.committerMail⟩
  , committed_date := (b.meta.committerTime : Int) }

/-- The entry blame_incremental yields for a block. -/
def entryOf (c : Commit) (b : Block) : BlameEntry :=
  ⟨c, rangeOf (b.final : Int) (b.size : Int), asStr b.filename,
    rangeOf (b.orig : Int) (b.size : Int)⟩

/-- Reference semantics of the incremental parse of a well-formed
stream: one entry per block, commit cached by sha. -/
def incSim (a : IncAcc) : List Block → IncAcc
  | [] => a
  | b :: bs =>
    match lookupKey a.commits b.sha with
    | some c =>
      incSim { a with entries := a.entries ++ [entryOf c b]
                    , keys := a.keys ++ [b.sha] } bs
    | none =>
      let c := incCommitOf b
      incSim { a with commits := dictInsert a.commits b.sha c
                    , entries := a.entries ++ [entryOf c b]
                    , keys := a.keys ++ [b.sha]
                    , log := a.log ++ [b.sha] } bs

/-- The commit the full parser builds for a block's first appearance
(lines 815-820), on well-formed fields. -/
def fullCommitOf (b : Block) : Commit :=
  { binsha := (hexToBinC (asStr b.sha)).getD []
  , author := actorFromString (asStr b.meta.author ++ ' ' :: asStr (60 :: (b.meta.authorMail ++ [62])))
  , authored_date := (b.meta.authorTime : Int)
  , committer := actorFromString (asStr b.meta.committer ++ ' ' :: asStr (60 :: (b.meta.committerMail ++ [62])))
  , committed_date := (b.meta.committerTime : Int) }

/-- The group the full parser produces for a block. -/
def groupOf (c : Commit) (b : Block) : FullGroup :=
  ⟨some c, b.contents.map (fun x => .text (asStr x)), some (asStr b.sha)⟩

/-- Reference semantics of the full parse of a well-formed stream: one
group per block, in stream order, commits cached by sha. -/
def fullSim (s : FullState) : List Block → FullState
  | [] => s
  | b :: bs =>
    match lookupKey s.commits (asStr b.sha) with
    | some c =>
      fullSim { s with blames := s.blames ++ [groupOf c b]
                     , info := some { id := asStr b.sha } } bs
    | none =>
      let c := fullCommitOf b
      fullSim { s with commits := dictInsert s.commits (asStr b.sha) c
                     , blames := s.blames ++ [groupOf c b]
                     , info := some { id := asStr b.sha }
                     , log := s.log ++ [asStr b.sha] } bs

-- ## Coverage and mode-equivalence observations

/-- Do the blocks' final-line ranges tile the file contiguously
starting at line n? -/
def tiledFrom (n : Nat) : List Block → Bool
  | [] => true
  | b :: bs => (b.final == n) && tiledFrom (n + b.size) bs

def sumSizes (bs : List Block) : Nat := bs.foldr (fun b acc => b.size + acc) 0

def rangeFinset (r : PyRange) : Finset Int := Finset.Ico r.start r.stop

def rangesUnion (rs : List PyRange) : Finset Int :=
  rs.foldr (fun r acc => rangeFinset r ∪ acc) ∅

/-- The (commit id, final line) pairs of incremental entries, each
entry expanded over its final-line range; commits are compared by
binary sha. -/
def pairsOfEntries (es : List BlameEntry) : Finset (List Nat × Int) :=
  es.foldr
    (fun e acc => (rangeFinset e.linenos).image (fun l => (e.commit.binsha, l)) ∪ acc) ∅

/-- The (commit id, final line) pairs of full-mode groups, expanding
each group over its attributed lines, numbered consecutively from n in
stream order. -/
def pairsOfGroupsAux : Int → List FullGroup → Finset (List Nat × Int)
  | _, [] => ∅
  | n, g :: gs =>
    (Finset.Ico n (n + g.lines.length)).image
        (fun l => ((g.commit.map Commit.binsha).getD [], l)) ∪
      pairsOfGroupsAux (n + g.lines.length) gs

def pairsOfGroups (gs : List FullGroup) : Finset (List Nat × Int) :=
  pairsOfGroupsAux 1 gs

/-- The groups list blame returns, empty when the parse raised. -/
def fullBlamesOf (data : List Nat) : List FullGroup :=
  match blameFull data with
  | .ok s => s.blames
  | .error _ => []

def totalLines (gs : List FullGroup) : Nat := gs.foldr (fun g acc => g.lines.length + acc) 0

-- ## Concrete inputs for counterexamples and witnesses

def shaA : List Nat := List.replicate 40 97
def shaB : List Nat := List.replicate 40 98

def metaA : Meta := ⟨[116], [109], 1, [116], [109], 2, [115]⟩
def metaB : Meta := ⟨[117], [110], 3, [117], [110], 4, [122]⟩

def blockA1 : Block := ⟨shaA, 1, 1, 1, metaA, [102], [[120]]⟩
def blockA2 : Block := ⟨shaA, 2, 2, 1, metaA, [102], [[121]]⟩
def blockB1 : Block := ⟨shaB, 2, 2, 2, metaB, [102], [[121], [122]]⟩

/-- Full-mode stream in which the second block reuses the cached sha
but the line after its header carries a summary tag, not filename. -/
def c1FullInput : List Nat :=
  joinNl (fullBlockLines false blockA1 ++
    [hdr4 blockA2, tagLineB summaryB [111], contLine [121]])

/-- Incremental stream whose second header carries only three fields
(a continuation header without group size). -/
def c2IncInput : List Nat :=
  joinNl (incBlockLines false blockA1 ++
    [shaA ++ 32 :: (natToDec 2 ++ 32 :: natToDec 2)])

/-- Incremental stream that ends immediately after a header line. -/
def c3IncInput : List Nat := joinNl [hdr4 blockA1, tagLineB authorB [116]]

/-- The props dict blame_incremental has collected when the filename
line of a first-appearance block arrives. -/
def propsOf (b : Block) : List (List Nat × List Nat) :=
  [ (authorB, b.meta.author)
  , (authorMailB, 60 :: (b.meta.authorMail ++ [62]))
  , (authorTimeB, natToDec b.meta.authorTime)
  , (authorTzB, [45, 48, 55, 48, 48])
  , (committerB, b.meta.committer)
  , (committerMailB, 60 :: (b.meta.committerMail ++ [62]))
  , (committerTimeB, natToDec b.meta.committerTime)
  , (committerTzB, [45, 48, 55, 48, 48])
  , (summaryB, b.meta.summary)
  , (filenameB, b.filename) ]

-- ## Per-block reference lists and block pair sets

/-- The entries the incremental parse of a well-formed stream yields,
one per block, with the commit cache threaded through. -/
def incEntriesFrom (co : List (List Nat × Commit)) : List Block → List BlameEntry
  | [] => []
  | b :: bs =>
    match lookupKey co b.sha with
    | some c => entryOf c b :: incEntriesFrom co bs
    | none => entryOf (incCommitOf b) b :: incEntriesFrom (dictInsert co b.sha (incCommitOf b)) bs

/-- The groups the full parse of a well-formed stream produces, one per
block, with the commit cache threaded through. -/
def fullGroupsFrom (co : List (List Char × Commit)) : List Block → List FullGroup
  | [] => []
  | b :: bs =>
    match lookupKey co (asStr b.sha) with
    | some c => groupOf c b :: fullGroupsFrom co bs
    | none =>
      groupOf (fullCommitOf b) b ::
        fullGroupsFrom (dictInsert co (asStr b.sha) (fullCommitOf b)) bs

/-- The (binary sha, final line) pairs a list of blocks describes. -/
def pairsOfBlocks : List Block → Finset (List Nat × Int)
  | [] => ∅
  | b :: bs =>
    (Finset.Ico (b.final : Int) ((b.final : Int) + (b.size : Int))).image
        (fun l => ((hexToBin b.sha).getD [], l)) ∪ pairsOfBlocks bs

-- ## Helper lemmas: bytes, tokens, splitting

theorem toNat_ofNat_ascii (b : Nat) (h : b ≤ 127) : (Char.ofNat b).toNat = b := by
  have hv : Nat.isValidChar b := Or.inl (by omega)
  simp [Char.ofNat, Char.ofNatAux, Char.toNat, hv, UInt32.toNat, BitVec.toNat_ofNat]

theorem map_toNat_asStr (l : List Nat) (h : ∀ b ∈ l, b ≤ 127) :
    (asStr l).map Char.toNat = l := by
  induction l with
  | nil => rfl
  | cons x t ih =>
    simp only [asStr, List.map_cons]
    rw [toNat_ofNat_ascii x (h x (by simp))]
    have := ih (fun b hb => h b (by simp [hb]))
    simp only [asStr] at this
    rw [this]

theorem isWsChar_ofNat (b : Nat) (h : b ≤ 127) :
    isWsChar (Char.ofNat b) = isWsByte b := by
  simp [isWsChar, toNat_ofNat_ascii b h]

theorem notWs_of_printable (b : Nat) (h1 : 32 ≤ b) (h2 : b ≤ 126) (h3 : b ≠ 32) :
    isWsByte b = false := by
  simp [isWsByte]
  omega

theorem notWs_of_hard (b : Nat) (h1 : 33 ≤ b) (h2 : b ≤ 126) : isWsByte b = false := by
  simp [isWsByte]
  omega

theorem hexVal_bound (b : Nat) (h : (hexVal b).isSome = true) : 48 ≤ b ∧ b ≤ 102 := by
  simp only [hexVal] at h
  split at h
  · omega
  · split at h
    · omega
    · split at h
      · omega
      · simp at h

theorem takeWhile_append_all {α : Type} (p : α → Bool) (l r : List α)
    (h : ∀ x ∈ l, p x = true) : (l ++ r).takeWhile p = l ++ r.takeWhile p := by
  induction l with
  | nil => simp
  | cons x t ih =>
    simp only [List.cons_append, List.takeWhile_cons, h x (by simp)]
    rw [ih (fun y hy => h y (by simp [hy]))]
    simp

theorem dropWhile_append_all {α : Type} (p : α → Bool) (l r : List α)
    (h : ∀ x ∈ l, p x = true) : (l ++ r).dropWhile p = r.dropWhile p := by
  induction l with
  | nil => simp
  | cons x t ih =>
    simp only [List.cons_append, List.dropWhile_cons, h x (by simp)]
    exact ih (fun y hy => h y (by simp [hy]))

theorem takeWhile_all {α : Type} (p : α → Bool) (l : List α)
    (h : ∀ x ∈ l, p x = true) : l.takeWhile p = l := by
  have := takeWhile_append_all p l [] h
  simpa using this

theorem dropWhile_all {α : Type} (p : α → Bool) (l : List α)
    (h : ∀ x ∈ l, p x = true) : l.dropWhile p = [] := by
  have := dropWhile_append_all p l [] h
  simpa using this

theorem dropWhile_head_false {α : Type} (p : α → Bool) (l : List α)
    (h : ∀ (hne : l ≠ []), p (l.head hne) = false) : l.dropWhile p = l := by
  cases l with
  | nil => rfl
  | cons x t =>
    have hx : p x = false := by simpa using h (by simp)
    simp [List.dropWhile_cons, hx]

theorem pyRstripB_append_one (l : List Nat) (w : Nat) (hw : isWsByte w = true) :
    pyRstripB (l ++ [w]) = pyRstripB l := by
  simp [pyRstripB, List.dropWhile_cons, hw]

theorem pyRstripB_last_single (l : List Nat) (x : Nat) (h : isWsByte x = false) :
    pyRstripB (l ++ [x]) = l ++ [x] := by
  simp [pyRstripB, List.dropWhile_cons, h]

theorem pyRstripB_self (l : List Nat) (hne : l ≠ []) (h : isWsByte (l.getLast hne) = false) :
    pyRstripB l = l := by
  have h2 := pyRstripB_last_single l.dropLast (l.getLast hne) h
  rw [List.dropLast_append_getLast hne] at h2
  exact h2

theorem pyRstripB_nil : pyRstripB [] = [] := rfl

theorem splitNl_token (l r : List Nat) (h : ∀ b ∈ l, b ≠ 10) :
    splitNl (l ++ 10 :: r) = l :: splitNl r := by
  induction l with
  | nil => simp [splitNl]
  | cons b t ih =>
    have hb : b ≠ 10 := h b (by simp)
    simp only [List.cons_append, splitNl, beq_iff_eq, hb, if_false]
    rw [List.append_eq, ih (fun y hy => h y (by simp [hy]))]

theorem incStream_joinNl (ls : List (List Nat))
    (h : ∀ l ∈ ls, l ≠ [] ∧ ∀ b ∈ l, b ≠ 10) : incStream (joinNl ls) = ls := by
  induction ls with
  | nil => rfl
  | cons x xs ih =>
    have hx := h x (by simp)
    simp only [joinNl, List.foldr_cons]
    have : (List.foldr (fun l acc => l ++ 10 :: acc) [] xs) = joinNl xs := rfl
    rw [this, incStream, splitNl_token x (joinNl xs) hx.2]
    simp only [List.filter_cons]
    rw [if_pos (by simpa using hx.1)]
    have := ih (fun l hl => h l (by simp [hl]))
    rw [incStream] at this
    rw [this]

theorem splitKEAux_token (acc l r : List Nat) (h : ∀ b ∈ l, b ≠ 10 ∧ b ≠ 13) :
    splitKEAux acc (l ++ 10 :: r) = (acc ++ l ++ [10]) :: splitKEAux [] r := by
  induction l generalizing acc with
  | nil => simp [splitKEAux]
  | cons b t ih =>
    have hb := h b (by simp)
    simp only [List.cons_append, splitKEAux]
    rw [if_neg hb.2, if_neg hb.1, ih (acc ++ [b]) (fun y hy => h y (by simp [hy]))]
    simp

theorem splitlinesKE_joinNl (ls : List (List Nat))
    (h : ∀ l ∈ ls, ∀ b ∈ l, b ≠ 10 ∧ b ≠ 13) :
    splitlinesKE (joinNl ls) = ls.map (· ++ [10]) := by
  induction ls with
  | nil => simp [splitlinesKE, splitKEAux, joinNl]
  | cons x xs ih =>
    simp only [joinNl, List.foldr_cons, List.map_cons]
    have hx := h x (by simp)
    have : (List.foldr (fun l acc => l ++ 10 :: acc) [] xs) = joinNl xs := rfl
    rw [this, splitlinesKE, splitKEAux_token [] x (joinNl xs) hx]
    simp only [List.nil_append]
    have := ih (fun l hl => h l (by simp [hl]))
    rw [splitlinesKE] at this
    rw [this]

theorem pySplitWs_skip (b : Nat) (t : List Nat) (h : isWsByte b = true) :
    pySplitWs (b :: t) = pySplitWs t := by
  rw [pySplitWs]
  simp [h]

theorem pySplitWs_token (tok rest : List Nat) (hne : tok ≠ [])
    (h : ∀ x ∈ tok, isWsByte x = false) :
    pySplitWs (tok ++ 32 :: rest) = tok :: pySplitWs rest := by
  cases tok with
  | nil => exact absurd rfl hne
  | cons b t =>
    have hb : isWsByte b = false := h b (by simp)
    rw [List.cons_append, pySplitWs]
    simp only [hb, Bool.false_eq_true, if_false]
    have htk : (t ++ 32 :: rest).takeWhile notWsB = t := by
      rw [takeWhile_append_all notWsB t _ (fun x hx => by simp [notWsB, h x (by simp [hx])])]
      simp [List.takeWhile_cons, notWsB, isWsByte]
    have hdr : (t ++ 32 :: rest).dropWhile notWsB = 32 :: rest := by
      rw [dropWhile_append_all notWsB t _ (fun x hx => by simp [notWsB, h x (by simp [hx])])]
      simp [List.dropWhile_cons, notWsB, isWsByte]
    rw [htk, hdr, pySplitWs_skip 32 rest (by simp [isWsByte])]

theorem pySplitWs_last (tok : List Nat) (hne : tok ≠ [])
    (h : ∀ x ∈ tok, isWsByte x = false) : pySplitWs tok = [tok] := by
  cases tok with
  | nil => exact absurd rfl hne
  | cons b t =>
    have hb : isWsByte b = false := h b (by simp)
    rw [pySplitWs]
    simp only [hb, Bool.false_eq_true, if_false]
    rw [takeWhile_all notWsB t (fun x hx => by simp [notWsB, h x (by simp [hx])]),
      dropWhile_all notWsB t (fun x hx => by simp [notWsB, h x (by simp [hx])])]
    rw [pySplitWs]

theorem pySplit1B_token (t v : List Nat) (h : ∀ x ∈ t, x ≠ 32) :
    pySplit1B 32 (t ++ 32 :: v) = some (t, v) := by
  induction t with
  | nil => simp [pySplit1B]
  | cons b tl ih =>
    have hb : b ≠ 32 := h b (by simp)
    rw [List.cons_append, pySplit1B]
    simp only [beq_iff_eq, hb, if_false]
    rw [ih (fun y hy => h y (by simp [hy]))]

theorem natToDec_digits (n : Nat) : ∀ b ∈ natToDec n, 48 ≤ b ∧ b ≤ 57 := by
  induction n using natToDec.induct with
  | case1 x hx =>
    intro b hb
    rw [natToDec, if_pos hx] at hb
    simp at hb
    omega
  | case2 x hx ih =>
    intro b hb
    rw [natToDec, if_neg hx] at hb
    rcases List.mem_append.1 hb with h1 | h2
    · exact ih b h1
    · simp at h2
      have : x % 10 < 10 := Nat.mod_lt _ (by omega)
      omega

theorem natToDec_ne_nil (n : Nat) : natToDec n ≠ [] := by
  rw [natToDec]
  split
  · simp
  · simp

theorem digitsValAux_append (acc : Nat) (xs ys : List Nat) :
    digitsValAux acc (xs ++ ys) = (digitsValAux acc xs).bind (fun a => digitsValAux a ys) := by
  induction xs generalizing acc with
  | nil => simp [digitsValAux]
  | cons d t ih =>
    rw [List.cons_append, digitsValAux, digitsValAux]
    split
    · exact ih _
    · rfl

theorem digitsValAux_natToDec (n : Nat) :
    ∀ acc, digitsValAux acc (natToDec n) = some (acc * 10 ^ (natToDec n).length + n) := by
  induction n using natToDec.induct with
  | case1 x hx =>
    intro acc
    rw [natToDec, if_pos hx]
    rw [digitsValAux, if_pos (by omega), digitsValAux]
    simp
  | case2 x hx ih =>
    intro acc
    rw [natToDec, if_neg hx, digitsValAux_append, ih acc, Option.some_bind]
    have hd : 48 ≤ 48 + x % 10 ∧ 48 + x % 10 ≤ 57 := by
      have : x % 10 < 10 := Nat.mod_lt _ (by omega)
      omega
    rw [digitsValAux, if_pos hd, digitsValAux]
    have hlen : (natToDec (x / 10) ++ [48 + x % 10]).length = (natToDec (x / 10)).length + 1 := by
      simp
    rw [hlen]
    congr 1
    have hx10 : 48 + x % 10 - 48 = x % 10 := by omega
    rw [hx10, Nat.pow_succ]
    generalize (10 : Nat) ^ (natToDec (x / 10)).length = P
    have hdm : x / 10 * 10 + x % 10 = x := by omega
    calc (acc * P + x / 10) * 10 + x % 10
        = acc * (P * 10) + (x / 10 * 10 + x % 10) := by ring
      _ = acc * (P * 10) + x := by rw [hdm]

theorem digitsVal_natToDec (n : Nat) : digitsVal (natToDec n) = some n := by
  rw [digitsVal, if_neg (natToDec_ne_nil n), digitsValAux_natToDec n 0]
  simp

theorem pyIntBytes_natToDec (n : Nat) : pyIntBytes (natToDec n) = some (n : Int) := by
  have hd : (natToDec n).headD 0 ∈ natToDec n := by
    cases h : natToDec n with
    | nil => exact absurd h (natToDec_ne_nil n)
    | cons a t => simp
  obtain ⟨hb1, hb2⟩ := natToDec_digits n _ hd
  have h43 : ¬((natToDec n).headD 0 == 43) = true := by
    simp only [beq_iff_eq]
    omega
  have h45 : ¬((natToDec n).headD 0 == 45) = true := by
    simp only [beq_iff_eq]
    omega
  rw [pyIntBytes, if_neg h43, if_neg h45, digitsVal_natToDec]
  rfl

theorem natToDec_not_ws (n : Nat) : ∀ x ∈ natToDec n, isWsByte x = false := by
  intro x hx
  have := natToDec_digits n x hx
  simp [isWsByte]
  omega

theorem hexVal_not_ws (b : Nat) (h : (hexVal b).isSome = true) : isWsByte b = false := by
  have := hexVal_bound b h
  simp [isWsByte]
  omega

theorem hexToBin_total (l : List Nat) (hall : ∀ b ∈ l, (hexVal b).isSome = true)
    (hlen : l.length % 2 = 0) : (hexToBin l).isSome = true := by
  induction l using hexToBin.induct with
  | case1 => simp [hexToBin]
  | case2 head =>
    simp at hlen
  | case3 a b t x y r ht hy hx ih =>
    rw [hexToBin, hx, hy, ht]
    rfl
  | case4 a b t hcon ih =>
    exfalso
    have ha := hall a (by simp)
    have hb := hall b (by simp)
    rcases Option.isSome_iff_exists.1 ha with ⟨x, hx⟩
    rcases Option.isSome_iff_exists.1 hb with ⟨y, hy⟩
    have ht : (hexToBin t).isSome = true := by
      apply ih (fun z hz => hall z (by simp [hz]))
      simp at hlen
      omega
    rcases Option.isSome_iff_exists.1 ht with ⟨r, hr⟩
    exact hcon x y r hx hy hr

theorem utf8Decode_ascii (l : List Nat) (h : ∀ b ∈ l, b ≤ 127) :
    utf8Decode l = some (asStr l) := by
  induction l with
  | nil => rfl
  | cons b t ih =>
    have hb := h b (by simp)
    rw [utf8Decode, utf8Aux, if_pos hb]
    rw [utf8Decode] at ih
    rw [ih (fun y hy => h y (by simp [hy]))]
    rfl

theorem safeDecode_ascii (l : List Nat) (h : ∀ b ∈ l, b ≤ 127) :
    safeDecode l = asStr l := by
  induction l with
  | nil => rfl
  | cons b t ih =>
    have hb := h b (by simp)
    rw [safeDecode, safeAux, if_pos hb]
    rw [safeDecode] at ih
    rw [ih (fun y hy => h y (by simp [hy]))]
    rfl

theorem lookupKey_append_single {α β : Type} [DecidableEq α]
    (l : List (α × β)) (k x : α) (v : β) :
    lookupKey (l ++ [(k, v)]) x =
      match lookupKey l x with
      | some w => some w
      | none => if x = k then some v else none := by
  induction l with
  | nil => simp [lookupKey]
  | cons p t ih =>
    rw [List.cons_append, lookupKey, lookupKey]
    split
    · rfl
    · exact ih

theorem dictInsert_fresh {α β : Type} [DecidableEq α]
    (l : List (α × β)) (k : α) (v : β) (h : lookupKey l k = none) :
    dictInsert l k v = l ++ [(k, v)] := by
  simp [dictInsert, h]

theorem lookupKey_dictInsert_self {α β : Type} [DecidableEq α]
    (l : List (α × β)) (k : α) (v : β) (h : lookupKey l k = none) :
    lookupKey (dictInsert l k v) k = some v := by
  rw [dictInsert_fresh l k v h, lookupKey_append_single, h]
  simp

theorem lookupKey_map_keep {α β : Type} [DecidableEq α]
    (l : List (α × β)) (k x : α) (v : β) (hx : x ≠ k) :
    lookupKey (l.map (fun p => if p.1 = k then (k, v) else p)) x = lookupKey l x := by
  induction l with
  | nil => rfl
  | cons p t ih =>
    rw [List.map_cons]
    by_cases hp : p.1 = k
    · rw [if_pos hp, lookupKey, lookupKey, if_neg hx, if_neg (fun hh => hx (hh.trans hp))]
      exact ih
    · rw [if_neg hp, lookupKey, lookupKey]
      by_cases hxp : x = p.1
      · rw [if_pos hxp, if_pos hxp]
      · rw [if_neg hxp, if_neg hxp]
        exact ih

theorem lookupKey_dictInsert_other {α β : Type} [DecidableEq α]
    (l : List (α × β)) (k x : α) (v : β) (hx : x ≠ k) :
    lookupKey (dictInsert l k v) x = lookupKey l x := by
  rw [dictInsert]
  split
  · exact lookupKey_map_keep l k x v hx
  · rw [lookupKey_append_single, if_neg hx]
    cases hl : lookupKey l x <;> simp

-- ## Decomposition of the well-formedness predicates

theorem ne_nil_of_isEmpty_false {α : Type} (l : List α) (h : l.isEmpty = false) :
    l ≠ [] := by
  cases l with
  | nil => simp at h
  | cons a t => simp

theorem softTok_parts (l : List Nat) (h : softTok l = true) :
    l ≠ [] ∧ (∀ b ∈ l, 32 ≤ b ∧ b ≤ 126) ∧ l.headD 0 ≠ 32 ∧ l.getLastD 0 ≠ 32 := by
  simp only [softTok, Bool.and_eq_true, List.all_eq_true, decide_eq_true_eq, bne_iff_ne,
    ne_eq, Bool.not_eq_true'] at h
  obtain ⟨⟨⟨h1, h2⟩, h3⟩, h4⟩ := h
  exact ⟨ne_nil_of_isEmpty_false l h1, fun b hb => (h2 b hb), h3, h4⟩

theorem hardTok_parts (l : List Nat) (h : hardTok l = true) :
    l ≠ [] ∧ ∀ b ∈ l, 33 ≤ b ∧ b ≤ 126 := by
  simp only [hardTok, Bool.and_eq_true, List.all_eq_true, decide_eq_true_eq,
    Bool.not_eq_true'] at h
  exact ⟨ne_nil_of_isEmpty_false l h.1, fun b hb => h.2 b hb⟩

theorem mailTok_parts (l : List Nat) (h : mailTok l = true) :
    (l ≠ [] ∧ ∀ b ∈ l, 33 ≤ b ∧ b ≤ 126) ∧ ∀ b ∈ l, b ≠ 60 ∧ b ≠ 62 := by
  simp only [mailTok, Bool.and_eq_true] at h
  refine ⟨hardTok_parts l h.1, ?_⟩
  have := h.2
  simp only [List.all_eq_true, Bool.and_eq_true, bne_iff_ne, ne_eq] at this
  exact fun b hb => this b hb

theorem nameTok_parts (l : List Nat) (h : nameTok l = true) :
    softTok l = true ∧ ∀ b ∈ l, b ≠ 60 := by
  simp only [nameTok, Bool.and_eq_true] at h
  refine ⟨h.1, ?_⟩
  have := h.2
  simp only [List.all_eq_true, bne_iff_ne, ne_eq] at this
  exact this

theorem shaTok_parts (l : List Nat) (h : shaTok l = true) :
    l.length = 40 ∧ ∀ b ∈ l, (hexVal b).isSome = true := by
  simp only [shaTok, Bool.and_eq_true, List.all_eq_true, beq_iff_eq] at h
  exact h

theorem contentOk_parts (c : List Nat) (h : contentOk c = true) :
    (∀ b ∈ c, 32 ≤ b ∧ b ≤ 126) ∧ c.getLastD 0 ≠ 32 := by
  simp only [contentOk, Bool.and_eq_true, List.all_eq_true, decide_eq_true_eq,
    bne_iff_ne, ne_eq] at h
  exact ⟨fun b hb => h.1 b hb, h.2⟩

theorem metaOk_parts (m : Meta) (h : metaOk m = true) :
    nameTok m.author = true ∧ mailTok m.authorMail = true ∧ nameTok m.committer = true ∧
      mailTok m.committerMail = true ∧ softTok m.summary = true := by
  simp only [metaOk, Bool.and_eq_true] at h
  tauto

theorem blockOk_parts (b : Block) (h : blockOk b = true) :
    shaTok b.sha = true ∧ metaOk b.meta = true ∧ softTok b.filename = true ∧
      b.contents.length = b.size ∧ (∀ c ∈ b.contents, contentOk c = true) ∧ 0 < b.size := by
  simp only [blockOk, Bool.and_eq_true, List.all_eq_true, beq_iff_eq, decide_eq_true_eq] at h
  tauto

theorem shaTok_ne_nil (l : List Nat) (h : shaTok l = true) : l ≠ [] := by
  have := (shaTok_parts l h).1
  intro he
  rw [he] at this
  simp at this

theorem shaTok_not_ws (l : List Nat) (h : shaTok l = true) :
    ∀ x ∈ l, isWsByte x = false :=
  fun x hx => hexVal_not_ws x ((shaTok_parts l h).2 x hx)

theorem softTok_ascii (l : List Nat) (h : softTok l = true) : ∀ x ∈ l, x ≤ 127 :=
  fun x hx => by
    have := (softTok_parts l h).2.1 x hx
    omega

-- ## Tag-line facts

theorem tagLineB_ne_boundaryB (tag v : List Nat) : tagLineB tag v ≠ boundaryB := by
  intro he
  have h32 : 32 ∈ tagLineB tag v := by
    simp [tagLineB]
  rw [he] at h32
  revert h32
  decide

theorem pySplit1B_tagLine (tag v : List Nat) (h : ∀ x ∈ tag, x ≠ 32) :
    pySplit1B 32 (tagLineB tag v) = some (tag, v) :=
  pySplit1B_token tag v h

theorem lstripB_cons_ne (y x : Nat) (t : List Nat) (h : x ≠ y) :
    lstripB y (x :: t) = x :: t := by
  simp [lstripB, List.dropWhile_cons, h]

theorem rstripB_append_one (y : Nat) (l : List Nat) (x : Nat) (h : x ≠ y) :
    rstripB y (l ++ [x]) = l ++ [x] := by
  simp [rstripB, List.reverse_append, List.dropWhile_cons, h]

theorem dropWhile_all_false {α : Type} (p : α → Bool) (l : List α)
    (h : ∀ x ∈ l, p x = false) : l.dropWhile p = l := by
  cases l with
  | nil => rfl
  | cons a t => simp [List.dropWhile_cons, h a (by simp)]

theorem rstripB_strip_wrap62 (m : List Nat) (h : ∀ x ∈ m, x ≠ 62) :
    rstripB 62 (m ++ [62]) = m := by
  rw [rstripB, List.reverse_append]
  simp only [List.reverse_cons, List.reverse_nil, List.nil_append]
  rw [List.singleton_append, List.dropWhile_cons]
  simp only [beq_self_eq_true, if_true]
  rw [dropWhile_all_false _ _ (fun x hx => by simp [h x (List.mem_reverse.1 hx)])]
  exact List.reverse_reverse m

theorem strip_wrap (m : List Nat) (h : mailTok m = true) :
    rstripB 62 (lstripB 60 (60 :: (m ++ [62]))) = m := by
  obtain ⟨⟨hne, hrange⟩, hang⟩ := mailTok_parts m h
  have hl : lstripB 60 (60 :: (m ++ [62])) = m ++ [62] := by
    rw [lstripB, List.dropWhile_cons]
    simp only [beq_self_eq_true, if_true]
    rw [← lstripB]
    cases m with
    | nil => rfl
    | cons x t =>
      exact lstripB_cons_ne 60 x (t ++ [62]) (hang x (by simp)).1
  rw [hl]
  exact rstripB_strip_wrap62 m (fun y hy => (hang y hy).2)

-- ## Stepping blame_incremental through rendered lines

theorem pySplitWs_hdr4 (b : Block) (hb : blockOk b = true) :
    pySplitWs (hdr4 b) = [b.sha, natToDec b.orig, natToDec b.final, natToDec b.size] := by
  have hsha := (blockOk_parts b hb).1
  rw [hdr4,
    pySplitWs_token _ _ (shaTok_ne_nil _ hsha) (shaTok_not_ws _ hsha),
    pySplitWs_token _ _ (natToDec_ne_nil _) (natToDec_not_ws _),
    pySplitWs_token _ _ (natToDec_ne_nil _) (natToDec_not_ws _),
    pySplitWs_last _ (natToDec_ne_nil _) (natToDec_not_ws _)]

theorem incStep_hdr4 (a : IncAcc) (b : Block) (ha : a.err = none) (hm : a.mode = .head)
    (hb : blockOk b = true) :
    incStep a (hdr4 b) =
      if (lookupKey a.commits b.sha).isSome then
        { a with mode := .fnOnly b.sha (b.orig : Int) (b.final : Int) (b.size : Int) }
      else { a with mode := .meta b.sha (b.orig : Int) (b.final : Int) (b.size : Int) [] } := by
  rw [incStep]
  simp only [ha, Option.isSome_none, Bool.false_eq_true, if_false, hm]
  rw [pySplitWs_hdr4 b hb]
  simp only [pyIntBytes_natToDec]

theorem incStep_fnOnly (a : IncAcc) (sha : List Nat) (o f n : Int) (fn : List Nat)
    (c : Commit) (ha : a.err = none) (hm : a.mode = .fnOnly sha o f n)
    (hc : lookupKey a.commits sha = some c) (hfn : ∀ x ∈ fn, x ≤ 127) :
    incStep a (tagLineB filenameB fn) =
      { a with mode := .head
             , entries := a.entries ++ [⟨c, rangeOf f n, asStr fn, rangeOf o n⟩]
             , keys := a.keys ++ [sha] } := by
  rw [incStep]
  simp only [ha, Option.isSome_none, Bool.false_eq_true, if_false, hm]
  rw [pySplit1B_tagLine filenameB fn (by decide)]
  simp only [if_pos rfl, hc, safeDecode_ascii fn hfn]
  simp

theorem incStep_metaTag (a : IncAcc) (sha : List Nat) (o f n : Int)
    (props : List (List Nat × List Nat)) (tag v : List Nat) (ha : a.err = none)
    (hm : a.mode = .meta sha o f n props) (htag : ∀ x ∈ tag, x ≠ 32)
    (hneq : tag ≠ filenameB) :
    incStep a (tagLineB tag v) =
      { a with mode := .meta sha o f n (dictInsert props tag v) } := by
  rw [incStep]
  simp only [ha, Option.isSome_none, Bool.false_eq_true, if_false, hm]
  rw [if_neg (tagLineB_ne_boundaryB tag v), pySplit1B_tagLine tag v htag]
  simp only [if_neg hneq]

theorem incStep_metaFn (a : IncAcc) (sha : List Nat) (o f n : Int)
    (props : List (List Nat × List Nat)) (fn : List Nat) (c : Commit) (ha : a.err = none)
    (hm : a.mode = .meta sha o f n props)
    (hmk : mkIncCommit sha (dictInsert props filenameB fn) = .ok c)
    (hfn : ∀ x ∈ fn, x ≤ 127) :
    incStep a (tagLineB filenameB fn) =
      { a with mode := .head
             , commits := dictInsert a.commits sha c
             , entries := a.entries ++ [⟨c, rangeOf f n, asStr fn, rangeOf o n⟩]
             , keys := a.keys ++ [sha]
             , log := a.log ++ [sha] } := by
  rw [incStep]
  simp only [ha, Option.isSome_none, Bool.false_eq_true, if_false, hm]
  rw [if_neg (tagLineB_ne_boundaryB filenameB fn), pySplit1B_tagLine filenameB fn (by decide)]
  simp only [if_pos rfl, hmk, safeDecode_ascii fn hfn]
  simp

theorem mkIncCommit_propsOf (b : Block) (hb : blockOk b = true) :
    mkIncCommit b.sha (propsOf b) = .ok (incCommitOf b) := by
  obtain ⟨hsha, hmeta, hfn, _, _, _⟩ := blockOk_parts b hb
  obtain ⟨hau, ham, hco, hcm, hsu⟩ := metaOk_parts b.meta hmeta
  obtain ⟨hsl, hsall⟩ := shaTok_parts b.sha hsha
  have hbin : (hexToBin b.sha).isSome = true :=
    hexToBin_total b.sha hsall (by omega)
  rcases Option.isSome_iff_exists.1 hbin with ⟨bin, hbin2⟩
  have lk1 : lookupKey (propsOf b) authorB = some b.meta.author := rfl
  have lk2 : lookupKey (propsOf b) authorMailB = some (60 :: (b.meta.authorMail ++ [62])) := rfl
  have lk3 : lookupKey (propsOf b) authorTimeB = some (natToDec b.meta.authorTime) := rfl
  have lk4 : lookupKey (propsOf b) committerB = some b.meta.committer := rfl
  have lk5 : lookupKey (propsOf b) committerMailB = some (60 :: (b.meta.committerMail ++ [62])) := rfl
  have lk6 : lookupKey (propsOf b) committerTimeB = some (natToDec b.meta.committerTime) := rfl
  have hauasc : ∀ x ∈ b.meta.author, x ≤ 127 :=
    softTok_ascii _ (nameTok_parts _ hau).1
  have hamasc : ∀ x ∈ b.meta.authorMail, x ≤ 127 := fun x hx => by
    have := (mailTok_parts _ ham).1.2 x hx
    omega
  have hcoasc : ∀ x ∈ b.meta.committer, x ≤ 127 :=
    softTok_ascii _ (nameTok_parts _ hco).1
  have hcmasc : ∀ x ∈ b.meta.committerMail, x ≤ 127 := fun x hx => by
    have := (mailTok_parts _ hcm).1.2 x hx
    omega
  rw [mkIncCommit]
  simp only [lk1, lk2, lk3, lk4, lk5, lk6, hbin2, pyIntBytes_natToDec,
    strip_wrap _ ham, strip_wrap _ hcm, safeDecode_ascii _ hauasc, safeDecode_ascii _ hamasc,
    safeDecode_ascii _ hcoasc, safeDecode_ascii _ hcmasc]
  rw [incCommitOf, hbin2]
  rfl

theorem incStep_hdr4_mk (co : List (List Nat × Commit)) (en : List BlameEntry)
    (ke lo : List (List Nat)) (b : Block) (hb : blockOk b = true) :
    incStep (IncAcc.mk .head co en ke lo none) (hdr4 b) =
      if (lookupKey co b.sha).isSome then
        IncAcc.mk (.fnOnly b.sha (b.orig : Int) (b.final : Int) (b.size : Int)) co en ke lo none
      else
        IncAcc.mk (.meta b.sha (b.orig : Int) (b.final : Int) (b.size : Int) []) co en ke lo
          none := by
  rw [incStep_hdr4 _ b rfl rfl hb]

theorem incStep_fnOnly_mk (co : List (List Nat × Commit)) (en : List BlameEntry)
    (ke lo : List (List Nat)) (sha : List Nat) (o f n : Int) (fn : List Nat) (c : Commit)
    (hc : lookupKey co sha = some c) (hfn : ∀ x ∈ fn, x ≤ 127) :
    incStep (IncAcc.mk (.fnOnly sha o f n) co en ke lo none) (tagLineB filenameB fn) =
      IncAcc.mk .head co (en ++ [⟨c, rangeOf f n, asStr fn, rangeOf o n⟩]) (ke ++ [sha]) lo
        none := by
  rw [incStep_fnOnly _ sha o f n fn c rfl rfl hc hfn]

theorem incStep_metaTag_mk (co : List (List Nat × Commit)) (en : List BlameEntry)
    (ke lo : List (List Nat)) (sha : List Nat) (o f n : Int)
    (props : List (List Nat × List Nat)) (tag v : List Nat) (htag : ∀ x ∈ tag, x ≠ 32)
    (hneq : tag ≠ filenameB) :
    incStep (IncAcc.mk (.meta sha o f n props) co en ke lo none) (tagLineB tag v) =
      IncAcc.mk (.meta sha o f n (dictInsert props tag v)) co en ke lo none := by
  rw [incStep_metaTag _ sha o f n props tag v rfl rfl htag hneq]

theorem incStep_metaFn_mk (co : List (List Nat × Commit)) (en : List BlameEntry)
    (ke lo : List (List Nat)) (sha : List Nat) (o f n : Int)
    (props : List (List Nat × List Nat)) (fn : List Nat) (c : Commit)
    (hmk : mkIncCommit sha (dictInsert props filenameB fn) = .ok c)
    (hfn : ∀ x ∈ fn, x ≤ 127) :
    incStep (IncAcc.mk (.meta sha o f n props) co en ke lo none) (tagLineB filenameB fn) =
      IncAcc.mk .head (dictInsert co sha c)
        (en ++ [⟨c, rangeOf f n, asStr fn, rangeOf o n⟩]) (ke ++ [sha]) (lo ++ [sha])
        none := by
  rw [incStep_metaFn _ sha o f n props fn c rfl rfl hmk hfn]

set_option maxHeartbeats 2000000 in
theorem foldl_metaLines (co : List (List Nat × Commit)) (en : List BlameEntry)
    (ke lo : List (List Nat)) (b : Block) (hb : blockOk b = true) :
    (metaLines b).foldl incStep
        (IncAcc.mk (.meta b.sha (b.orig : Int) (b.final : Int) (b.size : Int) []) co en ke lo
          none) =
      IncAcc.mk .head (dictInsert co b.sha (incCommitOf b))
        (en ++ [entryOf (incCommitOf b) b]) (ke ++ [b.sha]) (lo ++ [b.sha]) none := by
  have hfnasc : ∀ x ∈ b.filename, x ≤ 127 :=
    softTok_ascii _ (blockOk_parts b hb).2.2.1
  rw [metaLines, fnLineOf]
  simp only [List.foldl_cons, List.foldl_nil]
  rw [incStep_metaTag_mk _ _ _ _ _ _ _ _ _ authorB b.meta.author (by decide) (by decide)]
  rw [incStep_metaTag_mk _ _ _ _ _ _ _ _ _ authorMailB _ (by decide) (by decide)]
  rw [incStep_metaTag_mk _ _ _ _ _ _ _ _ _ authorTimeB _ (by decide) (by decide)]
  rw [incStep_metaTag_mk _ _ _ _ _ _ _ _ _ authorTzB _ (by decide) (by decide)]
  rw [incStep_metaTag_mk _ _ _ _ _ _ _ _ _ committerB _ (by decide) (by decide)]
  rw [incStep_metaTag_mk _ _ _ _ _ _ _ _ _ committerMailB _ (by decide) (by decide)]
  rw [incStep_metaTag_mk _ _ _ _ _ _ _ _ _ committerTimeB _ (by decide) (by decide)]
  rw [incStep_metaTag_mk _ _ _ _ _ _ _ _ _ committerTzB _ (by decide) (by decide)]
  rw [incStep_metaTag_mk _ _ _ _ _ _ _ _ _ summaryB _ (by decide) (by decide)]
  rw [incStep_metaFn_mk _ _ _ _ _ _ _ _ _ b.filename (incCommitOf b) ?hmk hfnasc]
  case hmk =>
    have hch :
        dictInsert (dictInsert (dictInsert (dictInsert (dictInsert (dictInsert (dictInsert
          (dictInsert (dictInsert (dictInsert ([] : List (List Nat × List Nat))
            authorB b.meta.author)
            authorMailB (60 :: (b.meta.authorMail ++ [62])))
            authorTimeB (natToDec b.meta.authorTime))
            authorTzB [45, 48, 55, 48, 48])
            committerB b.meta.committer)
            committerMailB (60 :: (b.meta.committerMail ++ [62])))
            committerTimeB (natToDec b.meta.committerTime))
            committerTzB [45, 48, 55, 48, 48])
            summaryB b.meta.summary)
            filenameB b.filename = propsOf b := rfl
    rw [hch]
    exact mkIncCommit_propsOf b hb
  rfl

-- ## Rendered incremental streams parse to incSim

theorem tagLineB_ok (tag v : List Nat) (ht : ∀ x ∈ tag, x ≠ 10) (hv : ∀ x ∈ v, x ≠ 10) :
    tagLineB tag v ≠ [] ∧ ∀ x ∈ tagLineB tag v, x ≠ 10 := by
  constructor
  · simp [tagLineB]
  · intro x hx
    rw [tagLineB] at hx
    rcases List.mem_append.1 hx with h1 | h2
    · exact ht x h1
    · rcases List.mem_cons.1 h2 with h3 | h4
      · omega
      · exact hv x h4

theorem softTok_no10 (l : List Nat) (h : softTok l = true) : ∀ x ∈ l, x ≠ 10 := by
  intro x hx
  have := (softTok_parts l h).2.1 x hx
  omega

theorem mailWrap_no10 (m : List Nat) (h : mailTok m = true) :
    ∀ x ∈ 60 :: (m ++ [62]), x ≠ 10 := by
  intro x hx
  rcases List.mem_cons.1 hx with h1 | h2
  · omega
  · rcases List.mem_append.1 h2 with h3 | h4
    · have := (mailTok_parts m h).1.2 x h3
      omega
    · simp at h4
      omega

theorem natToDec_no10 (n : Nat) : ∀ x ∈ natToDec n, x ≠ 10 := by
  intro x hx
  have := natToDec_digits n x hx
  omega

theorem sha_no10 (l : List Nat) (h : shaTok l = true) : ∀ x ∈ l, x ≠ 10 := by
  intro x hx
  have := hexVal_bound x ((shaTok_parts l h).2 x hx)
  omega

theorem hdr4_ok (b : Block) (hb : blockOk b = true) :
    hdr4 b ≠ [] ∧ ∀ x ∈ hdr4 b, x ≠ 10 := by
  have hsha := (blockOk_parts b hb).1
  constructor
  · rw [hdr4]
    intro he
    exact shaTok_ne_nil b.sha hsha (List.append_eq_nil.1 he).1
  · intro x hx
    rw [hdr4] at hx
    rcases List.mem_append.1 hx with h1 | h2
    · exact sha_no10 b.sha hsha x h1
    · rcases List.mem_cons.1 h2 with h3 | h4
      · omega
      · rcases List.mem_append.1 h4 with h5 | h6
        · exact natToDec_no10 _ x h5
        · rcases List.mem_cons.1 h6 with h7 | h8
          · omega
          · rcases List.mem_append.1 h8 with h9 | h10
            · exact natToDec_no10 _ x h9
            · rcases List.mem_cons.1 h10 with h11 | h12
              · omega
              · exact natToDec_no10 _ x h12

theorem metaLines_ok (b : Block) (hb : blockOk b = true) :
    ∀ l ∈ metaLines b, l ≠ [] ∧ ∀ x ∈ l, x ≠ 10 := by
  obtain ⟨hsha, hmeta, hfn, _, _, _⟩ := blockOk_parts b hb
  obtain ⟨hau, ham, hco, hcm, hsu⟩ := metaOk_parts b.meta hmeta
  intro l hl
  rw [metaLines, fnLineOf] at hl
  simp only [List.mem_cons, List.not_mem_nil, or_false] at hl
  rcases hl with h | h | h | h | h | h | h | h | h | h <;> subst h
  · exact tagLineB_ok _ _ (by decide) (softTok_no10 _ (nameTok_parts _ hau).1)
  · exact tagLineB_ok _ _ (by decide) (mailWrap_no10 _ ham)
  · exact tagLineB_ok _ _ (by decide) (natToDec_no10 _)
  · exact tagLineB_ok _ _ (by decide) (by decide)
  · exact tagLineB_ok _ _ (by decide) (softTok_no10 _ (nameTok_parts _ hco).1)
  · exact tagLineB_ok _ _ (by decide) (mailWrap_no10 _ hcm)
  · exact tagLineB_ok _ _ (by decide) (natToDec_no10 _)
  · exact tagLineB_ok _ _ (by decide) (by decide)
  · exact tagLineB_ok _ _ (by decide) (softTok_no10 _ hsu)
  · exact tagLineB_ok _ _ (by decide) (softTok_no10 _ hfn)

theorem renderIncAux_ok (bs : List Block) :
    ∀ (seen : List (List Nat)), (∀ b ∈ bs, blockOk b = true) →
      ∀ l ∈ renderIncAux seen bs, l ≠ [] ∧ ∀ x ∈ l, x ≠ 10 := by
  induction bs with
  | nil =>
    intro seen _ l hl
    simp [renderIncAux] at hl
  | cons b bs ih =>
    intro seen hok l hl
    have hb := hok b (by simp)
    rw [renderIncAux, incBlockLines] at hl
    rcases List.mem_append.1 hl with h1 | h2
    · rcases List.mem_cons.1 h1 with h3 | h4
      · subst h3
        exact hdr4_ok b hb
      · by_cases hs : (decide (b.sha ∈ seen)) = true
        · rw [if_pos hs] at h4
          simp only [List.mem_singleton] at h4
          subst h4
          rw [fnLineOf]
          exact tagLineB_ok _ _ (by decide)
            (softTok_no10 _ (blockOk_parts b hb).2.2.1)
        · rw [if_neg hs] at h4
          exact metaLines_ok b hb l h4
    · exact ih (b.sha :: seen) (fun x hx => hok x (by simp [hx])) l h2

theorem foldl_renderIncAux (bs : List Block) :
    ∀ (co : List (List Nat × Commit)) (en : List BlameEntry) (ke lo : List (List Nat))
      (seen : List (List Nat)),
      (∀ b ∈ bs, blockOk b = true) →
      (∀ sha, sha ∈ seen ↔ (lookupKey co sha).isSome = true) →
      (renderIncAux seen bs).foldl incStep (IncAcc.mk .head co en ke lo none) =
        incSim (IncAcc.mk .head co en ke lo none) bs := by
  induction bs with
  | nil =>
    intro co en ke lo seen _ _
    rfl
  | cons b bs ih =>
    intro co en ke lo seen hok hinv
    have hb := hok b (by simp)
    have hfnasc : ∀ x ∈ b.filename, x ≤ 127 :=
      softTok_ascii _ (blockOk_parts b hb).2.2.1
    rw [renderIncAux, List.foldl_append, incBlockLines]
    by_cases hseen : b.sha ∈ seen
    · have hlk : (lookupKey co b.sha).isSome = true := (hinv b.sha).1 hseen
      rcases Option.isSome_iff_exists.1 hlk with ⟨c, hc⟩
      rw [if_pos (by simp [hseen])]
      simp only [List.foldl_cons, List.foldl_nil]
      rw [incStep_hdr4_mk co en ke lo b hb, if_pos hlk, fnLineOf,
        incStep_fnOnly_mk co en ke lo b.sha _ _ _ b.filename c hc hfnasc]
      rw [incSim]
      simp only [hc, entryOf]
      exact ih _ _ _ _ (b.sha :: seen) (fun x hx => hok x (by simp [hx])) (by
        intro sha
        constructor
        · intro hm
          rcases List.mem_cons.1 hm with h1 | h2
          · subst h1
            exact hlk
          · exact (hinv sha).1 h2
        · intro hs
          exact List.mem_cons.2 (Or.inr ((hinv sha).2 hs)))
    · have hlkn : lookupKey co b.sha = none := by
        cases h2 : lookupKey co b.sha with
        | none => rfl
        | some c => exact absurd ((hinv b.sha).2 (by simp [h2])) hseen
      rw [if_neg (by simp [hseen])]
      simp only [List.foldl_cons]
      rw [incStep_hdr4_mk co en ke lo b hb, if_neg (by simp [hlkn]),
        foldl_metaLines co en ke lo b hb]
      rw [incSim]
      simp only [hlkn]
      exact ih _ _ _ _ (b.sha :: seen) (fun x hx => hok x (by simp [hx])) (by
        intro sha
        constructor
        · intro hm
          rcases List.mem_cons.1 hm with h1 | h2
          · subst h1
            simp [lookupKey_dictInsert_self co b.sha (incCommitOf b) hlkn]
          · by_cases he : sha = b.sha
            · subst he
              simp [lookupKey_dictInsert_self co b.sha (incCommitOf b) hlkn]
            · rw [lookupKey_dictInsert_other co b.sha sha (incCommitOf b) he]
              exact (hinv sha).1 h2
        · intro hs
          by_cases he : sha = b.sha
          · subst he
            simp
          · rw [lookupKey_dictInsert_other co b.sha sha (incCommitOf b) he] at hs
            exact List.mem_cons.2 (Or.inr ((hinv sha).2 hs)))

theorem blame_incremental_render (bs : List Block) (hok : ∀ b ∈ bs, blockOk b = true) :
    blame_incremental (renderInc bs) = incSim incInit bs := by
  rw [blame_incremental, renderInc,
    incStream_joinNl _ (renderIncAux_ok bs [] hok)]
  exact foldl_renderIncAux bs [] [] [] [] [] hok (by
    intro sha
    simp [lookupKey])

-- ## Character-level splitting lemmas (full mode)

theorem getLast_eq_getLastD {α : Type} (l : List α) (hne : l ≠ []) (d : α) :
    l.getLast hne = l.getLastD d := by
  induction l with
  | nil => exact absurd rfl hne
  | cons x t ih =>
    cases t with
    | nil => rfl
    | cons y t2 =>
      rw [List.getLast_cons (by simp), List.getLastD_cons]
      exact ih (by simp) 

theorem getLastD_mem {α : Type} (l : List α) (hne : l ≠ []) (d : α) :
    l.getLastD d ∈ l := by
  rw [← getLast_eq_getLastD l hne d]
  exact List.getLast_mem hne

theorem pyRstripB_append_last (l tok : List Nat) (hne : tok ≠ [])
    (hlast : isWsByte (tok.getLast hne) = false) : pyRstripB (l ++ tok) = l ++ tok := by
  have h2 := pyRstripB_last_single (l ++ tok.dropLast) (tok.getLast hne) hlast
  rw [List.append_assoc, List.dropLast_append_getLast hne] at h2
  exact h2

theorem reSplitWs1_pair (tok rest : List Char) (h : ∀ c ∈ tok, isWsChar c = false) :
    reSplitWs1 (tok ++ ' ' :: rest) = [tok, rest.dropWhile isWsChar] := by
  have htk : (tok ++ ' ' :: rest).takeWhile notWsC = tok := by
    rw [takeWhile_append_all notWsC tok _ (fun c hc => by simp [notWsC, h c hc])]
    simp [List.takeWhile_cons, notWsC, isWsChar, isWsByte]
  rw [reSplitWs1]
  simp only [htk]
  rw [List.drop_left, if_neg (by simp), List.dropWhile_cons, if_pos (by decide)]

theorem reSplitWs1_single (tok : List Char) (h : ∀ c ∈ tok, isWsChar c = false) :
    reSplitWs1 tok = [tok] := by
  have htk : tok.takeWhile notWsC = tok :=
    takeWhile_all notWsC tok (fun c hc => by simp [notWsC, h c hc])
  rw [reSplitWs1]
  simp [htk]

theorem reSplitWs1_wsHead (c : Char) (s : List Char) (h : isWsChar c = true) :
    reSplitWs1 (c :: s) = [[], (c :: s).dropWhile isWsChar] := by
  have htk : (c :: s).takeWhile notWsC = [] := by
    rw [List.takeWhile_cons]
    simp [notWsC, h]
  rw [reSplitWs1]
  simp only [htk, List.length_nil, List.drop_zero]
  simp

theorem splitSpace_token (tok rest : List Char) (h : ∀ c ∈ tok, c ≠ ' ') :
    splitSpace (tok ++ ' ' :: rest) = tok :: splitSpace rest := by
  induction tok with
  | nil => simp [splitSpace]
  | cons c t ih =>
    have hc : c ≠ ' ' := h c (by simp)
    rw [List.cons_append, splitSpace]
    simp only [beq_iff_eq, hc, if_false]
    rw [ih (fun y hy => h y (by simp [hy]))]

theorem splitSpace_single (tok : List Char) (h : ∀ c ∈ tok, c ≠ ' ') :
    splitSpace tok = [tok] := by
  induction tok with
  | nil => rfl
  | cons c t ih =>
    have hc : c ≠ ' ' := h c (by simp)
    rw [splitSpace]
    simp only [beq_iff_eq, hc, if_false]
    rw [ih (fun y hy => h y (by simp [hy]))]

theorem asStr_not_ws (l : List Nat) (hasc : ∀ x ∈ l, x ≤ 127)
    (h : ∀ x ∈ l, isWsByte x = false) : ∀ c ∈ asStr l, isWsChar c = false := by
  intro c hc
  rcases List.mem_map.1 hc with ⟨x, hx, hcx⟩
  subst hcx
  rw [isWsChar_ofNat x (hasc x hx)]
  exact h x hx

theorem asStr_no_space (l : List Nat) (hasc : ∀ x ∈ l, x ≤ 127)
    (h : ∀ x ∈ l, x ≠ 32) : ∀ c ∈ asStr l, c ≠ ' ' := by
  intro c hc
  rcases List.mem_map.1 hc with ⟨x, hx, hcx⟩
  subst hcx
  intro he
  have hx32 : (Char.ofNat x).toNat = 32 := by rw [he]; rfl
  rw [toNat_ofNat_ascii x (hasc x hx)] at hx32
  exact h x hx hx32

theorem asStr_ne_nil (l : List Nat) (h : l ≠ []) : asStr l ≠ [] := by
  cases l with
  | nil => exact absurd rfl h
  | cons x t => simp [asStr]

theorem isHex40_asStr (l : List Nat) (h : shaTok l = true) : isHex40 (asStr l) = true := by
  obtain ⟨hlen, hall⟩ := shaTok_parts l h
  simp only [isHex40, asStr, List.length_map, hlen, beq_self_eq_true, Bool.true_and,
    List.all_eq_true]
  intro c hc
  rcases List.mem_map.1 hc with ⟨x, hx, hcx⟩
  subst hcx
  have hb := hexVal_bound x (hall x hx)
  rw [isHexDigitC, toNat_ofNat_ascii x (by omega)]
  exact hall x hx

theorem hexToBinC_asStr (l : List Nat) (hasc : ∀ x ∈ l, x ≤ 127) :
    hexToBinC (asStr l) = hexToBin l := by
  rw [hexToBinC, map_toNat_asStr l hasc]

theorem asStr_append (a b : List Nat) : asStr (a ++ b) = asStr a ++ asStr b :=
  List.map_append _ a b

theorem asStr_cons32 (b : List Nat) : asStr (32 :: b) = ' ' :: asStr b := rfl

-- ## Full-mode line processing

theorem fullStep_of_decode (s : FullState) (raw : List Nat) (cs : List Char)
    (hd : utf8Decode (pyRstripB raw) = some cs) : fullStep s raw = fullStepText s cs := by
  rw [fullStep, hd]

theorem natToDec_ascii (n : Nat) : ∀ x ∈ natToDec n, x ≤ 127 := by
  intro x hx
  have := natToDec_digits n x hx
  omega

theorem sha_ascii (l : List Nat) (h : shaTok l = true) : ∀ x ∈ l, x ≤ 127 := by
  intro x hx
  have := hexVal_bound x ((shaTok_parts l h).2 x hx)
  omega

theorem hdr4_ascii (b : Block) (hb : blockOk b = true) : ∀ x ∈ hdr4 b, x ≤ 127 := by
  have hsha := (blockOk_parts b hb).1
  intro x hx
  rw [hdr4] at hx
  rcases List.mem_append.1 hx with h1 | h2
  · exact sha_ascii b.sha hsha x h1
  · rcases List.mem_cons.1 h2 with h3 | h4
    · omega
    · rcases List.mem_append.1 h4 with h5 | h6
      · exact natToDec_ascii _ x h5
      · rcases List.mem_cons.1 h6 with h7 | h8
        · omega
        · rcases List.mem_append.1 h8 with h9 | h10
          · exact natToDec_ascii _ x h9
          · rcases List.mem_cons.1 h10 with h11 | h12
            · omega
            · exact natToDec_ascii _ x h12

theorem hdr3_ascii (b : Block) (k : Nat) (hb : blockOk b = true) :
    ∀ x ∈ hdr3 b k, x ≤ 127 := by
  have hsha := (blockOk_parts b hb).1
  intro x hx
  rw [hdr3] at hx
  rcases List.mem_append.1 hx with h1 | h2
  · exact sha_ascii b.sha hsha x h1
  · rcases List.mem_cons.1 h2 with h3 | h4
    · omega
    · rcases List.mem_append.1 h4 with h5 | h6
      · exact natToDec_ascii _ x h5
      · rcases List.mem_cons.1 h6 with h7 | h8
        · omega
        · exact natToDec_ascii _ x h8

theorem decode_hdr4_nl (b : Block) (hb : blockOk b = true) :
    utf8Decode (pyRstripB (hdr4 b ++ [10])) =
      some (asStr b.sha ++ ' ' :: (asStr (natToDec b.orig) ++ ' ' ::
        (asStr (natToDec b.final) ++ ' ' :: asStr (natToDec b.size)))) := by
  rw [pyRstripB_append_one _ 10 (by decide)]
  have hsh : hdr4 b =
      (b.sha ++ 32 :: (natToDec b.orig ++ 32 :: (natToDec b.final ++ [32]))) ++
        natToDec b.size := by
    rw [hdr4]
    simp
  rw [hsh,
    pyRstripB_append_last _ _ (natToDec_ne_nil _)
      (by
        rw [getLast_eq_getLastD _ (natToDec_ne_nil _) 0]
        exact notWs_of_hard _ (by
          have := natToDec_digits b.size _ (getLastD_mem _ (natToDec_ne_nil _) 0)
          omega)
          (by
            have := natToDec_digits b.size _ (getLastD_mem _ (natToDec_ne_nil _) 0)
            omega)),
    ← hsh, utf8Decode_ascii _ (hdr4_ascii b hb), hdr4]
  simp [asStr, List.map_append]

theorem decode_hdr3_nl (b : Block) (k : Nat) (hb : blockOk b = true) :
    utf8Decode (pyRstripB (hdr3 b k ++ [10])) =
      some (asStr b.sha ++ ' ' :: (asStr (natToDec (b.orig + k)) ++ ' ' ::
        asStr (natToDec (b.final + k)))) := by
  rw [pyRstripB_append_one _ 10 (by decide)]
  have hsh : hdr3 b k =
      (b.sha ++ 32 :: (natToDec (b.orig + k) ++ [32])) ++ natToDec (b.final + k) := by
    rw [hdr3]
    simp
  rw [hsh,
    pyRstripB_append_last _ _ (natToDec_ne_nil _)
      (by
        rw [getLast_eq_getLastD _ (natToDec_ne_nil _) 0]
        exact notWs_of_hard _ (by
          have := natToDec_digits (b.final + k) _ (getLastD_mem _ (natToDec_ne_nil _) 0)
          omega)
          (by
            have := natToDec_digits (b.final + k) _ (getLastD_mem _ (natToDec_ne_nil _) 0)
            omega)),
    ← hsh, utf8Decode_ascii _ (hdr3_ascii b k hb), hdr3]
  simp [asStr, List.map_append]

theorem decode_tagLine_nl (tag v : List Nat) (htasc : ∀ x ∈ tag, x ≤ 127)
    (hvasc : ∀ x ∈ v, x ≤ 127) (hvne : v ≠ [])
    (hvlast : isWsByte (v.getLastD 0) = false) :
    utf8Decode (pyRstripB (tagLineB tag v ++ [10])) =
      some (asStr tag ++ ' ' :: asStr v) := by
  rw [pyRstripB_append_one _ 10 (by decide)]
  have hsh : tagLineB tag v = (tag ++ [32]) ++ v := by
    rw [tagLineB]
    simp
  rw [hsh,
    pyRstripB_append_last _ _ hvne (by rw [getLast_eq_getLastD _ hvne 0]; exact hvlast),
    utf8Decode_ascii _ (by
      intro x hx
      rcases List.mem_append.1 hx with h1 | h2
      · rcases List.mem_append.1 h1 with h3 | h4
        · exact htasc x h3
        · simp at h4
          omega
      · exact hvasc x h2)]
  simp [asStr, List.map_append]

theorem dropWhile_asStr_head (v : List Nat) (hvne : v ≠ []) (hvasc : ∀ x ∈ v, x ≤ 127)
    (hvhead : isWsByte (v.headD 0) = false) :
    (asStr v).dropWhile isWsChar = asStr v := by
  cases v with
  | nil => exact absurd rfl hvne
  | cons x t =>
    rw [show asStr (x :: t) = Char.ofNat x :: asStr t from rfl, List.dropWhile_cons]
    have hx : isWsChar (Char.ofNat x) = false := by
      rw [isWsChar_ofNat x (hvasc x (by simp))]
      simpa using hvhead
    simp [hx]

theorem parts_tagLine (tag v : List Nat) (htasc : ∀ x ∈ tag, x ≤ 127)
    (htws : ∀ x ∈ tag, isWsByte x = false) (hvasc : ∀ x ∈ v, x ≤ 127) (hvne : v ≠ [])
    (hvhead : isWsByte (v.headD 0) = false) :
    reSplitWs1 (asStr tag ++ ' ' :: asStr v) = [asStr tag, asStr v] := by
  rw [reSplitWs1_pair _ _ (asStr_not_ws tag htasc htws),
    dropWhile_asStr_head v hvne hvasc hvhead]

theorem dropWhile_digits_head (k : Nat) (r : List Char) :
    (asStr (natToDec k) ++ r).dropWhile isWsChar = asStr (natToDec k) ++ r := by
  obtain ⟨d, dt, hnd⟩ : ∃ d dt, natToDec k = d :: dt := by
    cases h : natToDec k with
    | nil => exact absurd h (natToDec_ne_nil _)
    | cons d dt => exact ⟨d, dt, rfl⟩
  have hdig := natToDec_digits k d (by rw [hnd]; simp)
  rw [hnd, show asStr (d :: dt) = Char.ofNat d :: asStr dt from rfl, List.cons_append,
    List.dropWhile_cons]
  have hd : isWsChar (Char.ofNat d) = false := by
    rw [isWsChar_ofNat d (by omega)]
    exact notWs_of_hard d (by omega) (by omega)
  simp [hd]

theorem digits_no_space (k : Nat) : ∀ c ∈ asStr (natToDec k), c ≠ ' ' :=
  asStr_no_space _ (natToDec_ascii k)
    (fun x hx => by have := natToDec_digits k x hx; omega)

theorem digits_not_ws (k : Nat) : ∀ c ∈ asStr (natToDec k), isWsChar c = false :=
  asStr_not_ws _ (natToDec_ascii k) (natToDec_not_ws k)

theorem fullStepText_hdr4 (co : List (List Char × Commit)) (bl : List FullGroup)
    (info : Option FullInfo) (lo : List (List Char)) (b : Block) (hb : blockOk b = true) :
    fullStepText (FullState.mk co bl info lo)
        (asStr b.sha ++ ' ' :: (asStr (natToDec b.orig) ++ ' ' ::
          (asStr (natToDec b.final) ++ ' ' :: asStr (natToDec b.size)))) =
      .ok (FullState.mk co (bl ++ [⟨none, [], none⟩]) (some { id := asStr b.sha }) lo) := by
  have hsha := (blockOk_parts b hb).1
  have hparts : reSplitWs1 (asStr b.sha ++ ' ' :: (asStr (natToDec b.orig) ++ ' ' ::
      (asStr (natToDec b.final) ++ ' ' :: asStr (natToDec b.size)))) =
      [asStr b.sha, asStr (natToDec b.orig) ++ ' ' ::
        (asStr (natToDec b.final) ++ ' ' :: asStr (natToDec b.size))] := by
    rw [reSplitWs1_pair _ _ (asStr_not_ws _ (sha_ascii _ hsha) (shaTok_not_ws _ hsha)),
      dropWhile_digits_head]
  have hdig : splitSpace (asStr (natToDec b.orig) ++ ' ' ::
      (asStr (natToDec b.final) ++ ' ' :: asStr (natToDec b.size))) =
      [asStr (natToDec b.orig), asStr (natToDec b.final), asStr (natToDec b.size)] := by
    rw [splitSpace_token _ _ (digits_no_space _), splitSpace_token _ _ (digits_no_space _),
      splitSpace_single _ (digits_no_space _)]
  rw [fullStepText]
  simp only [hparts,
    show ∀ (x y : List Char), ([x, y] : List (List Char)).headD [] = x from fun _ _ => rfl,
    show ∀ (x y : List Char), ([x, y] : List (List Char)).getLastD [] = y from fun _ _ => rfl,
    hdig, isHex40_asStr _ hsha, if_true, List.length_cons, List.length_nil]

theorem fullStepText_hdr3 (co : List (List Char × Commit)) (bl : List FullGroup)
    (lo : List (List Char)) (i : FullInfo) (b : Block) (k : Nat) (hb : blockOk b = true)
    (hid : i.id = asStr b.sha) :
    fullStepText (FullState.mk co bl (some i) lo)
        (asStr b.sha ++ ' ' :: (asStr (natToDec (b.orig + k)) ++ ' ' ::
          asStr (natToDec (b.final + k)))) =
      .ok (FullState.mk co bl (some i) lo) := by
  have hsha := (blockOk_parts b hb).1
  have hparts : reSplitWs1 (asStr b.sha ++ ' ' :: (asStr (natToDec (b.orig + k)) ++ ' ' ::
      asStr (natToDec (b.final + k)))) =
      [asStr b.sha, asStr (natToDec (b.orig + k)) ++ ' ' :: asStr (natToDec (b.final + k))] := by
    rw [reSplitWs1_pair _ _ (asStr_not_ws _ (sha_ascii _ hsha) (shaTok_not_ws _ hsha)),
      dropWhile_digits_head]
  have hdig : splitSpace (asStr (natToDec (b.orig + k)) ++ ' ' ::
      asStr (natToDec (b.final + k))) =
      [asStr (natToDec (b.orig + k)), asStr (natToDec (b.final + k))] := by
    rw [splitSpace_token _ _ (digits_no_space _), splitSpace_single _ (digits_no_space _)]
  rw [fullStepText]
  simp only [hparts,
    show ∀ (x y : List Char), ([x, y] : List (List Char)).headD [] = x from fun _ _ => rfl,
    show ∀ (x y : List Char), ([x, y] : List (List Char)).getLastD [] = y from fun _ _ => rfl,
    hdig, isHex40_asStr _ hsha, if_true, List.length_cons, List.length_nil]
  simp [hid]

theorem pyIntChars_digits (t : Nat) : pyIntChars (asStr (natToDec t)) = some (t : Int) := by
  rw [pyIntChars, map_toNat_asStr _ (natToDec_ascii t), pyIntBytes_natToDec]


theorem natToDec_headD_not_ws (t : Nat) : isWsByte ((natToDec t).headD 0) = false := by
  have hm : (natToDec t).headD 0 ∈ natToDec t := by
    cases h : natToDec t with
    | nil => exact absurd h (natToDec_ne_nil t)
    | cons a l => simp
  have := natToDec_digits t _ hm
  exact notWs_of_hard _ (by omega) (by omega)

theorem mailWrap_ascii (m : List Nat) (h : mailTok m = true) :
    ∀ x ∈ 60 :: (m ++ [62]), x ≤ 127 := by
  intro x hx
  rcases List.mem_cons.1 hx with h1 | h2
  · omega
  · rcases List.mem_append.1 h2 with h3 | h4
    · have := (mailTok_parts m h).1.2 x h3
      omega
    · simp at h4
      omega

theorem mailWrap_headD_not_ws (m : List Nat) : isWsByte ((60 :: (m ++ [62])).headD 0) = false := by
  simp [isWsByte]



theorem fullStepText_author (co : List (List Char × Commit)) (bl : List FullGroup)
    (lo : List (List Char)) (i : FullInfo) (v : List Nat) (hvasc : ∀ x ∈ v, x ≤ 127) (hvne : v ≠ [])
    (hvhead : isWsByte (v.headD 0) = false) :
    fullStepText (FullState.mk co bl (some i) lo) (asStr authorB ++ ' ' :: asStr v) =
      .ok (FullState.mk co bl (some { i with author := some (asStr v) }) lo) := by
  have hparts := parts_tagLine authorB v (by decide) (by decide) hvasc hvne hvhead
  rw [fullStepText]
  simp only [hparts,
    show ∀ (x y : List Char), ([x, y] : List (List Char)).headD [] = x from fun _ _ => rfl,
    show ∀ (x y : List Char), ([x, y] : List (List Char)).getLastD [] = y from fun _ _ => rfl]
  simp only [show isHex40 (asStr authorB) = false from by decide,
    show startsW authorC (asStr authorB) = true from by decide,
    show endsW mailSufC (asStr authorB) = false from by decide,
    show endsW timeSufC (asStr authorB) = false from by decide,
    Bool.true_or, Bool.false_or, Bool.false_eq_true, if_false, if_true,
    if_pos (show authorC = asStr authorB from by decide)]

theorem fullStepText_authorMail (co : List (List Char × Commit)) (bl : List FullGroup)
    (lo : List (List Char)) (i : FullInfo) (v : List Nat) (hvasc : ∀ x ∈ v, x ≤ 127) (hvne : v ≠ [])
    (hvhead : isWsByte (v.headD 0) = false) :
    fullStepText (FullState.mk co bl (some i) lo) (asStr authorMailB ++ ' ' :: asStr v) =
      .ok (FullState.mk co bl (some { i with author_email := some (asStr v) }) lo) := by
  have hparts := parts_tagLine authorMailB v (by decide) (by decide) hvasc hvne hvhead
  rw [fullStepText]
  simp only [hparts,
    show ∀ (x y : List Char), ([x, y] : List (List Char)).headD [] = x from fun _ _ => rfl,
    show ∀ (x y : List Char), ([x, y] : List (List Char)).getLastD [] = y from fun _ _ => rfl]
  simp only [show isHex40 (asStr authorMailB) = false from by decide,
    show startsW authorC (asStr authorMailB) = true from by decide,
    show endsW mailSufC (asStr authorMailB) = true from by decide,
    Bool.true_or, Bool.false_or, Bool.false_eq_true, if_false, if_true]

theorem fullStepText_authorTime (co : List (List Char × Commit)) (bl : List FullGroup)
    (lo : List (List Char)) (i : FullInfo) (t : Nat) :
    fullStepText (FullState.mk co bl (some i) lo) (asStr authorTimeB ++ ' ' :: asStr (natToDec t)) =
      .ok (FullState.mk co bl (some { i with author_date := some (t : Int) }) lo) := by
  have hparts := parts_tagLine authorTimeB (natToDec t) (by decide) (by decide) (natToDec_ascii _) (natToDec_ne_nil _) (natToDec_headD_not_ws t)
  rw [fullStepText]
  simp only [hparts,
    show ∀ (x y : List Char), ([x, y] : List (List Char)).headD [] = x from fun _ _ => rfl,
    show ∀ (x y : List Char), ([x, y] : List (List Char)).getLastD [] = y from fun _ _ => rfl]
  simp only [show isHex40 (asStr authorTimeB) = false from by decide,
    show startsW authorC (asStr authorTimeB) = true from by decide,
    show endsW mailSufC (asStr authorTimeB) = false from by decide,
    show endsW timeSufC (asStr authorTimeB) = true from by decide,
    Bool.true_or, Bool.false_or, Bool.false_eq_true, if_false, if_true, pyIntChars_digits]

theorem fullStepText_authorTz (co : List (List Char × Commit)) (bl : List FullGroup)
    (lo : List (List Char)) (i : FullInfo) (v : List Nat) (hvasc : ∀ x ∈ v, x ≤ 127) (hvne : v ≠ [])
    (hvhead : isWsByte (v.headD 0) = false) :
    fullStepText (FullState.mk co bl (some i) lo) (asStr authorTzB ++ ' ' :: asStr v) =
      .ok (FullState.mk co bl (some i) lo) := by
  have hparts := parts_tagLine authorTzB v (by decide) (by decide) hvasc hvne hvhead
  rw [fullStepText]
  simp only [hparts,
    show ∀ (x y : List Char), ([x, y] : List (List Char)).headD [] = x from fun _ _ => rfl,
    show ∀ (x y : List Char), ([x, y] : List (List Char)).getLastD [] = y from fun _ _ => rfl]
  simp only [show isHex40 (asStr authorTzB) = false from by decide,
    show startsW authorC (asStr authorTzB) = true from by decide,
    show endsW mailSufC (asStr authorTzB) = false from by decide,
    show endsW timeSufC (asStr authorTzB) = false from by decide,
    Bool.true_or, Bool.false_or, Bool.false_eq_true, if_false, if_true,
    if_neg (show ¬(authorC = asStr authorTzB) from by decide)]

theorem fullStepText_committer (co : List (List Char × Commit)) (bl : List FullGroup)
    (lo : List (List Char)) (i : FullInfo) (v : List Nat) (hvasc : ∀ x ∈ v, x ≤ 127) (hvne : v ≠ [])
    (hvhead : isWsByte (v.headD 0) = false) :
    fullStepText (FullState.mk co bl (some i) lo) (asStr committerB ++ ' ' :: asStr v) =
      .ok (FullState.mk co bl (some { i with committer := some (asStr v) }) lo) := by
  have hparts := parts_tagLine committerB v (by decide) (by decide) hvasc hvne hvhead
  rw [fullStepText]
  simp only [hparts,
    show ∀ (x y : List Char), ([x, y] : List (List Char)).headD [] = x from fun _ _ => rfl,
    show ∀ (x y : List Char), ([x, y] : List (List Char)).getLastD [] = y from fun _ _ => rfl]
  simp only [show isHex40 (asStr committerB) = false from by decide,
    show startsW authorC (asStr committerB) = false from by decide,
    show startsW committerC (asStr committerB) = true from by decide,
    show endsW mailSufC (asStr committerB) = false from by decide,
    show endsW timeSufC (asStr committerB) = false from by decide,
    Bool.true_or, Bool.false_or, Bool.false_eq_true, if_false, if_true,
    if_pos (show committerC = asStr committerB from by decide),
    if_neg (show ¬(committerC = authorC) from by decide)]

theorem fullStepText_committerMail (co : List (List Char × Commit)) (bl : List FullGroup)
    (lo : List (List Char)) (i : FullInfo) (v : List Nat) (hvasc : ∀ x ∈ v, x ≤ 127) (hvne : v ≠ [])
    (hvhead : isWsByte (v.headD 0) = false) :
    fullStepText (FullState.mk co bl (some i) lo) (asStr committerMailB ++ ' ' :: asStr v) =
      .ok (FullState.mk co bl (some { i with committer_email := some (asStr v) }) lo) := by
  have hparts := parts_tagLine committerMailB v (by decide) (by decide) hvasc hvne hvhead
  rw [fullStepText]
  simp only [hparts,
    show ∀ (x y : List Char), ([x, y] : List (List Char)).headD [] = x from fun _ _ => rfl,
    show ∀ (x y : List Char), ([x, y] : List (List Char)).getLastD [] = y from fun _ _ => rfl]
  simp only [show isHex40 (asStr committerMailB) = false from by decide,
    show startsW authorC (asStr committerMailB) = false from by decide,
    show startsW committerC (asStr committerMailB) = true from by decide,
    show endsW mailSufC (asStr committerMailB) = true from by decide,
    Bool.true_or, Bool.false_or, Bool.false_eq_true, if_false, if_true,
    if_neg (show ¬(committerC = authorC) from by decide)]

theorem fullStepText_committerTime (co : List (List Char × Commit)) (bl : List FullGroup)
    (lo : List (List Char)) (i : FullInfo) (t : Nat) :
    fullStepText (FullState.mk co bl (some i) lo) (asStr committerTimeB ++ ' ' :: asStr (natToDec t)) =
      .ok (FullState.mk co bl (some { i with committer_date := some (t : Int) }) lo) := by
  have hparts := parts_tagLine committerTimeB (natToDec t) (by decide) (by decide) (natToDec_ascii _) (natToDec_ne_nil _) (natToDec_headD_not_ws t)
  rw [fullStepText]
  simp only [hparts,
    show ∀ (x y : List Char), ([x, y] : List (List Char)).headD [] = x from fun _ _ => rfl,
    show ∀ (x y : List Char), ([x, y] : List (List Char)).getLastD [] = y from fun _ _ => rfl]
  simp only [show isHex40 (asStr committerTimeB) = false from by decide,
    show startsW authorC (asStr committerTimeB) = false from by decide,
    show startsW committerC (asStr committerTimeB) = true from by decide,
    show endsW mailSufC (asStr committerTimeB) = false from by decide,
    show endsW timeSufC (asStr committerTimeB) = true from by decide,
    Bool.true_or, Bool.false_or, Bool.false_eq_true, if_false, if_true, pyIntChars_digits,
    if_neg (show ¬(committerC = authorC) from by decide)]

theorem fullStepText_committerTz (co : List (List Char × Commit)) (bl : List FullGroup)
    (lo : List (List Char)) (i : FullInfo) (v : List Nat) (hvasc : ∀ x ∈ v, x ≤ 127) (hvne : v ≠ [])
    (hvhead : isWsByte (v.headD 0) = false) :
    fullStepText (FullState.mk co bl (some i) lo) (asStr committerTzB ++ ' ' :: asStr v) =
      .ok (FullState.mk co bl (some i) lo) := by
  have hparts := parts_tagLine committerTzB v (by decide) (by decide) hvasc hvne hvhead
  rw [fullStepText]
  simp only [hparts,
    show ∀ (x y : List Char), ([x, y] : List (List Char)).headD [] = x from fun _ _ => rfl,
    show ∀ (x y : List Char), ([x, y] : List (List Char)).getLastD [] = y from fun _ _ => rfl]
  simp only [show isHex40 (asStr committerTzB) = false from by decide,
    show startsW authorC (asStr committerTzB) = false from by decide,
    show startsW committerC (asStr committerTzB) = true from by decide,
    show endsW mailSufC (asStr committerTzB) = false from by decide,
    show endsW timeSufC (asStr committerTzB) = false from by decide,
    Bool.true_or, Bool.false_or, Bool.false_eq_true, if_false, if_true,
    if_neg (show ¬(committerC = asStr committerTzB) from by decide)]

theorem fullStepText_summaryLine (co : List (List Char × Commit)) (bl : List FullGroup)
    (lo : List (List Char)) (i : FullInfo) (v : List Nat) (hvasc : ∀ x ∈ v, x ≤ 127) (hvne : v ≠ [])
    (hvhead : isWsByte (v.headD 0) = false) :
    fullStepText (FullState.mk co bl (some i) lo) (asStr summaryB ++ ' ' :: asStr v) =
      .ok (FullState.mk co bl (some { i with summary := some (asStr v) }) lo) := by
  have hparts := parts_tagLine summaryB v (by decide) (by decide) hvasc hvne hvhead
  rw [fullStepText]
  simp only [hparts,
    show ∀ (x y : List Char), ([x, y] : List (List Char)).headD [] = x from fun _ _ => rfl,
    show ∀ (x y : List Char), ([x, y] : List (List Char)).getLastD [] = y from fun _ _ => rfl]
  simp only [show isHex40 (asStr summaryB) = false from by decide,
    show startsW authorC (asStr summaryB) = false from by decide,
    show startsW committerC (asStr summaryB) = false from by decide,
    show startsW filenameC (asStr summaryB) = false from by decide,
    show startsW summaryC (asStr summaryB) = true from by decide,
    Bool.true_or, Bool.false_or, Bool.or_self, Bool.false_eq_true, if_false, if_true]

theorem fullStepText_filenameLine (co : List (List Char × Commit)) (bl : List FullGroup)
    (lo : List (List Char)) (i : FullInfo) (v : List Nat) (hvasc : ∀ x ∈ v, x ≤ 127) (hvne : v ≠ [])
    (hvhead : isWsByte (v.headD 0) = false) :
    fullStepText (FullState.mk co bl (some i) lo) (asStr filenameB ++ ' ' :: asStr v) =
      .ok (FullState.mk co bl (some { i with filename := some (asStr v) }) lo) := by
  have hparts := parts_tagLine filenameB v (by decide) (by decide) hvasc hvne hvhead
  rw [fullStepText]
  simp only [hparts,
    show ∀ (x y : List Char), ([x, y] : List (List Char)).headD [] = x from fun _ _ => rfl,
    show ∀ (x y : List Char), ([x, y] : List (List Char)).getLastD [] = y from fun _ _ => rfl]
  simp only [show isHex40 (asStr filenameB) = false from by decide,
    show startsW authorC (asStr filenameB) = false from by decide,
    show startsW committerC (asStr filenameB) = false from by decide,
    show startsW filenameC (asStr filenameB) = true from by decide,
    Bool.true_or, Bool.false_or, Bool.or_self, Bool.false_eq_true, if_false, if_true]


-- ## Finalize-branch evaluation

theorem outLineOf_binary (raw : List Nat) : outLineOf (.binary raw) true = .binary raw := rfl

theorem outLineOf_tab (s : List Char) :
    outLineOf (.text (Char.ofNat 9 :: s)) false = .text s := by
  rw [outLineOf]
  simp

theorem outLineOf_nil : outLineOf (.text []) false = .text [] := by
  rw [outLineOf]
  simp

theorem fullFinalize_cached (co : List (List Char × Commit)) (bl : List FullGroup)
    (g : FullGroup) (lo : List (List Char)) (i : FullInfo) (c : Commit) (lineVal : BLine)
    (isBin : Bool) (idv : List Char) (hid : i.id = idv)
    (hc : lookupKey co idv = some c) :
    fullFinalize (FullState.mk co (bl ++ [g]) (some i) lo) lineVal isBin =
      .ok (FullState.mk co
        (bl ++ [⟨some c, g.lines ++ [outLineOf lineVal isBin], some idv⟩])
        (some { id := idv }) lo) := by
  subst hid
  rw [fullFinalize]
  simp only [resolveCommitFull, hc, List.getLast?_concat, List.dropLast_concat]

theorem fullFinalize_new (co : List (List Char × Commit)) (bl : List FullGroup)
    (g : FullGroup) (lo : List (List Char)) (i : FullInfo) (c : Commit) (lineVal : BLine)
    (isBin : Bool) (idv : List Char) (hid : i.id = idv) (hn : lookupKey co idv = none)
    (hmk : mkFullCommit i = .ok c) :
    fullFinalize (FullState.mk co (bl ++ [g]) (some i) lo) lineVal isBin =
      .ok (FullState.mk (dictInsert co idv c)
        (bl ++ [⟨some c, g.lines ++ [outLineOf lineVal isBin], some idv⟩])
        (some { id := idv }) (lo ++ [idv])) := by
  subst hid
  rw [fullFinalize]
  simp only [resolveCommitFull, hn, hmk, List.getLast?_concat, List.dropLast_concat]

theorem fullStepText_empty_first (s : FullState) (cs : List Char)
    (h : (reSplitWs1 cs).headD [] = []) :
    fullStepText s cs = fullFinalize s (.text cs) false := by
  rw [fullStepText]
  simp only [h]
  rfl

theorem fullStepText_nilstr (s : FullState) :
    fullStepText s [] = fullFinalize s (.text []) false :=
  fullStepText_empty_first s [] (by rw [reSplitWs1_single [] (by simp)]; rfl)

theorem fullStepText_tabHead (s : FullState) (t : List Char) :
    fullStepText s (Char.ofNat 9 :: t) = fullFinalize s (.text (Char.ofNat 9 :: t)) false :=
  fullStepText_empty_first s _ (by rw [reSplitWs1_wsHead _ _ (by decide)]; rfl)

theorem decode_contLine_nil : utf8Decode (pyRstripB (contLine [] ++ [10])) = some [] := by
  decide

theorem contentOk_ascii (c : List Nat) (h : contentOk c = true) : ∀ x ∈ c, x ≤ 127 := by
  intro x hx
  have := (contentOk_parts c h).1 x hx
  omega

theorem decode_contLine_cons (c : List Nat) (hc : contentOk c = true) (hne : c ≠ []) :
    utf8Decode (pyRstripB (contLine c ++ [10])) = some (Char.ofNat 9 :: asStr c) := by
  rw [pyRstripB_append_one _ 10 (by decide)]
  have hsh : contLine c = [9] ++ c := rfl
  have hlast : isWsByte (c.getLast hne) = false := by
    rw [getLast_eq_getLastD _ hne 0]
    obtain ⟨hr, hl⟩ := contentOk_parts c hc
    have hm := getLastD_mem c hne 0
    exact notWs_of_printable _ (hr _ hm).1 (hr _ hm).2 hl
  rw [hsh, pyRstripB_append_last [9] c hne hlast,
    utf8Decode_ascii _ (by
      intro x hx
      rcases List.mem_append.1 hx with h1 | h2
      · simp at h1
        omega
      · exact contentOk_ascii c hc x h2)]
  rfl

theorem softTok_headD_not_ws (l : List Nat) (h : softTok l = true) :
    isWsByte (l.headD 0) = false := by
  obtain ⟨hne, hr, hh, _⟩ := softTok_parts l h
  have hm : l.headD 0 ∈ l := by
    cases l with
    | nil => exact absurd rfl hne
    | cons a t => simp
  exact notWs_of_printable _ (hr _ hm).1 (hr _ hm).2 hh

theorem mkFullCommit_full (b : Block) (hb : blockOk b = true) :
    mkFullCommit (FullInfo.mk (asStr b.sha) (some (asStr b.meta.author))
      (some (asStr (60 :: (b.meta.authorMail ++ [62])))) (some (b.meta.authorTime : Int))
      (some (asStr b.meta.committer))
      (some (asStr (60 :: (b.meta.committerMail ++ [62]))))
      (some (b.meta.committerTime : Int)) (some (asStr b.filename))
      (some (asStr b.meta.summary))) =
      .ok (fullCommitOf b) := by
  obtain ⟨hsha, _, _, _, _, _⟩ := blockOk_parts b hb
  obtain ⟨hsl, hsall⟩ := shaTok_parts b.sha hsha
  have hbin : (hexToBinC (asStr b.sha)).isSome = true := by
    rw [hexToBinC_asStr _ (sha_ascii _ hsha)]
    exact hexToBin_total b.sha hsall (by omega)
  rcases Option.isSome_iff_exists.1 hbin with ⟨bin, hbin2⟩
  rw [mkFullCommit]
  simp only [hbin2]
  rw [fullCommitOf]
  rw [show ((hexToBinC (asStr b.sha)).getD [] : List Nat) = bin from by rw [hbin2]; rfl]

-- ## Folding the full parser over rendered blocks

theorem fullFold_cons_ok (s s2 : FullState) (l : List Nat) (ls : List (List Nat))
    (h : fullStep s l = .ok s2) : fullFold s (l :: ls) = fullFold s2 ls := by
  rw [fullFold, h]

theorem fullFold_contSeq (b : Block) (hb : blockOk b = true) :
    ∀ (cs : List (List Nat)) (k : Nat) (co : List (List Char × Commit)) (bl : List FullGroup)
      (lo : List (List Char)) (gl : List BLine) (cmt : Commit),
      lookupKey co (asStr b.sha) = some cmt →
      (∀ x ∈ cs, contentOk x = true) → ∀ (rest : List (List Nat)),
      fullFold (FullState.mk co (bl ++ [⟨some cmt, gl, some (asStr b.sha)⟩])
          (some { id := asStr b.sha }) lo)
          ((contSeq b k cs).map (· ++ [10]) ++ rest) =
        fullFold (FullState.mk co
          (bl ++ [⟨some cmt, gl ++ cs.map (fun x => .text (asStr x)), some (asStr b.sha)⟩])
          (some { id := asStr b.sha }) lo) rest := by
  intro cs
  induction cs with
  | nil =>
    intro k co bl lo gl cmt hc hcs rest
    rw [contSeq]
    simp
  | cons c ct ih =>
    intro k co bl lo gl cmt hc hcs rest
    rw [contSeq]
    simp only [List.map_cons, List.cons_append]
    rw [fullFold_cons_ok _ _ _ _ (by
      rw [fullStep_of_decode _ _ _ (decode_hdr3_nl b k hb)]
      exact fullStepText_hdr3 _ _ _ _ b k hb rfl)]
    by_cases hcnil : c = []
    · subst hcnil
      rw [fullFold_cons_ok _ _ _ _ (by
        rw [fullStep_of_decode _ _ _ decode_contLine_nil, fullStepText_nilstr]
        exact fullFinalize_cached co bl _ lo _ cmt _ _ _ rfl hc)]
      rw [outLineOf_nil]
      rw [ih (k + 1) co bl lo (gl ++ [BLine.text []]) cmt hc
        (fun x hx => hcs x (by simp [hx])) rest]
      simp [asStr]
    · rw [fullFold_cons_ok _ _ _ _ (by
        rw [fullStep_of_decode _ _ _ (decode_contLine_cons c (hcs c (by simp)) hcnil),
          fullStepText_tabHead]
        exact fullFinalize_cached co bl _ lo _ cmt _ _ _ rfl hc)]
      rw [outLineOf_tab]
      rw [ih (k + 1) co bl lo (gl ++ [BLine.text (asStr c)]) cmt hc
        (fun x hx => hcs x (by simp [hx])) rest]
      simp

theorem softTok_lastD_not_ws (l : List Nat) (h : softTok l = true) :
    isWsByte (l.getLastD 0) = false := by
  obtain ⟨hne, hr, _, hl⟩ := softTok_parts l h
  have hm := getLastD_mem l hne 0
  exact notWs_of_printable _ (hr _ hm).1 (hr _ hm).2 hl

theorem mailWrap_lastD_not_ws (m : List Nat) :
    isWsByte ((60 :: (m ++ [62])).getLastD 0) = false := by
  rw [show (60 :: (m ++ [62])) = (60 :: m) ++ [62] from by simp, List.getLastD_concat]
  decide

theorem natToDec_lastD_not_ws (t : Nat) : isWsByte ((natToDec t).getLastD 0) = false := by
  have hm := getLastD_mem (natToDec t) (natToDec_ne_nil t) 0
  have := natToDec_digits t _ hm
  exact notWs_of_hard _ (by omega) (by omega)

theorem infoSet_author (idv au am ad cm cme cd fn su x) :
    { FullInfo.mk idv au am ad cm cme cd fn su with author := x } =
      FullInfo.mk idv x am ad cm cme cd fn su := rfl

theorem infoSet_author_email (idv au am ad cm cme cd fn su x) :
    { FullInfo.mk idv au am ad cm cme cd fn su with author_email := x } =
      FullInfo.mk idv au x ad cm cme cd fn su := rfl

theorem infoSet_author_date (idv au am ad cm cme cd fn su x) :
    { FullInfo.mk idv au am ad cm cme cd fn su with author_date := x } =
      FullInfo.mk idv au am x cm cme cd fn su := rfl

theorem infoSet_committer (idv au am ad cm cme cd fn su x) :
    { FullInfo.mk idv au am ad cm cme cd fn su with committer := x } =
      FullInfo.mk idv au am ad x cme cd fn su := rfl

theorem infoSet_committer_email (idv au am ad cm cme cd fn su x) :
    { FullInfo.mk idv au am ad cm cme cd fn su with committer_email := x } =
      FullInfo.mk idv au am ad cm x cd fn su := rfl

theorem infoSet_committer_date (idv au am ad cm cme cd fn su x) :
    { FullInfo.mk idv au am ad cm cme cd fn su with committer_date := x } =
      FullInfo.mk idv au am ad cm cme x fn su := rfl

theorem infoSet_filename (idv au am ad cm cme cd fn su x) :
    { FullInfo.mk idv au am ad cm cme cd fn su with filename := x } =
      FullInfo.mk idv au am ad cm cme cd x su := rfl

theorem infoSet_summary (idv au am ad cm cme cd fn su x) :
    { FullInfo.mk idv au am ad cm cme cd fn su with summary := x } =
      FullInfo.mk idv au am ad cm cme cd fn x := rfl

set_option maxHeartbeats 1600000 in
theorem fullFold_blockNew (b : Block) (hb : blockOk b = true)
    (co : List (List Char × Commit)) (bl : List FullGroup) (info : Option FullInfo)
    (lo : List (List Char)) (rest : List (List Nat))
    (hn : lookupKey co (asStr b.sha) = none) :
    fullFold (FullState.mk co bl info lo)
        ((fullBlockLines false b).map (· ++ [10]) ++ rest) =
      fullFold (FullState.mk (dictInsert co (asStr b.sha) (fullCommitOf b))
        (bl ++ [groupOf (fullCommitOf b) b]) (some { id := asStr b.sha })
        (lo ++ [asStr b.sha])) rest := by
  obtain ⟨hsha, hmeta, hfn, hlen, hcok, hpos⟩ := blockOk_parts b hb
  obtain ⟨hau, ham, hco, hcm, hsu⟩ := metaOk_parts b.meta hmeta
  obtain ⟨c0, ct, hcont⟩ : ∃ c0 ct, b.contents = c0 :: ct := by
    cases hcc : b.contents with
    | nil =>
      rw [hcc] at hlen
      simp at hlen
      omega
    | cons c0 ct => exact ⟨c0, ct, rfl⟩
  have hc0 : contentOk c0 = true := hcok c0 (by rw [hcont]; simp)
  have hct : ∀ x ∈ ct, contentOk x = true := fun x hx => hcok x (by rw [hcont]; simp [hx])
  rw [fullBlockLines, hcont, metaLines, fnLineOf]
  simp only [if_false, List.map_append, List.map_cons, List.cons_append, List.append_assoc,
    Bool.false_eq_true]
  rw [fullFold_cons_ok _ _ _ _ (by
    rw [fullStep_of_decode _ _ _ (decode_hdr4_nl b hb)]
    exact fullStepText_hdr4 co bl info lo b hb)]
  rw [fullFold_cons_ok _ _ _ _ (by
    rw [fullStep_of_decode _ _ _
      (decode_tagLine_nl authorB b.meta.author (by decide) (softTok_ascii _ (nameTok_parts _ hau).1) (softTok_parts _ (nameTok_parts _ hau).1).1 (softTok_lastD_not_ws _ (nameTok_parts _ hau).1))]
    exact fullStepText_author _ _ _ _ b.meta.author (softTok_ascii _ (nameTok_parts _ hau).1) (softTok_parts _ (nameTok_parts _ hau).1).1 (softTok_headD_not_ws _ (nameTok_parts _ hau).1))]
  simp only [infoSet_author]
  rw [fullFold_cons_ok _ _ _ _ (by
    rw [fullStep_of_decode _ _ _
      (decode_tagLine_nl authorMailB (60 :: (b.meta.authorMail ++ [62])) (by decide) (mailWrap_ascii _ ham) (by simp) (mailWrap_lastD_not_ws _))]
    exact fullStepText_authorMail _ _ _ _ _ (mailWrap_ascii _ ham) (by simp) (mailWrap_headD_not_ws _))]
  simp only [infoSet_author_email]
  rw [fullFold_cons_ok _ _ _ _ (by
    rw [fullStep_of_decode _ _ _
      (decode_tagLine_nl authorTimeB (natToDec b.meta.authorTime) (by decide) (natToDec_ascii _) (natToDec_ne_nil _) (natToDec_lastD_not_ws _))]
    exact fullStepText_authorTime _ _ _ _ b.meta.authorTime)]
  simp only [infoSet_author_date]
  rw [fullFold_cons_ok _ _ _ _ (by
    rw [fullStep_of_decode _ _ _
      (decode_tagLine_nl authorTzB [45, 48, 55, 48, 48] (by decide) (by decide) (by decide) (by decide))]
    exact fullStepText_authorTz _ _ _ _ [45, 48, 55, 48, 48] (by decide) (by decide) (by decide))]
  rw [fullFold_cons_ok _ _ _ _ (by
    rw [fullStep_of_decode _ _ _
      (decode_tagLine_nl committerB b.meta.committer (by decide) (softTok_ascii _ (nameTok_parts _ hco).1) (softTok_parts _ (nameTok_parts _ hco).1).1 (softTok_lastD_not_ws _ (nameTok_parts _ hco).1))]
    exact fullStepText_committer _ _ _ _ b.meta.committer (softTok_ascii _ (nameTok_parts _ hco).1) (softTok_parts _ (nameTok_parts _ hco).1).1 (softTok_headD_not_ws _ (nameTok_parts _ hco).1))]
  simp only [infoSet_committer]
  rw [fullFold_cons_ok _ _ _ _ (by
    rw [fullStep_of_decode _ _ _
      (decode_tagLine_nl committerMailB (60 :: (b.meta.committerMail ++ [62])) (by decide) (mailWrap_ascii _ hcm) (by simp) (mailWrap_lastD_not_ws _))]
    exact fullStepText_committerMail _ _ _ _ _ (mailWrap_ascii _ hcm) (by simp) (mailWrap_headD_not_ws _))]
  simp only [infoSet_committer_email]
  rw [fullFold_cons_ok _ _ _ _ (by
    rw [fullStep_of_decode _ _ _
      (decode_tagLine_nl committerTimeB (natToDec b.meta.committerTime) (by decide) (natToDec_ascii _) (natToDec_ne_nil _) (natToDec_lastD_not_ws _))]
    exact fullStepText_committerTime _ _ _ _ b.meta.committerTime)]
  simp only [infoSet_committer_date]
  rw [fullFold_cons_ok _ _ _ _ (by
    rw [fullStep_of_decode _ _ _
      (decode_tagLine_nl committerTzB [45, 48, 55, 48, 48] (by decide) (by decide) (by decide) (by decide))]
    exact fullStepText_committerTz _ _ _ _ [45, 48, 55, 48, 48] (by decide) (by decide) (by decide))]
  rw [fullFold_cons_ok _ _ _ _ (by
    rw [fullStep_of_decode _ _ _
      (decode_tagLine_nl summaryB b.meta.summary (by decide) (softTok_ascii _ hsu) (softTok_parts _ hsu).1 (softTok_lastD_not_ws _ hsu))]
    exact fullStepText_summaryLine _ _ _ _ b.meta.summary (softTok_ascii _ hsu) (softTok_parts _ hsu).1 (softTok_headD_not_ws _ hsu))]
  simp only [infoSet_summary]
  rw [fullFold_cons_ok _ _ _ _ (by
    rw [fullStep_of_decode _ _ _
      (decode_tagLine_nl filenameB b.filename (by decide) (softTok_ascii _ hfn) (softTok_parts _ hfn).1 (softTok_lastD_not_ws _ hfn))]
    exact fullStepText_filenameLine _ _ _ _ b.filename (softTok_ascii _ hfn) (softTok_parts _ hfn).1 (softTok_headD_not_ws _ hfn))]
  simp only [infoSet_filename]
  simp only [List.map_nil, List.nil_append]
  by_cases hc0nil : c0 = []
  · subst hc0nil
    rw [fullFold_cons_ok _ _ _ _ (by
      rw [fullStep_of_decode _ _ _ decode_contLine_nil, fullStepText_nilstr]
      exact fullFinalize_new co bl _ lo _ (fullCommitOf b) _ _ (asStr b.sha) rfl hn
        (mkFullCommit_full b hb))]
    rw [outLineOf_nil]
    rw [fullFold_contSeq b hb ct 1 _ bl _ ([] ++ [BLine.text []]) (fullCommitOf b)
      (lookupKey_dictInsert_self co (asStr b.sha) (fullCommitOf b) hn) hct rest]
    rw [groupOf, hcont]
    simp [asStr]
  · rw [fullFold_cons_ok _ _ _ _ (by
      rw [fullStep_of_decode _ _ _ (decode_contLine_cons c0 hc0 hc0nil), fullStepText_tabHead]
      exact fullFinalize_new co bl _ lo _ (fullCommitOf b) _ _ (asStr b.sha) rfl hn
        (mkFullCommit_full b hb))]
    rw [outLineOf_tab]
    rw [fullFold_contSeq b hb ct 1 _ bl _ ([] ++ [BLine.text (asStr c0)]) (fullCommitOf b)
      (lookupKey_dictInsert_self co (asStr b.sha) (fullCommitOf b) hn) hct rest]
    rw [groupOf, hcont]
    simp

set_option maxHeartbeats 800000 in
theorem fullFold_blockSeen (b : Block) (hb : blockOk b = true)
    (co : List (List Char × Commit)) (bl : List FullGroup) (info : Option FullInfo)
    (lo : List (List Char)) (rest : List (List Nat)) (cmt : Commit)
    (hc : lookupKey co (asStr b.sha) = some cmt) :
    fullFold (FullState.mk co bl info lo)
        ((fullBlockLines true b).map (· ++ [10]) ++ rest) =
      fullFold (FullState.mk co (bl ++ [groupOf cmt b])
        (some { id := asStr b.sha }) lo) rest := by
  obtain ⟨hsha, hmeta, hfn, hlen, hcok, hpos⟩ := blockOk_parts b hb
  obtain ⟨c0, ct, hcont⟩ : ∃ c0 ct, b.contents = c0 :: ct := by
    cases hcc : b.contents with
    | nil =>
      rw [hcc] at hlen
      simp at hlen
      omega
    | cons c0 ct => exact ⟨c0, ct, rfl⟩
  have hc0 : contentOk c0 = true := hcok c0 (by rw [hcont]; simp)
  have hct : ∀ x ∈ ct, contentOk x = true := fun x hx => hcok x (by rw [hcont]; simp [hx])
  rw [fullBlockLines, hcont, fnLineOf]
  simp only [if_true, List.map_append, List.map_cons, List.map_nil, List.cons_append,
    List.nil_append, List.append_assoc]
  rw [fullFold_cons_ok _ _ _ _ (by
    rw [fullStep_of_decode _ _ _ (decode_hdr4_nl b hb)]
    exact fullStepText_hdr4 co bl info lo b hb)]
  rw [fullFold_cons_ok _ _ _ _ (by
    rw [fullStep_of_decode _ _ _
      (decode_tagLine_nl filenameB b.filename (by decide) (softTok_ascii _ hfn) (softTok_parts _ hfn).1 (softTok_lastD_not_ws _ hfn))]
    exact fullStepText_filenameLine _ _ _ _ b.filename (softTok_ascii _ hfn) (softTok_parts _ hfn).1 (softTok_headD_not_ws _ hfn))]
  by_cases hc0nil : c0 = []
  · subst hc0nil
    rw [fullFold_cons_ok _ _ _ _ (by
      rw [fullStep_of_decode _ _ _ decode_contLine_nil, fullStepText_nilstr]
      exact fullFinalize_cached co bl _ lo _ cmt _ _ (asStr b.sha) rfl hc)]
    rw [outLineOf_nil]
    rw [fullFold_contSeq b hb ct 1 _ bl _ ([] ++ [BLine.text []]) cmt hc hct rest]
    rw [groupOf, hcont]
    simp [asStr]
  · rw [fullFold_cons_ok _ _ _ _ (by
      rw [fullStep_of_decode _ _ _ (decode_contLine_cons c0 hc0 hc0nil), fullStepText_tabHead]
      exact fullFinalize_cached co bl _ lo _ cmt _ _ (asStr b.sha) rfl hc)]
    rw [outLineOf_tab]
    rw [fullFold_contSeq b hb ct 1 _ bl _ ([] ++ [BLine.text (asStr c0)]) cmt hc hct rest]
    rw [groupOf, hcont]
    simp

-- No byte of a well-formed full-mode line is a newline or carriage
-- return, so splitlines(keepends=True) recovers exactly the lines.

theorem softTok_no1013 (l : List Nat) (h : softTok l = true) :
    ∀ x ∈ l, x ≠ 10 ∧ x ≠ 13 := by
  intro x hx
  have := (softTok_parts l h).2.1 x hx
  omega

theorem mailWrap_no1013 (m : List Nat) (h : mailTok m = true) :
    ∀ x ∈ 60 :: (m ++ [62]), x ≠ 10 ∧ x ≠ 13 := by
  intro x hx
  rcases List.mem_cons.1 hx with h1 | h2
  · omega
  · rcases List.mem_append.1 h2 with h3 | h4
    · have := (mailTok_parts m h).1.2 x h3
      omega
    · simp at h4
      omega

theorem natToDec_no1013 (n : Nat) : ∀ x ∈ natToDec n, x ≠ 10 ∧ x ≠ 13 := by
  intro x hx
  have := natToDec_digits n x hx
  omega

theorem sha_no1013 (l : List Nat) (h : shaTok l = true) : ∀ x ∈ l, x ≠ 10 ∧ x ≠ 13 := by
  intro x hx
  have := hexVal_bound x ((shaTok_parts l h).2 x hx)
  omega

theorem tagLineB_ok13 (tag v : List Nat) (ht : ∀ x ∈ tag, x ≠ 10 ∧ x ≠ 13)
    (hv : ∀ x ∈ v, x ≠ 10 ∧ x ≠ 13) :
    ∀ x ∈ tagLineB tag v, x ≠ 10 ∧ x ≠ 13 := by
  intro x hx
  rw [tagLineB] at hx
  rcases List.mem_append.1 hx with h1 | h2
  · exact ht x h1
  · rcases List.mem_cons.1 h2 with h3 | h4
    · omega
    · exact hv x h4

theorem hdr4_ok13 (b : Block) (hb : blockOk b = true) :
    ∀ x ∈ hdr4 b, x ≠ 10 ∧ x ≠ 13 := by
  have hsha := (blockOk_parts b hb).1
  intro x hx
  rw [hdr4] at hx
  rcases List.mem_append.1 hx with h1 | h2
  · exact sha_no1013 b.sha hsha x h1
  · rcases List.mem_cons.1 h2 with h3 | h4
    · omega
    · rcases List.mem_append.1 h4 with h5 | h6
      · exact natToDec_no1013 _ x h5
      · rcases List.mem_cons.1 h6 with h7 | h8
        · omega
        · rcases List.mem_append.1 h8 with h9 | h10
          · exact natToDec_no1013 _ x h9
          · rcases List.mem_cons.1 h10 with h11 | h12
            · omega
            · exact natToDec_no1013 _ x h12

theorem hdr3_ok13 (b : Block) (k : Nat) (hb : blockOk b = true) :
    ∀ x ∈ hdr3 b k, x ≠ 10 ∧ x ≠ 13 := by
  have hsha := (blockOk_parts b hb).1
  intro x hx
  rw [hdr3] at hx
  rcases List.mem_append.1 hx with h1 | h2
  · exact sha_no1013 b.sha hsha x h1
  · rcases List.mem_cons.1 h2 with h3 | h4
    · omega
    · rcases List.mem_append.1 h4 with h5 | h6
      · exact natToDec_no1013 _ x h5
      · rcases List.mem_cons.1 h6 with h7 | h8
        · omega
        · exact natToDec_no1013 _ x h8

theorem contLine_ok13 (c : List Nat) (hc : contentOk c = true) :
    ∀ x ∈ contLine c, x ≠ 10 ∧ x ≠ 13 := by
  intro x hx
  rcases List.mem_cons.1 hx with h1 | h2
  · omega
  · have := (contentOk_parts c hc).1 x h2
    omega

theorem contSeq_ok13 (b : Block) (hb : blockOk b = true) :
    ∀ (cs : List (List Nat)) (k : Nat), (∀ c ∈ cs, contentOk c = true) →
      ∀ l ∈ contSeq b k cs, ∀ x ∈ l, x ≠ 10 ∧ x ≠ 13 := by
  intro cs
  induction cs with
  | nil =>
    intro k _ l hl
    simp [contSeq] at hl
  | cons c cs ih =>
    intro k hok l hl
    rw [contSeq] at hl
    rcases List.mem_cons.1 hl with h1 | h2
    · subst h1
      exact hdr3_ok13 b k hb
    · rcases List.mem_cons.1 h2 with h3 | h4
      · subst h3
        exact contLine_ok13 c (hok c (by simp))
      · exact ih (k + 1) (fun y hy => hok y (by simp [hy])) l h4

theorem metaLines_ok13 (b : Block) (hb : blockOk b = true) :
    ∀ l ∈ metaLines b, ∀ x ∈ l, x ≠ 10 ∧ x ≠ 13 := by
  obtain ⟨hsha, hmeta, hfn, _, _, _⟩ := blockOk_parts b hb
  obtain ⟨hau, ham, hco, hcm, hsu⟩ := metaOk_parts b.meta hmeta
  intro l hl
  rw [metaLines, fnLineOf] at hl
  simp only [List.mem_cons, List.not_mem_nil, or_false] at hl
  rcases hl with h | h | h | h | h | h | h | h | h | h <;> subst h
  · exact tagLineB_ok13 _ _ (by decide) (softTok_no1013 _ (nameTok_parts _ hau).1)
  · exact tagLineB_ok13 _ _ (by decide) (mailWrap_no1013 _ ham)
  · exact tagLineB_ok13 _ _ (by decide) (natToDec_no1013 _)
  · exact tagLineB_ok13 _ _ (by decide) (by decide)
  · exact tagLineB_ok13 _ _ (by decide) (softTok_no1013 _ (nameTok_parts _ hco).1)
  · exact tagLineB_ok13 _ _ (by decide) (mailWrap_no1013 _ hcm)
  · exact tagLineB_ok13 _ _ (by decide) (natToDec_no1013 _)
  · exact tagLineB_ok13 _ _ (by decide) (by decide)
  · exact tagLineB_ok13 _ _ (by decide) (softTok_no1013 _ hsu)
  · exact tagLineB_ok13 _ _ (by decide) (softTok_no1013 _ hfn)

theorem fullBlockLines_ok13 (b : Block) (hb : blockOk b = true) (seen : Bool) :
    ∀ l ∈ fullBlockLines seen b, ∀ x ∈ l, x ≠ 10 ∧ x ≠ 13 := by
  obtain ⟨hsha, hmeta, hfn, _, hcok, _⟩ := blockOk_parts b hb
  intro l hl
  rw [fullBlockLines] at hl
  rcases List.mem_append.1 hl with h1 | h2
  · rcases List.mem_cons.1 h1 with h3 | h4
    · subst h3
      exact hdr4_ok13 b hb
    · cases seen with
      | true =>
        simp only [if_true, List.mem_singleton] at h4
        subst h4
        rw [fnLineOf]
        exact tagLineB_ok13 _ _ (by decide) (softTok_no1013 _ hfn)
      | false =>
        simp only [if_false, Bool.false_eq_true] at h4
        exact metaLines_ok13 b hb l h4
  · cases hcc : b.contents with
    | nil =>
      rw [hcc] at h2
      simp at h2
    | cons c cs =>
      rw [hcc] at h2
      rcases List.mem_cons.1 h2 with h3 | h4
      · subst h3
        exact contLine_ok13 c (hcok c (by rw [hcc]; simp))
      · exact contSeq_ok13 b hb cs 1
          (fun y hy => hcok y (by rw [hcc]; simp [hy])) l h4

theorem renderFullAux_ok13 (bs : List Block) :
    ∀ (seen : List (List Nat)), (∀ b ∈ bs, blockOk b = true) →
      ∀ l ∈ renderFullAux seen bs, ∀ x ∈ l, x ≠ 10 ∧ x ≠ 13 := by
  induction bs with
  | nil =>
    intro seen _ l hl
    simp [renderFullAux] at hl
  | cons b bs ih =>
    intro seen hok l hl
    have hb := hok b (by simp)
    rw [renderFullAux] at hl
    rcases List.mem_append.1 hl with h1 | h2
    · exact fullBlockLines_ok13 b hb _ l h1
    · exact ih (b.sha :: seen) (fun x hx => hok x (by simp [hx])) l h2

theorem asStr_inj_ascii (a b : List Nat) (ha : ∀ x ∈ a, x ≤ 127)
    (hb : ∀ x ∈ b, x ≤ 127) (h : asStr a = asStr b) : a = b := by
  rw [← map_toNat_asStr a ha, ← map_toNat_asStr b hb, h]

theorem fullFold_renderFullAux (bs : List Block) :
    ∀ (co : List (List Char × Commit)) (bl : List FullGroup) (info : Option FullInfo)
      (lo : List (List Char)) (seen : List (List Nat)),
      (∀ b ∈ bs, blockOk b = true) →
      (∀ sha, shaTok sha = true →
        (sha ∈ seen ↔ (lookupKey co (asStr sha)).isSome = true)) →
      fullFold (FullState.mk co bl info lo) ((renderFullAux seen bs).map (· ++ [10])) =
        .ok (fullSim (FullState.mk co bl info lo) bs) := by
  induction bs with
  | nil =>
    intro co bl info lo seen _ _
    rfl
  | cons b bs ih =>
    intro co bl info lo seen hok hinv
    have hb := hok b (by simp)
    have hsha := (blockOk_parts b hb).1
    rw [renderFullAux, List.map_append]
    by_cases hseen : b.sha ∈ seen
    · have hlk : (lookupKey co (asStr b.sha)).isSome = true :=
        (hinv b.sha hsha).1 hseen
      rcases Option.isSome_iff_exists.1 hlk with ⟨c, hc⟩
      rw [show decide (b.sha ∈ seen) = true from by simp [hseen]]
      rw [fullFold_blockSeen b hb co bl info lo _ c hc]
      rw [fullSim]
      simp only [hc]
      exact ih co _ _ lo (b.sha :: seen) (fun x hx => hok x (by simp [hx])) (by
        intro sha hs
        constructor
        · intro hm
          rcases List.mem_cons.1 hm with h1 | h2
          · subst h1
            exact hlk
          · exact (hinv sha hs).1 h2
        · intro h2
          exact List.mem_cons.2 (Or.inr ((hinv sha hs).2 h2)))
    · have hlkn : lookupKey co (asStr b.sha) = none := by
        cases h2 : lookupKey co (asStr b.sha) with
        | none => rfl
        | some c => exact absurd ((hinv b.sha hsha).2 (by simp [h2])) hseen
      rw [show decide (b.sha ∈ seen) = false from by simp [hseen]]
      rw [fullFold_blockNew b hb co bl info lo _ hlkn]
      rw [fullSim]
      simp only [hlkn]
      exact ih _ _ _ _ (b.sha :: seen) (fun x hx => hok x (by simp [hx])) (by
        intro sha hs
        constructor
        · intro hm
          rcases List.mem_cons.1 hm with h1 | h2
          · subst h1
            rw [lookupKey_dictInsert_self co (asStr b.sha) (fullCommitOf b) hlkn]
            rfl
          · rcases h3 : lookupKey co (asStr sha) with _ | c
            · exact absurd ((hinv sha hs).1 h2) (by simp [h3])
            · by_cases he : asStr sha = asStr b.sha
              · rw [he, lookupKey_dictInsert_self co (asStr b.sha) (fullCommitOf b) hlkn]
                rfl
              · rw [lookupKey_dictInsert_other co (asStr b.sha) (asStr sha)
                  (fullCommitOf b) he, h3]
                rfl
        · intro h2
          by_cases he : asStr sha = asStr b.sha
          · have : sha = b.sha :=
              asStr_inj_ascii sha b.sha (sha_ascii sha hs) (sha_ascii b.sha hsha) he
            simp [this]
          · rw [lookupKey_dictInsert_other co (asStr b.sha) (asStr sha)
              (fullCommitOf b) he] at h2
            exact List.mem_cons.2 (Or.inr ((hinv sha hs).2 h2)))

theorem blameFull_render (bs : List Block) (hok : ∀ b ∈ bs, blockOk b = true) :
    blameFull (renderFull bs) = .ok (fullSim fullInit bs) := by
  rw [blameFull, renderFull,
    splitlinesKE_joinNl _ (renderFullAux_ok13 bs [] hok)]
  exact fullFold_renderFullAux bs [] [] none [] []
    hok (by intro sha _; simp [lookupKey])

-- ## Parser invariants on arbitrary input

/-- Every entry incStep appends carries a final range and an original
range built by rangeOf from the same num_lines (lines 729-732). -/
theorem incStep_entries_shape (a : IncAcc) (l : List Nat) :
    (incStep a l).entries = a.entries ∨
      ∃ c x y n p, (incStep a l).entries =
        a.entries ++ [⟨c, rangeOf x n, p, rangeOf y n⟩] := by
  rw [incStep]
  repeat' (first | split | dsimp only)
  all_goals first
  | exact Or.inl rfl
  | exact Or.inr ⟨_, _, _, _, _, rfl⟩

theorem rangeLen_rangeOf_pair (x y n : Int) :
    rangeLen (rangeOf x n) = rangeLen (rangeOf y n) := by
  simp [rangeLen, rangeOf]

theorem incStep_ranges (a : IncAcc) (l : List Nat)
    (h : ∀ e ∈ a.entries, rangeLen e.linenos = rangeLen e.orig_linenos) :
    ∀ e ∈ (incStep a l).entries, rangeLen e.linenos = rangeLen e.orig_linenos := by
  rcases incStep_entries_shape a l with hs | ⟨c, x, y, n, p, hs⟩
  · rw [hs]
    exact h
  · rw [hs]
    intro e he
    rcases List.mem_append.1 he with h1 | h2
    · exact h e h1
    · simp only [List.mem_singleton] at h2
      subst h2
      exact rangeLen_rangeOf_pair x y n

theorem foldl_incStep_ranges (ls : List (List Nat)) :
    ∀ (a : IncAcc), (∀ e ∈ a.entries, rangeLen e.linenos = rangeLen e.orig_linenos) →
      ∀ e ∈ (ls.foldl incStep a).entries, rangeLen e.linenos = rangeLen e.orig_linenos := by
  induction ls with
  | nil =>
    intro a h
    exact h
  | cons l ls ih =>
    intro a h
    rw [List.foldl_cons]
    exact ih (incStep a l) (incStep_ranges a l h)

/-- Exhaustive shape analysis of one incremental step: unchanged, an
error, a mode transition, a cached-sha yield (entries and keys grow,
commit looked up), or a first-appearance yield (the commit is also
inserted and logged). -/
theorem incStep_shape (a : IncAcc) (l : List Nat) :
    incStep a l = a ∨
    (∃ e, incStep a l = { a with err := some e }) ∨
    (∃ sha o ln n, incStep a l = { a with mode := .fnOnly sha o ln n }) ∨
    (∃ sha o ln n, lookupKey a.commits sha = none ∧
      incStep a l = { a with mode := .meta sha o ln n [] }) ∨
    (∃ sha o ln n props props2, a.mode = .meta sha o ln n props ∧
      incStep a l = { a with mode := .meta sha o ln n props2 }) ∨
    (∃ c sha ln o n p, lookupKey a.commits sha = some c ∧
      incStep a l = { a with
        mode := .head,
        entries := a.entries ++ [⟨c, rangeOf ln n, p, rangeOf o n⟩],
        keys := a.keys ++ [sha] }) ∨
    (∃ c sha ln o n p props, a.mode = .meta sha o ln n props ∧
      incStep a l = { a with
        mode := .head,
        commits := dictInsert a.commits sha c,
        entries := a.entries ++ [⟨c, rangeOf ln n, p, rangeOf o n⟩],
        keys := a.keys ++ [sha],
        log := a.log ++ [sha] }) := by
  rw [incStep]
  repeat' (first | split | dsimp only)
  all_goals first
  | exact Or.inl rfl
  | exact Or.inr (Or.inl ⟨_, rfl⟩)
  | exact Or.inr (Or.inr (Or.inl ⟨_, _, _, _, rfl⟩))
  | (refine Or.inr (Or.inr (Or.inr (Or.inl ⟨_, _, _, _, ?_, rfl⟩)))
     exact Option.not_isSome_iff_eq_none.1 (by assumption))
  | exact Or.inr (Or.inr (Or.inr (Or.inr (Or.inl
      ⟨_, _, _, _, _, _, by assumption, rfl⟩))))
  | exact Or.inr (Or.inr (Or.inr (Or.inr (Or.inr (Or.inl
      ⟨_, _, _, _, _, _, by assumption, rfl⟩)))))
  | exact Or.inr (Or.inr (Or.inr (Or.inr (Or.inr (Or.inr
      ⟨_, _, _, _, _, _, _, by assumption, rfl⟩)))))

/-- The cache-identity invariant of the incremental parser: the ghost
log of constructions has no duplicate sha, every logged and every
yielded sha is bound in the cache, each yielded entry's commit is the
cache's binding for its sha, and a pending meta block's sha is not yet
cached. -/
def incCacheInv (a : IncAcc) : Prop :=
  a.log.Nodup ∧
  (∀ k ∈ a.log, (lookupKey a.commits k).isSome = true) ∧
  a.entries.length = a.keys.length ∧
  (∀ p ∈ a.entries.zip a.keys, lookupKey a.commits p.2 = some p.1.commit) ∧
  (∀ sha o ln n props, a.mode = .meta sha o ln n props →
    lookupKey a.commits sha = none)

theorem incStep_cacheInv (a : IncAcc) (l : List Nat) (h : incCacheInv a) :
    incCacheInv (incStep a l) := by
  obtain ⟨h1, h2, h3, h4, h5⟩ := h
  rcases incStep_shape a l with hs | ⟨e, hs⟩ | ⟨sha, o, ln, n, hs⟩ |
    ⟨sha, o, ln, n, hn, hs⟩ | ⟨sha, o, ln, n, props, props2, hm, hs⟩ |
    ⟨c, sha, ln, o, n, p, hc, hs⟩ | ⟨c, sha, ln, o, n, p, props, hm, hs⟩
  · rw [hs]
    exact ⟨h1, h2, h3, h4, h5⟩
  · rw [hs]
    exact ⟨h1, h2, h3, h4, h5⟩
  · rw [hs]
    refine ⟨h1, h2, h3, h4, ?_⟩
    intro sha2 o2 ln2 n2 props2 hmm
    cases hmm
  · rw [hs]
    refine ⟨h1, h2, h3, h4, ?_⟩
    intro sha2 o2 ln2 n2 props2 hmm
    cases hmm
    exact hn
  · rw [hs]
    refine ⟨h1, h2, h3, h4, ?_⟩
    intro sha2 o2 ln2 n2 pr2 hmm
    cases hmm
    exact h5 sha o ln n props hm
  · rw [hs]
    refine ⟨h1, h2, by simp [h3], ?_, ?_⟩
    · intro q hq
      rw [List.zip_append h3] at hq
      rcases List.mem_append.1 hq with hq1 | hq2
      · exact h4 q hq1
      · simp only [List.zip_cons_cons, List.zip_nil_right, List.mem_singleton] at hq2
        subst hq2
        exact hc
    · intro sha2 o2 ln2 n2 props2 hmm
      cases hmm
  · have hn : lookupKey a.commits sha = none := h5 sha o ln n props hm
    have hnotin : sha ∉ a.log := by
      intro hin
      have := h2 sha hin
      rw [hn] at this
      cases this
    rw [hs]
    refine ⟨?_, ?_, by simp [h3], ?_, ?_⟩
    · show (a.log ++ [sha]).Nodup
      rw [← List.concat_eq_append]
      exact List.Nodup.concat hnotin h1
    · intro k hk
      rcases List.mem_append.1 hk with hk1 | hk2
      · by_cases he : k = sha
        · rw [he, lookupKey_dictInsert_self a.commits sha c hn]
          rfl
        · rw [lookupKey_dictInsert_other a.commits sha k c he]
          exact h2 k hk1
      · simp only [List.mem_singleton] at hk2
        rw [hk2, lookupKey_dictInsert_self a.commits sha c hn]
        rfl
    · intro q hq
      rw [List.zip_append h3] at hq
      rcases List.mem_append.1 hq with hq1 | hq2
      · have hold := h4 q hq1
        by_cases he : q.2 = sha
        · rw [he, hn] at hold
          cases hold
        · rw [lookupKey_dictInsert_other a.commits sha q.2 c he]
          exact hold
      · simp only [List.zip_cons_cons, List.zip_nil_right, List.mem_singleton] at hq2
        subst hq2
        exact lookupKey_dictInsert_self a.commits sha c hn
    · intro sha2 o2 ln2 n2 props2 hmm
      cases hmm

theorem foldl_incStep_cacheInv (ls : List (List Nat)) :
    ∀ (a : IncAcc), incCacheInv a → incCacheInv (ls.foldl incStep a) := by
  induction ls with
  | nil =>
    intro a h
    exact h
  | cons l ls ih =>
    intro a h
    rw [List.foldl_cons]
    exact ih (incStep a l) (incStep_cacheInv a l h)

theorem blame_incremental_cacheInv (data : List Nat) :
    incCacheInv (blame_incremental data) := by
  rw [blame_incremental]
  exact foldl_incStep_cacheInv (incStream data) incInit
    ⟨List.nodup_nil, by intro k hk; simp [incInit] at hk, rfl,
      by intro p hp; simp [incInit] at hp,
      by intro sha o ln n props h; cases h⟩

set_option maxHeartbeats 3200000 in
/-- Exhaustive shape analysis of the full parser's text dispatch: an
error, no change, an info-only update, a fresh four-field header group,
a changed-id continuation header group, or the finalize branch. -/
theorem fullStepText_shape (s : FullState) (cs : List Char) :
    (∃ e, fullStepText s cs = .error e) ∨
    fullStepText s cs = .ok s ∨
    (∃ i, fullStepText s cs = .ok { s with info := some i }) ∨
    (∃ f, fullStepText s cs = .ok { s with
      info := some { id := f },
      blames := s.blames ++ [⟨none, [], none⟩] }) ∨
    (∃ f, fullStepText s cs = .ok { s with
      info := some { id := f },
      blames := s.blames ++ [⟨lookupKey s.commits f, [], none⟩] }) ∨
    fullStepText s cs = fullFinalize s (.text cs) false := by
  rw [fullStepText]
  repeat' (first | split | dsimp only)
  all_goals first
  | exact Or.inl ⟨_, rfl⟩
  | exact Or.inr (Or.inl rfl)
  | exact Or.inr (Or.inr (Or.inl ⟨_, rfl⟩))
  | exact Or.inr (Or.inr (Or.inr (Or.inl ⟨_, rfl⟩)))
  | exact Or.inr (Or.inr (Or.inr (Or.inr (Or.inl ⟨_, rfl⟩))))
  | exact Or.inr (Or.inr (Or.inr (Or.inr (Or.inr rfl))))

/-- What a successful commit resolution guarantees (lines 813-821): the
returned commit is the cache's binding for info['id'] afterwards, the
cache only grows, and the construction log grows exactly when the id
was not yet cached. -/
theorem resolveCommitFull_ok (s : FullState) (i : FullInfo) (c : Commit)
    (co2 : List (List Char × Commit)) (lo2 : List (List Char))
    (h : resolveCommitFull s i = .ok (c, co2, lo2)) :
    lookupKey co2 i.id = some c ∧
    (∀ k v, lookupKey s.commits k = some v → lookupKey co2 k = some v) ∧
    (lo2 = s.log ∨ (lo2 = s.log ++ [i.id] ∧ lookupKey s.commits i.id = none)) := by
  rw [resolveCommitFull] at h
  split at h
  · rename_i c0 hc0
    simp only [Except.ok.injEq, Prod.mk.injEq] at h
    obtain ⟨he1, he2, he3⟩ := h
    subst he1
    subst he2
    subst he3
    exact ⟨hc0, fun k v hv => hv, Or.inl rfl⟩
  · rename_i hn
    split at h
    · cases h
    · rename_i c0 hmk
      simp only [Except.ok.injEq, Prod.mk.injEq] at h
      obtain ⟨he1, he2, he3⟩ := h
      subst he1
      subst he2
      subst he3
      refine ⟨lookupKey_dictInsert_self s.commits i.id _ hn, ?_, Or.inr ⟨rfl, hn⟩⟩
      intro k v hv
      have hne : k ≠ i.id := by
        intro he
        rw [he, hn] at hv
        cases hv
      rw [lookupKey_dictInsert_other s.commits i.id k _ hne]
      exact hv

/-- The cache-identity invariant of the full parser: the ghost log of
constructions has no duplicate id, every logged id is bound in the
cache, and every group whose commit slot was assigned under an id
(ghost gKey) holds exactly the cache's binding for that id. -/
def fullCacheInv (s : FullState) : Prop :=
  s.log.Nodup ∧
  (∀ k ∈ s.log, (lookupKey s.commits k).isSome = true) ∧
  (∀ g ∈ s.blames, ∀ key c, g.gKey = some key → g.commit = some c →
    lookupKey s.commits key = some c)

theorem fullFinalize_cacheInv (s : FullState) (lv : BLine) (ib : Bool) (s' : FullState)
    (h : fullFinalize s lv ib = .ok s') (hinv : fullCacheInv s) : fullCacheInv s' := by
  obtain ⟨h1, h2, h3⟩ := hinv
  rw [fullFinalize] at h
  split at h
  · simp only [Except.ok.injEq] at h
    subst h
    exact ⟨h1, h2, h3⟩
  · rename_i i hinfo
    split at h
    · cases h
    · rename_i c co2 lo2 hres
      split at h
      · cases h
      · rename_i g hg
        simp only [Except.ok.injEq] at h
        subst h
        obtain ⟨hc1, hc2, hc3⟩ := resolveCommitFull_ok s i c co2 lo2 hres
        refine ⟨?_, ?_, ?_⟩
        · rcases hc3 with h4 | ⟨h4, h5⟩
          · rw [h4]
            exact h1
          · rw [h4]
            have hnotin : i.id ∉ s.log := by
              intro hin
              have := h2 i.id hin
              rw [h5] at this
              cases this
            show (s.log ++ [i.id]).Nodup
            rw [← List.concat_eq_append]
            exact List.Nodup.concat hnotin h1
        · intro k hk
          have hold : ∀ k2, k2 ∈ s.log → (lookupKey co2 k2).isSome = true := by
            intro k2 hk2
            rcases Option.isSome_iff_exists.1 (h2 k2 hk2) with ⟨v, hv⟩
            rw [hc2 k2 v hv]
            rfl
          rcases hc3 with h4 | ⟨h4, h5⟩
          · rw [h4] at hk
            exact hold k hk
          · rw [h4] at hk
            rcases List.mem_append.1 hk with hk1 | hk2
            · exact hold k hk1
            · simp only [List.mem_singleton] at hk2
              rw [hk2, hc1]
              rfl
        · intro g2 hg2 key c2 hkey hcom
          rcases List.mem_append.1 hg2 with hg3 | hg4
          · have hmem : g2 ∈ s.blames := (List.dropLast_prefix s.blames).subset hg3
            exact hc2 key c2 (h3 g2 hmem key c2 hkey hcom)
          · simp only [List.mem_singleton] at hg4
            subst hg4
            simp only [Option.some.injEq] at hkey hcom
            rw [← hkey, ← hcom]
            exact hc1

theorem fullStep_cacheInv (s : FullState) (raw : List Nat) (s' : FullState)
    (h : fullStep s raw = .ok s') (hinv : fullCacheInv s) : fullCacheInv s' := by
  rw [fullStep] at h
  split at h
  · exact fullFinalize_cacheInv s _ _ s' h hinv
  · rename_i cs hdec
    obtain ⟨h1, h2, h3⟩ := hinv
    rcases fullStepText_shape s cs with ⟨e, hs⟩ | hs | ⟨i, hs⟩ | ⟨f, hs⟩ | ⟨f, hs⟩ | hs
    · rw [hs] at h
      cases h
    · rw [hs] at h
      simp only [Except.ok.injEq] at h
      subst h
      exact ⟨h1, h2, h3⟩
    · rw [hs] at h
      simp only [Except.ok.injEq] at h
      subst h
      exact ⟨h1, h2, h3⟩
    · rw [hs] at h
      simp only [Except.ok.injEq] at h
      subst h
      refine ⟨h1, h2, ?_⟩
      intro g hg key c hkey hcom
      rcases List.mem_append.1 hg with hg1 | hg2
      · exact h3 g hg1 key c hkey hcom
      · simp only [List.mem_singleton] at hg2
        subst hg2
        cases hkey
    · rw [hs] at h
      simp only [Except.ok.injEq] at h
      subst h
      refine ⟨h1, h2, ?_⟩
      intro g hg key c hkey hcom
      rcases List.mem_append.1 hg with hg1 | hg2
      · exact h3 g hg1 key c hkey hcom
      · simp only [List.mem_singleton] at hg2
        subst hg2
        cases hkey
    · rw [hs] at h
      exact fullFinalize_cacheInv s _ _ s' h ⟨h1, h2, h3⟩

theorem fullFold_cacheInv (ls : List (List Nat)) :
    ∀ (s s' : FullState), fullFold s ls = .ok s' → fullCacheInv s → fullCacheInv s' := by
  induction ls with
  | nil =>
    intro s s' h hinv
    simp only [fullFold, Except.ok.injEq] at h
    subst h
    exact hinv
  | cons l ls ih =>
    intro s s' h hinv
    rw [fullFold] at h
    split at h
    · cases h
    · rename_i s2 hstep
      exact ih s2 s' h (fullStep_cacheInv s l s2 hstep hinv)

theorem blameFull_cacheInv (data : List Nat) (s : FullState)
    (h : blameFull data = .ok s) : fullCacheInv s := by
  rw [blameFull] at h
  exact fullFold_cacheInv (splitlinesKE data) fullInit s h
    ⟨List.nodup_nil, by intro k hk; simp [fullInit] at hk,
      by intro g hg; simp [fullInit] at hg⟩

-- ## Support for the coverage and equivalence claims

theorem pySplitWs_three (t1 t2 t3 : List Nat)
    (h1ne : t1 ≠ []) (h1 : ∀ x ∈ t1, isWsByte x = false)
    (h2ne : t2 ≠ []) (h2 : ∀ x ∈ t2, isWsByte x = false)
    (h3ne : t3 ≠ []) (h3 : ∀ x ∈ t3, isWsByte x = false) :
    pySplitWs (t1 ++ 32 :: (t2 ++ 32 :: t3)) = [t1, t2, t3] := by
  rw [pySplitWs_token _ _ h1ne h1, pySplitWs_token _ _ h2ne h2, pySplitWs_last _ h3ne h3]

theorem incSim_mode_err (bs : List Block) :
    ∀ a : IncAcc, (incSim a bs).mode = a.mode ∧ (incSim a bs).err = a.err := by
  induction bs with
  | nil =>
    intro a
    exact ⟨rfl, rfl⟩
  | cons b bs ih =>
    intro a
    rw [incSim]
    cases h : lookupKey a.commits b.sha with
    | some c => exact ih _
    | none => exact ih _

theorem incSim_entries_from (bs : List Block) :
    ∀ a : IncAcc, (incSim a bs).entries = a.entries ++ incEntriesFrom a.commits bs := by
  induction bs with
  | nil =>
    intro a
    simp [incSim, incEntriesFrom]
  | cons b bs ih =>
    intro a
    rw [incSim, incEntriesFrom]
    cases h : lookupKey a.commits b.sha with
    | some c =>
      rw [ih]
      simp
    | none =>
      rw [ih]
      simp

theorem incEntriesFrom_linenos (bs : List Block) :
    ∀ co, (incEntriesFrom co bs).map BlameEntry.linenos =
      bs.map (fun b => rangeOf (b.final : Int) (b.size : Int)) := by
  induction bs with
  | nil =>
    intro co
    rfl
  | cons b bs ih =>
    intro co
    rw [incEntriesFrom]
    cases h : lookupKey co b.sha with
    | some c =>
      simp only [List.map_cons, ih]
      rfl
    | none =>
      simp only [List.map_cons, ih]
      rfl

theorem rangeLen_rangeOf_nat (f s : Nat) :
    rangeLen (rangeOf (f : Int) (s : Int)) = s := by
  simp [rangeLen, rangeOf]

theorem sumSizes_cons (b : Block) (bs : List Block) :
    sumSizes (b :: bs) = b.size + sumSizes bs := rfl

theorem rangesUnion_cons (r : PyRange) (rs : List PyRange) :
    rangesUnion (r :: rs) = rangeFinset r ∪ rangesUnion rs := rfl

theorem rangesUnion_tiled (bs : List Block) :
    ∀ n : Nat, tiledFrom n bs = true →
      rangesUnion (bs.map (fun b => rangeOf (b.final : Int) (b.size : Int))) =
        Finset.Ico (n : Int) ((n : Int) + (sumSizes bs : Int)) := by
  induction bs with
  | nil =>
    intro n _
    simp [rangesUnion, sumSizes]
  | cons b bs ih =>
    intro n ht
    rw [tiledFrom, Bool.and_eq_true, beq_iff_eq] at ht
    obtain ⟨hf, ht2⟩ := ht
    rw [List.map_cons, rangesUnion_cons, ih (n + b.size) ht2, sumSizes_cons]
    rw [rangeFinset, rangeOf, hf]
    push_cast
    rw [Finset.Ico_union_Ico_eq_Ico (by omega) (by omega)]
    congr 1
    ring

theorem sum_rangeLens (bs : List Block) :
    ((bs.map (fun b => rangeOf (b.final : Int) (b.size : Int))).map rangeLen).sum =
      sumSizes bs := by
  induction bs with
  | nil => rfl
  | cons b bs ih =>
    simp only [List.map_cons, List.sum_cons, ih, rangeLen_rangeOf_nat, sumSizes_cons]

theorem fullSim_blames (bs : List Block) :
    ∀ (co : List (List Char × Commit)) (bl : List FullGroup) (info : Option FullInfo)
      (lo : List (List Char)),
      (fullSim (FullState.mk co bl info lo) bs).blames = bl ++ fullGroupsFrom co bs := by
  induction bs with
  | nil =>
    intro co bl info lo
    simp [fullSim, fullGroupsFrom]
  | cons b bs ih =>
    intro co bl info lo
    rw [fullSim, fullGroupsFrom]
    cases h : lookupKey co (asStr b.sha) with
    | some c =>
      rw [ih]
      simp
    | none =>
      rw [ih]
      simp

theorem fullGroupsFrom_lineCounts (bs : List Block) (hok : ∀ b ∈ bs, blockOk b = true) :
    ∀ co, (fullGroupsFrom co bs).map (fun g => g.lines.length) = bs.map Block.size := by
  induction bs with
  | nil =>
    intro co
    rfl
  | cons b bs ih =>
    intro co
    have hb := hok b (by simp)
    have hlen : b.contents.length = b.size := (blockOk_parts b hb).2.2.2.1
    have ih2 := ih (fun x hx => hok x (by simp [hx]))
    rw [fullGroupsFrom]
    cases h : lookupKey co (asStr b.sha) with
    | some c =>
      simp only [List.map_cons, ih2, groupOf, List.length_map]
      rw [hlen]
    | none =>
      simp only [List.map_cons, ih2, groupOf, List.length_map]
      rw [hlen]

theorem totalLines_eq_sum (gs : List FullGroup) :
    totalLines gs = (gs.map (fun g => g.lines.length)).sum := by
  induction gs with
  | nil => rfl
  | cons g gs ih =>
    simp only [totalLines, List.foldr_cons, List.map_cons, List.sum_cons]
    rw [← ih]
    rfl

theorem sumSizes_eq_sum (bs : List Block) : sumSizes bs = (bs.map Block.size).sum := by
  induction bs with
  | nil => rfl
  | cons b bs ih =>
    simp only [sumSizes_cons, List.map_cons, List.sum_cons, ih]

theorem pairsOfEntries_from (bs : List Block) :
    ∀ co, (∀ sha c, lookupKey co sha = some c → c.binsha = (hexToBin sha).getD []) →
      pairsOfEntries (incEntriesFrom co bs) = pairsOfBlocks bs := by
  induction bs with
  | nil =>
    intro co _
    rfl
  | cons b bs ih =>
    intro co hinv
    rw [incEntriesFrom]
    cases h : lookupKey co b.sha with
    | some c =>
      rw [show pairsOfEntries (entryOf c b :: incEntriesFrom co bs) =
          (rangeFinset (rangeOf (b.final : Int) (b.size : Int))).image
            (fun l => (c.binsha, l)) ∪ pairsOfEntries (incEntriesFrom co bs) from rfl]
      rw [hinv b.sha c h, ih co hinv, pairsOfBlocks]
      rfl
    | none =>
      have hinv2 : ∀ sha c2,
          lookupKey (dictInsert co b.sha (incCommitOf b)) sha = some c2 →
          c2.binsha = (hexToBin sha).getD [] := by
        intro sha c2 hl
        by_cases he : sha = b.sha
        · rw [he] at hl ⊢
          rw [lookupKey_dictInsert_self co b.sha (incCommitOf b) h] at hl
          have := Option.some.inj hl
          rw [← this]
          rfl
        · rw [lookupKey_dictInsert_other co b.sha sha (incCommitOf b) he] at hl
          exact hinv sha c2 hl
      rw [show pairsOfEntries (entryOf (incCommitOf b) b ::
            incEntriesFrom (dictInsert co b.sha (incCommitOf b)) bs) =
          (rangeFinset (rangeOf (b.final : Int) (b.size : Int))).image
            (fun l => ((incCommitOf b).binsha, l)) ∪
            pairsOfEntries (incEntriesFrom (dictInsert co b.sha (incCommitOf b)) bs)
          from rfl]
      rw [ih _ hinv2, pairsOfBlocks]
      rfl

theorem fullCommitOf_binsha (b : Block) (hb : blockOk b = true) :
    (fullCommitOf b).binsha = (hexToBin b.sha).getD [] := by
  have hsha := (blockOk_parts b hb).1
  rw [fullCommitOf]
  simp only
  rw [hexToBinC_asStr _ (sha_ascii _ hsha)]

theorem pairsOfGroups_from (bs : List Block) :
    ∀ (co : List (List Char × Commit)) (n : Nat),
      (∀ sha c, shaTok sha = true → lookupKey co (asStr sha) = some c →
        c.binsha = (hexToBin sha).getD []) →
      (∀ b ∈ bs, blockOk b = true) → tiledFrom n bs = true →
      pairsOfGroupsAux (n : Int) (fullGroupsFrom co bs) = pairsOfBlocks bs := by
  induction bs with
  | nil =>
    intro co n _ _ _
    rfl
  | cons b bs ih =>
    intro co n hinv hok ht
    have hb := hok b (by simp)
    have hsha := (blockOk_parts b hb).1
    have hlen : b.contents.length = b.size := (blockOk_parts b hb).2.2.2.1
    rw [tiledFrom, Bool.and_eq_true, beq_iff_eq] at ht
    obtain ⟨hf, ht2⟩ := ht
    rw [fullGroupsFrom]
    cases h : lookupKey co (asStr b.sha) with
    | some c =>
      rw [show pairsOfGroupsAux (n : Int) (groupOf c b :: fullGroupsFrom co bs) =
          (Finset.Ico (n : Int)
              ((n : Int) + (b.contents.map (fun x => BLine.text (asStr x))).length)).image
            (fun l => (c.binsha, l)) ∪
          pairsOfGroupsAux ((n : Int) + (b.contents.map (fun x => BLine.text (asStr x))).length)
            (fullGroupsFrom co bs) from rfl]
      rw [List.length_map, hlen, hinv b.sha c hsha h, pairsOfBlocks, hf]
      have hrec := ih co (n + b.size) hinv (fun x hx => hok x (by simp [hx])) ht2
      push_cast at hrec ⊢
      rw [hrec]
    | none =>
      have hinv2 : ∀ sha c2, shaTok sha = true →
          lookupKey (dictInsert co (asStr b.sha) (fullCommitOf b)) (asStr sha) = some c2 →
          c2.binsha = (hexToBin sha).getD [] := by
        intro sha c2 hs hl
        by_cases he : asStr sha = asStr b.sha
        · have hshas : sha = b.sha :=
            asStr_inj_ascii sha b.sha (sha_ascii sha hs) (sha_ascii b.sha hsha) he
          rw [he] at hl
          rw [lookupKey_dictInsert_self co (asStr b.sha) (fullCommitOf b) h] at hl
          have := Option.some.inj hl
          rw [← this, hshas]
          exact fullCommitOf_binsha b hb
        · rw [lookupKey_dictInsert_other co (asStr b.sha) (asStr sha) (fullCommitOf b) he] at hl
          exact hinv sha c2 hs hl
      rw [show pairsOfGroupsAux (n : Int) (groupOf (fullCommitOf b) b ::
            fullGroupsFrom (dictInsert co (asStr b.sha) (fullCommitOf b)) bs) =
          (Finset.Ico (n : Int)
              ((n : Int) + (b.contents.map (fun x => BLine.text (asStr x))).length)).image
            (fun l => ((fullCommitOf b).binsha, l)) ∪
          pairsOfGroupsAux ((n : Int) + (b.contents.map (fun x => BLine.text (asStr x))).length)
            (fullGroupsFrom (dictInsert co (asStr b.sha) (fullCommitOf b)) bs) from rfl]
      rw [List.length_map, hlen, fullCommitOf_binsha b hb, pairsOfBlocks, hf]
      have hrec := ih _ (n + b.size) hinv2 (fun x hx => hok x (by simp [hx])) ht2
      push_cast at hrec ⊢
      rw [hrec]

/-- A continuation header whose sha differs from info['id'] starts a
new group holding the cache's entry for that sha (lines 776-780). -/
theorem fullStepText_hdr3_new (co : List (List Char × Commit)) (bl : List FullGroup)
    (lo : List (List Char)) (i : FullInfo) (b : Block) (k : Nat) (hb : blockOk b = true)
    (hid : i.id ≠ asStr b.sha) :
    fullStepText (FullState.mk co bl (some i) lo)
        (asStr b.sha ++ ' ' :: (asStr (natToDec (b.orig + k)) ++ ' ' ::
          asStr (natToDec (b.final + k)))) =
      .ok (FullState.mk co (bl ++ [⟨lookupKey co (asStr b.sha), [], none⟩])
        (some { id := asStr b.sha }) lo) := by
  have hsha := (blockOk_parts b hb).1
  have hparts : reSplitWs1 (asStr b.sha ++ ' ' :: (asStr (natToDec (b.orig + k)) ++ ' ' ::
      asStr (natToDec (b.final + k)))) =
      [asStr b.sha, asStr (natToDec (b.orig + k)) ++ ' ' :: asStr (natToDec (b.final + k))] := by
    rw [reSplitWs1_pair _ _ (asStr_not_ws _ (sha_ascii _ hsha) (shaTok_not_ws _ hsha)),
      dropWhile_digits_head]
  have hdig : splitSpace (asStr (natToDec (b.orig + k)) ++ ' ' ::
      asStr (natToDec (b.final + k))) =
      [asStr (natToDec (b.orig + k)), asStr (natToDec (b.final + k))] := by
    rw [splitSpace_token _ _ (digits_no_space _), splitSpace_single _ (digits_no_space _)]
  rw [fullStepText]
  simp only [hparts,
    show ∀ (x y : List Char), ([x, y] : List (List Char)).headD [] = x from fun _ _ => rfl,
    show ∀ (x y : List Char), ([x, y] : List (List Char)).getLastD [] = y from fun _ _ => rfl,
    hdig, isHex40_asStr _ hsha, if_true, List.length_cons, List.length_nil]
  simp [hid]

/-- After a cached-sha header, a line whose tag is not filename is the
AssertionError of line 726. -/
theorem incStep_fnOnly_assert (a : IncAcc) (sha : List Nat) (o f n : Int)
    (line tag v : List Nat) (ha : a.err = none) (hm : a.mode = .fnOnly sha o f n)
    (hsplit : pySplit1B 32 line = some (tag, v)) (htag : tag ≠ filenameB) :
    incStep a line = { a with err := some .assertionError } := by
  rw [incStep]
  simp only [ha, Option.isSome_none, Bool.false_eq_true, if_false, hm, hsplit]
  simp only [if_neg htag]

/-- A header line with three whitespace-separated fields fails the
four-name unpacking of line 692 with a ValueError. -/
theorem incStep_head_three (a : IncAcc) (line t1 t2 t3 : List Nat)
    (ha : a.err = none) (hm : a.mode = .head)
    (hsplit : pySplitWs line = [t1, t2, t3]) :
    incStep a line = { a with err := some .valueError } := by
  rw [incStep]
  simp only [ha, Option.isSome_none, Bool.false_eq_true, if_false, hm, hsplit]

-- ## Claim theorems

theorem incEntriesFrom_length (bs : List Block) :
    ∀ co, (incEntriesFrom co bs).length = bs.length := by
  intro co
  have h := congrArg List.length (incEntriesFrom_linenos bs co)
  simpa using h

/-- C1 (corrected part): in incremental mode, when the parser is in the
cached-sha state (the header's commit id was already cached) and the
single following line's tag is not `filename`, the assert of line 726
raises an AssertionError, aborting the parse. -/
theorem C1_cached_nonfilename_assert (a : IncAcc) (sha : List Nat) (o f n : Int)
    (line tag v : List Nat) (c : Commit)
    (ha : a.err = none) (hm : a.mode = .fnOnly sha o f n)
    (hcache : lookupKey a.commits sha = some c)
    (hsplit : pySplit1B 32 line = some (tag, v)) (htag : tag ≠ filenameB) :
    (incStep a line).err = some .assertionError := by
  rw [incStep_fnOnly_assert a sha o f n line tag v ha hm hsplit htag]

/-- C1 witness: a concrete cached-sha state hit by a summary-tagged
line raises the AssertionError. -/
theorem C1_witness :
    pySplit1B 32 (tagLineB summaryB [111]) = some (summaryB, [111]) ∧
    summaryB ≠ filenameB ∧
    lookupKey [(shaA, incCommitOf blockA1)] shaA = some (incCommitOf blockA1) ∧
    (incStep (IncAcc.mk (.fnOnly shaA 1 1 1)
        [(shaA, incCommitOf blockA1)] [] [] [] none)
      (tagLineB summaryB [111])).err = some .assertionError := by
  have hsplit : pySplit1B 32 (tagLineB summaryB [111]) = some (summaryB, [111]) :=
    pySplit1B_tagLine summaryB [111] (by decide)
  refine ⟨hsplit, by decide, rfl, ?_⟩
  exact C1_cached_nonfilename_assert _ shaA 1 1 1 _ summaryB [111] (incCommitOf blockA1)
    rfl rfl rfl hsplit (by decide)

/-- C2 (corrected part): an incremental header line must split into
exactly four fields (line 692); a three-field continuation header is a
ValueError, while a well-formed stream of four-field headers parses
cleanly with one entry per header. -/
theorem C2_header_fields (a : IncAcc) (line t1 t2 t3 : List Nat) (bs : List Block)
    (ha : a.err = none) (hm : a.mode = .head)
    (hsplit : pySplitWs line = [t1, t2, t3])
    (hok : ∀ b ∈ bs, blockOk b = true) :
    (incStep a line).err = some .valueError ∧
    (blame_incremental (renderInc bs)).entries.length = bs.length ∧
    (blame_incremental (renderInc bs)).err = none := by
  refine ⟨?_, ?_, ?_⟩
  · rw [incStep_head_three a line t1 t2 t3 ha hm hsplit]
  · rw [blame_incremental_render bs hok, incSim_entries_from]
    simp [incEntriesFrom_length, incInit]
  · rw [blame_incremental_render bs hok]
    exact (incSim_mode_err bs incInit).2

/-- C2 witness: a concrete three-field header line in head mode raises
the ValueError, while the one-block well-formed stream yields exactly
one entry. -/
theorem C2_witness :
    pySplitWs (shaA ++ 32 :: (natToDec 2 ++ 32 :: natToDec 2)) =
      [shaA, natToDec 2, natToDec 2] ∧
    (incStep incInit (shaA ++ 32 :: (natToDec 2 ++ 32 :: natToDec 2))).err =
      some .valueError ∧
    (blame_incremental (renderInc [blockA1])).entries.length = 1 ∧
    (blame_incremental (renderInc [blockA1])).err = none := by
  have hsplit := pySplitWs_three shaA (natToDec 2) (natToDec 2) (by decide) (by decide)
    (natToDec_ne_nil 2) (natToDec_not_ws 2) (natToDec_ne_nil 2) (natToDec_not_ws 2)
  have h := C2_header_fields incInit _ shaA (natToDec 2) (natToDec 2) [blockA1]
    rfl rfl hsplit (by decide)
  exact ⟨hsplit, h.1, h.2.1, h.2.2⟩

/-- C4: a content line whose bytes fail to decode is appended to the
current group byte-for-byte as binary (no tab strip), the parse
continues with an ok state, and no error is surfaced. -/
theorem C4_binary_line (co : List (List Char × Commit)) (bl : List FullGroup)
    (g : FullGroup) (lo : List (List Char)) (i : FullInfo) (raw : List Nat) (c : Commit)
    (hdec : utf8Decode (pyRstripB raw) = none)
    (hc : lookupKey co i.id = some c) :
    fullStep (FullState.mk co (bl ++ [g]) (some i) lo) raw =
      .ok (FullState.mk co
        (bl ++ [⟨some c, g.lines ++ [BLine.binary raw], some i.id⟩])
        (some { id := i.id }) lo) := by
  rw [fullStep, hdec,
    fullFinalize_cached co bl g lo i c (.binary raw) true i.id rfl hc,
    outLineOf_binary]

/-- C4 witness: the undecodable byte 255 is kept verbatim as a binary
line and the step succeeds. -/
theorem C4_witness :
    utf8Decode (pyRstripB [255]) = none ∧
    fullStep (FullState.mk [([], Commit.mk [] ⟨[], []⟩ 0 ⟨[], []⟩ 0)]
        ([] ++ [⟨none, [], none⟩]) (some { id := [] }) []) [255] =
      .ok (FullState.mk [([], Commit.mk [] ⟨[], []⟩ 0 ⟨[], []⟩ 0)]
        ([] ++ [⟨some (Commit.mk [] ⟨[], []⟩ 0 ⟨[], []⟩ 0), [] ++ [BLine.binary [255]],
          some []⟩])
        (some { id := [] }) []) := by
  refine ⟨by decide, ?_⟩
  exact C4_binary_line [([], Commit.mk [] ⟨[], []⟩ 0 ⟨[], []⟩ 0)] [] ⟨none, [], none⟩ []
    ({ id := [] }) [255] (Commit.mk [] ⟨[], []⟩ 0 ⟨[], []⟩ 0) (by decide) rfl

/-- C9: every entry the incremental parser yields, on any input, has a
final-line range and an original-line range of equal length (lines
729-732 build both from the same num_lines). -/
theorem C9_range_lengths (data : List Nat) :
    ∀ e ∈ (blame_incremental data).entries,
      rangeLen e.linenos = rangeLen e.orig_linenos := by
  rw [blame_incremental]
  refine foldl_incStep_ranges (incStream data) incInit ?_
  intro e he
  simp [incInit] at he

/-- C9 witness: the entry of a concrete one-block stream has ranges of
equal length. -/
theorem C9_witness :
    entryOf (incCommitOf blockA1) blockA1 ∈
      (blame_incremental (renderInc [blockA1])).entries ∧
    rangeLen (entryOf (incCommitOf blockA1) blockA1).linenos =
      rangeLen (entryOf (incCommitOf blockA1) blockA1).orig_linenos := by
  have hmem : entryOf (incCommitOf blockA1) blockA1 ∈
      (blame_incremental (renderInc [blockA1])).entries := by
    rw [blame_incremental_render [blockA1] (by decide)]
    decide
  exact ⟨hmem, C9_range_lengths (renderInc [blockA1]) _ hmem⟩

/-- C10: with the incremental flag the dispatcher returns exactly the
incremental generator's stream for the same underlying data, never the
grouped list, and without the flag it returns the grouped parse. -/
theorem C10_dispatch (g : GitData) :
    blame g true = .stream (blame_incremental g.incData) ∧
    blame g false = .groups (blameFull g.fullData) ∧
    ∀ r, blame g true ≠ .groups r := by
  refine ⟨rfl, rfl, ?_⟩
  intro r h
  rw [blame] at h
  simp at h

/-- C1 counterexample: in full mode, a header whose commit id is
already cached followed immediately by a summary (non-filename) tag
line parses without any failure: the parse completes with two groups. -/
theorem C1_counterexample :
    ∃ s, blameFull c1FullInput = .ok s ∧ s.blames.length = 2 := by
  have hb1 : blockOk blockA1 = true := by decide
  have hb2 : blockOk blockA2 = true := by decide
  have hok13 : ∀ l ∈ fullBlockLines false blockA1 ++
      [hdr4 blockA2, tagLineB summaryB [111], contLine [121]],
      ∀ x ∈ l, x ≠ 10 ∧ x ≠ 13 := by
    intro l hl
    rcases List.mem_append.1 hl with h1 | h2
    · exact fullBlockLines_ok13 blockA1 hb1 false l h1
    · simp only [List.mem_cons, List.not_mem_nil, or_false] at h2
      rcases h2 with h3 | h3 | h3 <;> subst h3
      · exact hdr4_ok13 blockA2 hb2
      · exact tagLineB_ok13 summaryB [111] (by decide) (by decide)
      · exact contLine_ok13 [121] (by decide)
  rw [blameFull, c1FullInput, splitlinesKE_joinNl _ hok13, List.map_append,
    show (fullInit : FullState) = FullState.mk [] [] none [] from rfl]
  rw [fullFold_blockNew blockA1 hb1 [] [] none [] _ rfl]
  simp only [List.map_cons, List.map_nil]
  rw [fullFold_cons_ok _ _ _ _ (by
    rw [fullStep_of_decode _ _ _ (decode_hdr4_nl blockA2 hb2)]
    exact fullStepText_hdr4 _ _ _ _ blockA2 hb2)]
  rw [fullFold_cons_ok _ _ _ _ (by
    rw [fullStep_of_decode _ _ _
      (decode_tagLine_nl summaryB [111] (by decide) (by decide) (by decide) (by decide))]
    exact fullStepText_summaryLine _ _ _ _ [111] (by decide) (by decide) (by decide))]
  simp only [infoSet_summary]
  rw [fullFold_cons_ok _ _ _ _ (by
    rw [fullStep_of_decode _ _ _ (decode_contLine_cons [121] (by decide) (by decide)),
      fullStepText_tabHead]
    exact fullFinalize_cached _ _ _ _ _ (fullCommitOf blockA1) _ _ (asStr blockA1.sha) rfl
      (lookupKey_dictInsert_self [] (asStr blockA1.sha) (fullCommitOf blockA1) rfl))]
  rw [outLineOf_tab]
  exact ⟨_, rfl, rfl⟩

/-- C2 counterexample: a stream whose second header carries only three
fields kills the incremental parse with a ValueError after the first
entry was yielded. -/
theorem C2_counterexample :
    (blame_incremental c2IncInput).err = some .valueError ∧
    (blame_incremental c2IncInput).entries.length = 1 := by
  have hb1 : blockOk blockA1 = true := by decide
  have hall : ∀ l ∈ incBlockLines false blockA1 ++
      [shaA ++ 32 :: (natToDec 2 ++ 32 :: natToDec 2)], l ≠ [] ∧ ∀ x ∈ l, x ≠ 10 := by
    intro l hl
    rcases List.mem_append.1 hl with h1 | h2
    · rw [incBlockLines, if_neg (by simp)] at h1
      rcases List.mem_cons.1 h1 with h3 | h4
      · subst h3
        exact hdr4_ok blockA1 hb1
      · exact metaLines_ok blockA1 hb1 l h4
    · simp only [List.mem_singleton] at h2
      subst h2
      constructor
      · simp [shaA]
      · intro x hx
        rcases List.mem_append.1 hx with h3 | h4
        · exact sha_no10 shaA (by decide) x h3
        · rcases List.mem_cons.1 h4 with h5 | h6
          · omega
          · rcases List.mem_append.1 h6 with h7 | h8
            · exact natToDec_no10 2 x h7
            · rcases List.mem_cons.1 h8 with h9 | h10
              · omega
              · exact natToDec_no10 2 x h10
  have hsplit := pySplitWs_three shaA (natToDec 2) (natToDec 2) (by decide) (by decide)
    (natToDec_ne_nil 2) (natToDec_not_ws 2) (natToDec_ne_nil 2) (natToDec_not_ws 2)
  rw [blame_incremental, c2IncInput, incStream_joinNl _ hall, List.foldl_append]
  have hfold : List.foldl incStep incInit (incBlockLines false blockA1) =
      incSim incInit [blockA1] := by
    have h3 := foldl_renderIncAux [blockA1] [] [] [] [] [] (by decide)
      (by intro sha; simp [lookupKey])
    rw [renderIncAux, renderIncAux] at h3
    rw [show decide (blockA1.sha ∈ ([] : List (List Nat))) = false from rfl,
      List.append_nil] at h3
    exact h3
  rw [hfold]
  simp only [List.foldl_cons, List.foldl_nil]
  have hA : incSim incInit [blockA1] = IncAcc.mk .head [(shaA, incCommitOf blockA1)]
      [entryOf (incCommitOf blockA1) blockA1] [shaA] [shaA] none := rfl
  rw [hA, incStep_head_three _ _ shaA (natToDec 2) (natToDec 2) rfl rfl hsplit]
  exact ⟨rfl, rfl⟩

/-- C3 counterexample: a stream that ends right after a header and one
metadata line (a pending partial block) terminates the incremental
parse silently: no error is recorded, no entry is yielded, and the
parser is left mid-block. -/
theorem C3_counterexample :
    (blame_incremental c3IncInput).err = none ∧
    (blame_incremental c3IncInput).entries = [] ∧
    (blame_incremental c3IncInput).mode ≠ .head := by
  have hb1 : blockOk blockA1 = true := by decide
  have hall : ∀ l ∈ [hdr4 blockA1, tagLineB authorB [116]],
      l ≠ [] ∧ ∀ x ∈ l, x ≠ 10 := by
    intro l hl
    simp only [List.mem_cons, List.not_mem_nil, or_false] at hl
    rcases hl with h | h <;> subst h
    · exact hdr4_ok blockA1 hb1
    · exact tagLineB_ok authorB [116] (by decide) (by decide)
  rw [blame_incremental, c3IncInput, incStream_joinNl _ hall]
  simp only [List.foldl_cons, List.foldl_nil]
  rw [show (incInit : IncAcc) = IncAcc.mk .head [] [] [] [] none from rfl,
    incStep_hdr4_mk [] [] [] [] blockA1 hb1]
  rw [if_neg (by simp [lookupKey])]
  rw [incStep_metaTag_mk [] [] [] [] blockA1.sha (blockA1.orig : Int) (blockA1.final : Int)
    (blockA1.size : Int) [] authorB [116] (by decide) (by decide)]
  exact ⟨rfl, rfl, by simp⟩

/-- C3 (corrected part): a cleanly ending well-formed stream parses
with no error, and a stream exhausted right after one extra header line
also ends with no error, the same entries, and the parser left pending
mid-block (the pre-PEP-479 generator dies silently, yielding nothing
more). -/
theorem C3_end_of_stream (bs : List Block) (b : Block)
    (hok : ∀ x ∈ bs, blockOk x = true) (hb : blockOk b = true) :
    (blame_incremental (renderInc bs)).err = none ∧
    (blame_incremental (joinNl (renderIncAux [] bs ++ [hdr4 b]))).err = none ∧
    (blame_incremental (joinNl (renderIncAux [] bs ++ [hdr4 b]))).entries =
      (blame_incremental (renderInc bs)).entries ∧
    (blame_incremental (joinNl (renderIncAux [] bs ++ [hdr4 b]))).mode ≠ .head := by
  have hrender := blame_incremental_render bs hok
  have hlines := renderIncAux_ok bs [] hok
  have hall : ∀ l ∈ renderIncAux [] bs ++ [hdr4 b], l ≠ [] ∧ ∀ x ∈ l, x ≠ 10 := by
    intro l hl
    rcases List.mem_append.1 hl with h1 | h2
    · exact hlines l h1
    · simp only [List.mem_singleton] at h2
      subst h2
      exact hdr4_ok b hb
  obtain ⟨hmode, herr⟩ := incSim_mode_err bs incInit
  have herr2 : (incSim incInit bs).err = none := herr
  have hmode2 : (incSim incInit bs).mode = .head := hmode
  have hstream : blame_incremental (joinNl (renderIncAux [] bs ++ [hdr4 b])) =
      incStep (incSim incInit bs) (hdr4 b) := by
    rw [blame_incremental, incStream_joinNl _ hall, List.foldl_append]
    simp only [List.foldl_cons, List.foldl_nil]
    have h3 : blame_incremental (renderInc bs) =
        List.foldl incStep incInit (renderIncAux [] bs) := by
      rw [blame_incremental, renderInc, incStream_joinNl _ hlines]
    rw [← h3, hrender]
  rw [hstream, incStep_hdr4 (incSim incInit bs) b herr2 hmode2 hb, hrender]
  refine ⟨herr2, ?_, ?_, ?_⟩
  · by_cases hs : (lookupKey (incSim incInit bs).commits b.sha).isSome = true
    · rw [if_pos hs]
      exact herr2
    · rw [if_neg hs]
      exact herr2
  · by_cases hs : (lookupKey (incSim incInit bs).commits b.sha).isSome = true
    · rw [if_pos hs]
    · rw [if_neg hs]
  · by_cases hs : (lookupKey (incSim incInit bs).commits b.sha).isSome = true
    · rw [if_pos hs]
      simp
    · rw [if_neg hs]
      simp

/-- C3 witness: one well-formed block followed by a bare extra header
ends silently, pending mid-block. -/
theorem C3_witness :
    (∀ x ∈ [blockA1], blockOk x = true) ∧ blockOk blockB1 = true ∧
    (blame_incremental (joinNl (renderIncAux [] [blockA1] ++ [hdr4 blockB1]))).err = none ∧
    (blame_incremental (joinNl (renderIncAux [] [blockA1] ++ [hdr4 blockB1]))).mode ≠
      .head := by
  have h := C3_end_of_stream [blockA1] blockB1 (by decide) (by decide)
  exact ⟨by decide, by decide, h.2.1, h.2.2.2⟩

theorem fullGroupsFrom_gKeys (bs : List Block) :
    ∀ co, (fullGroupsFrom co bs).map FullGroup.gKey =
      bs.map (fun b => some (asStr b.sha)) := by
  induction bs with
  | nil =>
    intro co
    rfl
  | cons b bs ih =>
    intro co
    rw [fullGroupsFrom]
    cases h : lookupKey co (asStr b.sha) with
    | some c =>
      simp only [List.map_cons, ih]
      rfl
    | none =>
      simp only [List.map_cons, ih]
      rfl

/-- C5: within one parse of either mode, on any input, a commit object
is constructed at most once per id (the ghost construction log has no
duplicates) and every yielded entry (incremental) or finalized group
(full) holds exactly the cache's binding for its id, i.e. the one
cached instance. -/
theorem C5_cache_identity (data : List Nat) (s : FullState)
    (hfull : blameFull data = .ok s) :
    (blame_incremental data).log.Nodup ∧
    (∀ p ∈ (blame_incremental data).entries.zip (blame_incremental data).keys,
      lookupKey (blame_incremental data).commits p.2 = some p.1.commit) ∧
    s.log.Nodup ∧
    (∀ g ∈ s.blames, ∀ key c, g.gKey = some key → g.commit = some c →
      lookupKey s.commits key = some c) := by
  obtain ⟨i1, i2, i3, i4, i5⟩ := blame_incremental_cacheInv data
  obtain ⟨f1, f2, f3⟩ := blameFull_cacheInv data s hfull
  exact ⟨i1, i4, f1, f3⟩

/-- C5 witness: on a concrete well-formed one-block stream the full
parse succeeds and both construction logs are duplicate-free. -/
theorem C5_witness :
    blameFull (renderFull [blockA1]) = .ok (fullSim fullInit [blockA1]) ∧
    (blame_incremental (renderFull [blockA1])).log.Nodup ∧
    (fullSim fullInit [blockA1]).log.Nodup := by
  have hfull := blameFull_render [blockA1] (by decide)
  have h := C5_cache_identity (renderFull [blockA1]) (fullSim fullInit [blockA1]) hfull
  exact ⟨hfull, h.1, h.2.2.1⟩

/-- C6: for a well-formed stream tiling a file of N lines, the union of
the incremental entries' final-line ranges is exactly [1, N] with no
gap, their lengths sum to N (so the ranges cannot overlap), and the
full-mode groups' line counts also sum to N. -/
theorem C6_coverage (bs : List Block) (hok : ∀ b ∈ bs, blockOk b = true)
    (ht : tiledFrom 1 bs = true) :
    rangesUnion ((blame_incremental (renderInc bs)).entries.map BlameEntry.linenos) =
      Finset.Ico (1 : Int) (1 + (sumSizes bs : Int)) ∧
    (((blame_incremental (renderInc bs)).entries.map BlameEntry.linenos).map
      rangeLen).sum = sumSizes bs ∧
    totalLines (fullBlamesOf (renderFull bs)) = sumSizes bs := by
  have hent : (blame_incremental (renderInc bs)).entries = incEntriesFrom [] bs := by
    rw [blame_incremental_render bs hok, incSim_entries_from]
    rfl
  refine ⟨?_, ?_, ?_⟩
  · rw [hent, incEntriesFrom_linenos]
    have h := rangesUnion_tiled bs 1 ht
    push_cast at h
    exact h
  · rw [hent, incEntriesFrom_linenos, sum_rangeLens]
  · rw [fullBlamesOf]
    simp only [blameFull_render bs hok]
    rw [show (fullInit : FullState) = FullState.mk [] [] none [] from rfl, fullSim_blames]
    rw [List.nil_append, totalLines_eq_sum, fullGroupsFrom_lineCounts bs hok [],
      ← sumSizes_eq_sum]

/-- C6 witness: two concrete blocks tiling lines 1..3. -/
theorem C6_witness :
    (∀ b ∈ [blockA1, blockB1], blockOk b = true) ∧
    tiledFrom 1 [blockA1, blockB1] = true ∧
    rangesUnion ((blame_incremental (renderInc [blockA1, blockB1])).entries.map
      BlameEntry.linenos) =
      Finset.Ico (1 : Int) (1 + (sumSizes [blockA1, blockB1] : Int)) := by
  have h := C6_coverage [blockA1, blockB1] (by decide) (by decide)
  exact ⟨by decide, by decide, h.1⟩

/-- C7: a four-field header always starts a fresh group; a continuation
header starts a new group exactly when its id differs from info['id']
(taking the cache's commit), and leaves the groups unchanged when it
matches; the produced groups appear in stream order, keyed by each
block's sha (so one sha may own several groups). -/
theorem C7_grouping (co : List (List Char × Commit)) (bl : List FullGroup)
    (info : Option FullInfo) (lo : List (List Char)) (i : FullInfo)
    (b : Block) (k : Nat) (bs : List Block)
    (hb : blockOk b = true) (hbs : ∀ x ∈ bs, blockOk x = true) :
    fullStepText (FullState.mk co bl info lo)
        (asStr b.sha ++ ' ' :: (asStr (natToDec b.orig) ++ ' ' ::
          (asStr (natToDec b.final) ++ ' ' :: asStr (natToDec b.size)))) =
      .ok (FullState.mk co (bl ++ [⟨none, [], none⟩]) (some { id := asStr b.sha }) lo) ∧
    (i.id = asStr b.sha →
      fullStepText (FullState.mk co bl (some i) lo)
          (asStr b.sha ++ ' ' :: (asStr (natToDec (b.orig + k)) ++ ' ' ::
            asStr (natToDec (b.final + k)))) =
        .ok (FullState.mk co bl (some i) lo)) ∧
    (i.id ≠ asStr b.sha →
      fullStepText (FullState.mk co bl (some i) lo)
          (asStr b.sha ++ ' ' :: (asStr (natToDec (b.orig + k)) ++ ' ' ::
            asStr (natToDec (b.final + k)))) =
        .ok (FullState.mk co (bl ++ [⟨lookupKey co (asStr b.sha), [], none⟩])
          (some { id := asStr b.sha }) lo)) ∧
    (fullBlamesOf (renderFull bs)).map FullGroup.gKey =
      bs.map (fun x => some (asStr x.sha)) := by
  refine ⟨fullStepText_hdr4 co bl info lo b hb,
    fun hid => fullStepText_hdr3 co bl lo i b k hb hid,
    fun hid => fullStepText_hdr3_new co bl lo i b k hb hid, ?_⟩
  rw [fullBlamesOf]
  simp only [blameFull_render bs hbs]
  rw [show (fullInit : FullState) = FullState.mk [] [] none [] from rfl, fullSim_blames]
  rw [List.nil_append, fullGroupsFrom_gKeys bs []]

/-- C7 witness: the two-block stream produces its groups in stream
order keyed by each block's sha. -/
theorem C7_witness :
    blockOk blockA1 = true ∧
    (fullBlamesOf (renderFull [blockA1, blockB1])).map FullGroup.gKey =
      [some (asStr shaA), some (asStr shaB)] := by
  have h := C7_grouping [] [] none [] { id := [] } blockA1 0 [blockA1, blockB1]
    (by decide) (by decide)
  exact ⟨by decide, h.2.2.2⟩

/-- C8: for the same well-formed blocks, the set of (binary sha, final
line) pairs from expanding full-mode groups over their consecutive
lines equals the set from expanding each incremental entry's final
range. -/
theorem C8_mode_equivalence (bs : List Block) (hok : ∀ b ∈ bs, blockOk b = true)
    (ht : tiledFrom 1 bs = true) :
    pairsOfGroups (fullBlamesOf (renderFull bs)) =
      pairsOfEntries ((blame_incremental (renderInc bs)).entries) := by
  have hent : (blame_incremental (renderInc bs)).entries = incEntriesFrom [] bs := by
    rw [blame_incremental_render bs hok, incSim_entries_from]
    rfl
  have hblames : fullBlamesOf (renderFull bs) = fullGroupsFrom [] bs := by
    rw [fullBlamesOf]
    simp only [blameFull_render bs hok]
    rw [show (fullInit : FullState) = FullState.mk [] [] none [] from rfl, fullSim_blames]
    rw [List.nil_append]
  rw [hblames, hent, pairsOfGroups]
  have hg := pairsOfGroups_from bs [] 1
    (by intro sha c _ hl; simp [lookupKey] at hl) hok ht
  push_cast at hg
  rw [hg, pairsOfEntries_from bs [] (by intro sha c hl; simp [lookupKey] at hl)]

/-- C8 witness: the two-block stream gives equal pair sets in both
modes. -/
theorem C8_witness :
    (∀ b ∈ [blockA1, blockB1], blockOk b = true) ∧
    tiledFrom 1 [blockA1, blockB1] = true ∧
    pairsOfGroups (fullBlamesOf (renderFull [blockA1, blockB1])) =
      pairsOfEntries ((blame_incremental (renderInc [blockA1, blockB1])).entries) :=
  ⟨by decide, by decide, C8_mode_equivalence [blockA1, blockB1] (by decide) (by decide)⟩
